import Mathlib

/-!
# Serial S-record bootloader (Mock_prj1): embedding and verification

Shallow embedding of `srec_parser.c`, `uart_buffer.c`, `srec_queue.c`, of
`Erase_Multi_Sector` of `FLASH.c` and of `Bootloader_Mode`, `jump_to_app` and `main` of
`main.c`, followed by the properties proved about them.

Conventions of the embedding:
* a `char` / `uint8_t` is a natural number below 256, a `uint32_t` a natural
  number below `2 ^ 32`; every truncating C operation carries its `%`;
* a C pointer or array is a function `Nat → Nat` from index to the byte stored
  there, `advance p k` is the pointer `p + k`;
* the static and global variables of the three translation units are the
  fields of `BootState`; the uninitialised locals `srec_line` and `rec` of
  `Bootloader_Mode` are fields as well, so that whatever the stack held
  before a call is an arbitrary value of the state;
* each call of `Program_LongWord_8B` is recorded, in order, in the field
  `programs` as the pair of its address argument and the eight bytes it reads;
  each `UART_SendFast` of a completion notice is recorded in `sent`;
* waits on the hardware (the transmit-busy poll of `UART_SendFast`, the flash
  command completion inside `Program_LongWord_8B`) are taken to return, and
  `DISABLE_INTERRUPTS` / `ENABLE_INTERRUPTS` leave no trace;
* loops that the source does not bound take a fuel argument and return
  `none` when the fuel runs out;
* `feed` drives the main loop: for every received byte the receive interrupt
  pushes it into the byte queue and `Bootloader_Mode` then runs once; `main_loop`
  does the same for any schedule of received bytes, several or none per pass;
* a run of `main` is the list of its `BootEvent`s: messages sent, flash commands,
  the register writes of `jump_to_app` and the call of the application, which is
  taken not to return; the clock set-up and `Board_Init` leave no trace.

Layout: the embedding of the source, the vocabulary of the specification, the
predicates and sample inputs used in proofs, auxiliary lemmas, and finally the
claims in order.
-/

namespace Bootloader

/-! ## srec_parser.c -/

/-- Pointer arithmetic: `advance line k` is the C pointer `line + k`. -/
def advance (line : Nat → Nat) (k : Nat) : Nat → Nat := fun i => line (k + i)

/-- The digit ladder of `hex_to_byte` for one character: the three accepted
ranges `'0'..'9'`, `'A'..'F'`, `'a'..'f'`; `none` is the final `else` branch. -/
def hex_nibble (c : Nat) : Option Nat :=
  if 48 ≤ c ∧ c ≤ 57 then some (c - 48)
  else if 65 ≤ c ∧ c ≤ 70 then some (c - 65 + 10)
  else if 97 ≤ c ∧ c ≤ 102 then some (c - 97 + 10)
  else none

/-- The function `hex_to_byte`: either character outside the ranges makes it return 0. -/
def hex_to_byte (hex : Nat → Nat) : Nat :=
  match hex_nibble (hex 0) with
  | none => 0
  | some high =>
    match hex_nibble (hex 1) with
    | none => 0
    | some low => ((high <<< 4) ||| low) % 256

/-- The struct `srec_record_t`. The field `type` holds the integer the parser
stores (the kind digit minus `'0'`), `data` is the 256-byte array. -/
structure srec_record_t where
  type : Int
  address : Nat
  data : Nat → Nat
  data_len : Nat
  checksum : Nat
  valid : Nat

/-- The `switch (type)` of `parse_srec_line`: the address length in bytes,
`none` for the `default: return -2` branch. -/
def addr_len_of (type : Int) : Option Nat :=
  if type = 0 ∨ type = 1 ∨ type = 5 ∨ type = 9 then some 2
  else if type = 2 ∨ type = 8 then some 3
  else if type = 3 ∨ type = 7 then some 4
  else none

/-- The function `parse_srec_line`: the return code and the record as the
call leaves it. `data_len` is the signed `int` of the source; the payload
loops run `data_len.toNat` times (no iteration when it is negative) and the
`uint8_t` field receives it modulo 256. The checksum loop over the address,
which the source steps by 2 up to `addr_len * 2`, visits the same offsets
`4 + i * 2` for `i < addr_len`; `sum` is a `uint8_t`, reduced after each addition. -/
def parse_srec_line (line : Nat → Nat) (r : srec_record_t) : Int × srec_record_t :=
  let count := hex_to_byte (advance line 2)
  if line 0 ≠ 83 then (-1, r)
  else
    let type : Int := (line 1 : Int) - 48
    let r1 : srec_record_t := { r with type := type }
    match addr_len_of type with
    | none => (-2, r1)
    | some addr_len =>
      let address := (List.range addr_len).foldl
        (fun a i => ((a <<< 8) % 4294967296) ||| hex_to_byte (advance line (4 + i * 2))) 0
      let data_len : Int := (count : Int) - (addr_len : Int) - 1
      let pos := 4 + addr_len * 2
      let data := (List.range data_len.toNat).foldl
        (fun d i => Function.update d i (hex_to_byte (advance line (pos + i * 2)))) r.data
      let checksum := hex_to_byte (advance line (((pos : Int) + data_len * 2).toNat))
      let sum1 := (List.range addr_len).foldl
        (fun s i => (s + hex_to_byte (advance line (4 + i * 2))) % 256) count
      let sum2 := (List.range data_len.toNat).foldl (fun s i => (s + data i) % 256) sum1
      let sum3 := (sum2 + checksum) % 256
      (0, { type := type, address := address, data := data,
            data_len := (data_len % 256).toNat, checksum := checksum,
            valid := if sum3 &&& 255 = 255 then 1 else 0 })

/-! ## uart_buffer.c -/

/-- The statics of `uart_buffer.c`. -/
structure UartBuffer where
  uart_rx_buf : Nat → Nat
  head : Nat
  tail : Nat
  count : Nat

/-- The macro `UART_QUEUE_SIZE`. -/
def UART_QUEUE_SIZE : Nat := 200

/-- The function `UART_BufferInit`: `head = tail = count = 0`. -/
def UART_BufferInit (q : UartBuffer) : UartBuffer :=
  { q with head := 0, tail := 0, count := 0 }

/-- The function `UART_BufferPush`: the returned flag and the queue afterwards. -/
def UART_BufferPush (q : UartBuffer) (data : Nat) : Bool × UartBuffer :=
  if q.count ≥ UART_QUEUE_SIZE then (false, q)
  else (true, { uart_rx_buf := Function.update q.uart_rx_buf q.head data,
                head := (q.head + 1) % UART_QUEUE_SIZE,
                tail := q.tail,
                count := (q.count + 1) % 65536 })

/-- The function `UART_BufferPop`: success flag, the byte stored through the out-pointer
(`none` when nothing is stored) and the queue afterwards. -/
def UART_BufferPop (q : UartBuffer) : Bool × Option Nat × UartBuffer :=
  if q.count = 0 then (false, none, q)
  else (true, some (q.uart_rx_buf q.tail),
        { q with tail := (q.tail + 1) % UART_QUEUE_SIZE, count := q.count - 1 })

/-! ## srec_queue.c -/

/-- The macro `SREC_MAX_LINES`. -/
def SREC_MAX_LINES : Nat := 4

/-- The macro `SREC_LINE_MAX_LEN`. -/
def SREC_LINE_MAX_LEN : Nat := 256

/-- The statics of `srec_queue.c`; `srec_buf row i` is `srec_buf[row][i]`. -/
structure SrecQueue where
  srec_buf : Nat → Nat → Nat
  head : Nat
  tail : Nat
  count : Nat

/-- The function `SREC_QueueInit`: `head = tail = count = 0`. -/
def SREC_QueueInit (q : SrecQueue) : SrecQueue :=
  { q with head := 0, tail := 0, count := 0 }

/-- The copy loop shared by `SREC_QueuePush` and `SREC_QueuePop`:
`while (src[i] != 0 && i < 255) { dst[i] = src[i]; i++; }  dst[i] = 0;`.
The first argument bounds the number of iterations; the loop condition
`i < 255` makes 255 iterations from `i = 0` the most the source can run. -/
def copy_line (src : Nat → Nat) : Nat → Nat → (Nat → Nat) → (Nat → Nat)
  | 0, i, dst => Function.update dst i 0
  | fuel + 1, i, dst =>
    if src i ≠ 0 ∧ i < SREC_LINE_MAX_LEN - 1 then
      copy_line src fuel (i + 1) (Function.update dst i (src i))
    else Function.update dst i 0

/-- The function `SREC_QueuePush`: the returned flag and the queue afterwards. -/
def SREC_QueuePush (q : SrecQueue) (line : Nat → Nat) : Bool × SrecQueue :=
  if q.count < SREC_MAX_LINES then
    (true, { srec_buf := Function.update q.srec_buf q.head
                           (copy_line line 255 0 (q.srec_buf q.head)),
             head := (q.head + 1) % SREC_MAX_LINES,
             tail := q.tail,
             count := (q.count + 1) % 256 })
  else (false, q)

/-- The function `SREC_QueuePop`: success flag, the queue afterwards and the
caller's buffer `out_line` afterwards. -/
def SREC_QueuePop (q : SrecQueue) (out_line : Nat → Nat) : Bool × SrecQueue × (Nat → Nat) :=
  if q.count > 0 then
    (true, { q with tail := (q.tail + 1) % SREC_MAX_LINES, count := q.count - 1 },
     copy_line (q.srec_buf q.tail) 255 0 out_line)
  else (false, q, out_line)

/-! ## main.c -/

/-- The macro `APP_FLASH_START`. -/
def APP_FLASH_START : Nat := 0x0000A000

/-- The macro `APP_FLASH_LENGTH`. -/
def APP_FLASH_LENGTH : Nat := 0x00076000

/-- The macro `APP_FLASH_END`, the last byte of the application window: 0x0007FFFF. -/
def APP_FLASH_END : Nat := APP_FLASH_START + APP_FLASH_LENGTH - 1

/-- The macro `MAX_LINE_LENGTH`, the size of `line_buf` and `srec_line`. -/
def MAX_LINE_LENGTH : Nat := 256

/-- The macro `FLASH_ALIGN_SIZE`. -/
def FLASH_ALIGN_SIZE : Nat := 8

/-- The macro `FLASH_HALF_SIZE`. -/
def FLASH_HALF_SIZE : Nat := 4

/-- The three completion notices `Bootloader_Mode` sends after an end-of-file record. -/
inductive UartMsg where
  | flash_completed
  | please_reset
  | app_will_run
  deriving DecidableEq

/-- The state `Bootloader_Mode` works on. -/
structure BootState where
  uart : UartBuffer
  queue : SrecQueue
  line_buf : Nat → Nat
  line_pos : Nat
  pending_valid : Nat
  pending_base : Nat
  pending_low4 : Nat → Nat
  srec_line : Nat → Nat
  record : srec_record_t
  programs : List (Nat × List Nat)
  sent : List UartMsg

/-- The call `Program_LongWord_8B(Addr, Data)` as `Bootloader_Mode` observes it: the
address and the eight bytes read through `Data` are appended to the trace. -/
def Program_LongWord_8B (Addr : Nat) (Data : Nat → Nat) (s : BootState) : BootState :=
  { s with programs := s.programs ++
      [(Addr, [Data 0, Data 1, Data 2, Data 3, Data 4, Data 5, Data 6, Data 7])] }

/-- The call `memcpy(dst, src, 4)`. -/
def memcpy4 (dst src : Nat → Nat) : Nat → Nat := fun i => if i < 4 then src i else dst i

/-- The buffer `buf8` of Case 2 and of the end-of-file flush after
`memset(buf8, 0xFF, 8)`. -/
def buf8_erased : Nat → Nat := fun _ => 255

/-- The call `memcpy(&buf8[4], p, 4)`. -/
def memcpy4_high (dst src : Nat → Nat) : Nat → Nat :=
  fun i => if 4 ≤ i ∧ i < 8 then src (i - 4) else dst i

/-- The loop `while (len > 0U)` of `Bootloader_Mode` with its locals `addr`, `len`, `p`.
One unit of fuel is spent per evaluation of the loop condition. The final
`else { /* do nothing */ }` branch re-enters the loop with nothing changed. -/
def write_loop : Nat → Nat → Nat → (Nat → Nat) → BootState → Option BootState
  | 0, _, _, _, _ => none
  | fuel + 1, addr, len, p, s =>
    if len = 0 then some s
    else if addr &&& 7 = 0 ∧ len = 4 then
      write_loop fuel ((addr + FLASH_HALF_SIZE) % 4294967296) (len - FLASH_HALF_SIZE)
        (advance p FLASH_HALF_SIZE)
        { s with pending_low4 := memcpy4 s.pending_low4 p,
                 pending_base := addr,
                 pending_valid := 1 }
    else if addr &&& 7 = 4 ∧ len ≥ FLASH_HALF_SIZE then
      let base := addr - FLASH_HALF_SIZE
      let buf8 := if s.pending_valid ≠ 0 ∧ s.pending_base = base
                  then memcpy4 buf8_erased s.pending_low4 else buf8_erased
      let buf8 := memcpy4_high buf8 p
      write_loop fuel ((addr + FLASH_HALF_SIZE) % 4294967296) (len - FLASH_HALF_SIZE)
        (advance p FLASH_HALF_SIZE)
        { Program_LongWord_8B base buf8 s with pending_valid := 0 }
    else if addr &&& 7 = 0 ∧ len ≥ FLASH_ALIGN_SIZE then
      write_loop fuel ((addr + FLASH_ALIGN_SIZE) % 4294967296) (len - FLASH_ALIGN_SIZE)
        (advance p FLASH_ALIGN_SIZE)
        (Program_LongWord_8B addr p s)
    else write_loop fuel addr len p s

/-- The data-record branch of `Bootloader_Mode` (`rec.type` 1, 2 or 3). -/
def process_data (fuel : Nat) (s : BootState) : Option BootState :=
  if s.record.type = 1 ∨ s.record.type = 2 ∨ s.record.type = 3 then
    if s.record.address ≥ APP_FLASH_START ∧ s.record.address ≤ APP_FLASH_END then
      write_loop fuel s.record.address s.record.data_len s.record.data s
    else some s
  else some s

/-- The end-of-file branch of `Bootloader_Mode` (`rec.type` 7, 8 or 9). -/
def process_end (s : BootState) : BootState :=
  if s.record.type = 7 ∨ s.record.type = 8 ∨ s.record.type = 9 then
    let s1 := if s.pending_valid ≠ 0 then
        { Program_LongWord_8B s.pending_base (memcpy4 buf8_erased s.pending_low4) s
          with pending_valid := 0 }
      else s
    { s1 with sent := s1.sent ++
                [UartMsg.flash_completed, UartMsg.please_reset, UartMsg.app_will_run],
              queue := SREC_QueueInit s1.queue,
              line_pos := 0 }
  else s

/-- The body of `while (SREC_QueuePop(srec_line))` for the line now in `srec_line`:
parse it into `rec`, and when the call returns 0 with `rec.valid != 0` run the
data branch and then the end-of-file branch. -/
def process_line (fuel : Nat) (s : BootState) : Option BootState :=
  let res := parse_srec_line s.srec_line s.record
  let s1 := { s with record := res.2 }
  if res.1 = 0 ∧ res.2.valid ≠ 0 then
    (process_data fuel s1).map process_end
  else some s1

/-- The loop `while (SREC_QueuePop(srec_line))` of `Bootloader_Mode`. -/
def drain_queue : Nat → BootState → Option BootState
  | 0, _ => none
  | fuel + 1, s =>
    let res := SREC_QueuePop s.queue s.srec_line
    if res.1 = true then
      (process_line fuel { s with queue := res.2.1, srec_line := res.2.2 }).bind
        (drain_queue fuel)
    else some s

/-- The first half of `Bootloader_Mode`: pop one byte and feed the line assembler. -/
def assemble_line (s : BootState) : BootState :=
  let res := UART_BufferPop s.uart
  match res.2.1 with
  | none => s
  | some c =>
    let s := { s with uart := res.2.2 }
    if c = 10 then
      if s.line_pos > 0 then
        let line_buf := Function.update s.line_buf s.line_pos 0
        let queue := if line_buf 0 = 83 then (SREC_QueuePush s.queue line_buf).2 else s.queue
        { s with line_buf := line_buf, queue := queue, line_pos := 0 }
      else s
    else
      if s.line_pos < MAX_LINE_LENGTH - 1 then
        { s with line_buf := Function.update s.line_buf s.line_pos c,
                 line_pos := (s.line_pos + 1) % 65536 }
      else { s with line_pos := 0 }

/-- The function `Bootloader_Mode`. -/
def Bootloader_Mode (fuel : Nat) (s : BootState) : Option BootState :=
  drain_queue fuel (assemble_line s)

/-- The receive interrupt followed by one pass of the main loop: `UART_EventHandler`
pushes the received byte into the byte queue, then `Bootloader_Mode` runs once. -/
def feed_byte (fuel : Nat) (s : BootState) (b : Nat) : Option BootState :=
  Bootloader_Mode fuel { s with uart := (UART_BufferPush s.uart b).2 }

/-- A byte stream received one byte per pass of the main loop. -/
def feed (fuel : Nat) : List Nat → BootState → Option BootState
  | [], s => some s
  | b :: rest, s => (feed_byte fuel s b).bind (feed fuel rest)

/-! ## FLASH.c -/

/-- The macro `FTFC_P_FLASH_SECTOR_SIZE` of `FLASH.h`. -/
def FTFC_P_FLASH_SECTOR_SIZE : Nat := 0x1000

/-- The loop `for (i = 0; i < Size; i++) Erase_Sector(Addr + i*FTFC_P_FLASH_SECTOR_SIZE);`
of `Erase_Multi_Sector` from the current value of its `uint8_t` counter `i`: the
argument of every `Erase_Sector` call, in order. The product is an `int` (at most
255 * 4096), the sum a `uint32_t`, the increment wraps at 256. The first argument
bounds the number of iterations. -/
def erase_loop (Addr Size : Nat) : Nat → Nat → List Nat
  | 0, _ => []
  | fuel + 1, i =>
    if i < Size then
      ((Addr + i * FTFC_P_FLASH_SECTOR_SIZE) % 4294967296)
        :: erase_loop Addr Size fuel ((i + 1) % 256)
    else []

/-- The function `Erase_Multi_Sector(uint32_t Addr, uint8_t Size)`: the argument of every
`Erase_Sector` call it makes, in order. The caller's count is converted to `uint8_t`,
that is taken modulo 256; a counter that starts at 0 reaches any such `Size` within
255 increments, so 256 evaluations of the loop condition are all the loop can make. -/
def Erase_Multi_Sector (Addr Size : Nat) : List Nat :=
  erase_loop Addr (Size % 256) 256 0

/-! ## main.c: start-up, jump to the application and main loop -/

/-- The macro `APP_SECTOR_COUNT`. -/
def APP_SECTOR_COUNT : Nat := APP_FLASH_LENGTH / FTFC_P_FLASH_SECTOR_SIZE

/-- The texts `main` and `jump_to_app` send with `UART_SendFast`. -/
inductive BootText where
  | boot_ready
  | button_not_pressed
  | jumping_to_app
  | app_not_valid
  | send_srec_file
  | flash_ready
  deriving DecidableEq

/-- What a run of `main` does to the hardware, one event per call or register write:
`UART_SendFast(text)`, `Driver_GPIO0.SetOutput(GPIO_PIN_LED_BLUE, 1)`,
`Mem_43_INFLS_IPW_LoadAc()`, `Erase_Sector(addr)`, `Program_LongWord_8B(addr, data)`,
`S32_SCB->VTOR = value`, `__set_MSP(value)`, `__set_PSP(value)` and the call `app()`
through the function pointer `entry`. -/
inductive BootEvent where
  | send (text : BootText)
  | led_blue_on
  | load_access_code
  | erase_sector (addr : Nat)
  | program (addr : Nat) (data : List Nat)
  | write_vtor (value : Nat)
  | set_msp (value : Nat)
  | set_psp (value : Nat)
  | call_app (entry : Nat)
  deriving DecidableEq

/-- The function `jump_to_app`; `word_at a` is the word `*(uint32_t *)a` read from flash.
The result is the events of the call in order and whether the call returns to `main`:
`true` after the `return` of the validation branch, `false` after `app()`, which hands
control to the application and is taken not to come back. -/
def jump_to_app (word_at : Nat → Nat) : List BootEvent × Bool :=
  let app_msp := word_at APP_FLASH_START
  let app_reset := word_at (APP_FLASH_START + 4)
  if app_msp = 0xFFFFFFFF ∨ app_reset = 0xFFFFFFFF then
    ([BootEvent.send BootText.jumping_to_app, BootEvent.send BootText.app_not_valid], true)
  else
    ([BootEvent.send BootText.jumping_to_app, BootEvent.write_vtor APP_FLASH_START,
      BootEvent.set_msp app_msp, BootEvent.set_psp app_msp, BootEvent.call_app app_reset],
     false)

/-- The function `Button_Pressed`; `input` is what `Driver_GPIO0.GetInput(GPIO_PIN_BT1)`
returns (the button is active low). -/
def Button_Pressed (input : Nat) : Nat := if input = 0 then 1 else 0

/-- The function `UART_Init` as far as it touches the state of the ingestion path: it
calls `UART_BufferInit` and `SREC_QueueInit`; the driver calls leave no trace. -/
def UART_Init (s : BootState) : BootState :=
  { s with uart := UART_BufferInit s.uart, queue := SREC_QueueInit s.queue }

/-- A run of `main` up to its loop: the events so far, the state of the ingestion path
and whether control reaches the loop `while (1)` (it does not once the application
has been entered). -/
structure MainStart where
  events : List BootEvent
  state : BootState
  in_loop : Bool

/-- The function `main` up to its loop `while (1)`. `input` is the level read from the
button pin, `word_at` the flash as `jump_to_app` reads it, `s` the state at entry. The
clock set-up and `Board_Init` leave no trace. -/
def main_start (input : Nat) (word_at : Nat → Nat) (s : BootState) : MainStart :=
  let s1 := UART_Init s
  if Button_Pressed input = 0 then
    { events := [BootEvent.send BootText.boot_ready,
                 BootEvent.send BootText.button_not_pressed] ++ (jump_to_app word_at).1,
      state := s1,
      in_loop := (jump_to_app word_at).2 }
  else
    { events := [BootEvent.send BootText.boot_ready, BootEvent.led_blue_on,
                 BootEvent.send BootText.send_srec_file, BootEvent.load_access_code]
                ++ (Erase_Multi_Sector APP_FLASH_START APP_SECTOR_COUNT).map
                    BootEvent.erase_sector
                ++ [BootEvent.send BootText.flash_ready],
      state := s1,
      in_loop := true }

/-- The receive interrupt `UART_EventHandler` taken once for every byte of `bs`, in
order: each byte is pushed into the byte queue. -/
def receive (bs : List Nat) (q : UartBuffer) : UartBuffer :=
  bs.foldl (fun q b => (UART_BufferPush q b).2) q

/-- The loop `while (1) { Bootloader_Mode(); }` of `main` over finitely many passes;
before pass `k` the receive interrupt delivers the bytes of entry `k` of the schedule. -/
def main_loop (fuel : Nat) : List (List Nat) → BootState → Option BootState
  | [], s => some s
  | bs :: rest, s =>
    (Bootloader_Mode fuel { s with uart := receive bs s.uart }).bind (main_loop fuel rest)

/-- The function `main` for a schedule of received bytes: the events of the run in
order, those before the loop followed by one `program` event for every
`Program_LongWord_8B` call of the passes. The result is `none` when a pass does not
return. -/
def main (fuel input : Nat) (word_at : Nat → Nat) (sched : List (List Nat)) (s : BootState) :
    Option (List BootEvent) :=
  if (main_start input word_at s).in_loop = true then
    (main_loop fuel sched (main_start input word_at s).state).map
      (fun t => (main_start input word_at s).events
        ++ t.programs.map (fun op => BootEvent.program op.1 op.2))
  else some (main_start input word_at s).events

/-! ## main.c: single steps of `Bootloader_Mode` -/

/-- The locals `addr`, `len` and `p` of the loop `while (len > 0U)` of `Bootloader_Mode`
together with the state. -/
structure EngineStep where
  addr : Nat
  len : Nat
  p : Nat → Nat
  s : BootState

/-- The body of the loop `while (len > 0U)` of `Bootloader_Mode`, run once: the same
four branches as in `write_loop`, which iterates it. -/
def write_step (addr len : Nat) (p : Nat → Nat) (s : BootState) : EngineStep :=
  if addr &&& 7 = 0 ∧ len = 4 then
    { addr := (addr + FLASH_HALF_SIZE) % 4294967296, len := len - FLASH_HALF_SIZE,
      p := advance p FLASH_HALF_SIZE,
      s := { s with pending_low4 := memcpy4 s.pending_low4 p,
                    pending_base := addr,
                    pending_valid := 1 } }
  else if addr &&& 7 = 4 ∧ len ≥ FLASH_HALF_SIZE then
    let base := addr - FLASH_HALF_SIZE
    let buf8 := if s.pending_valid ≠ 0 ∧ s.pending_base = base
                then memcpy4 buf8_erased s.pending_low4 else buf8_erased
    let buf8 := memcpy4_high buf8 p
    { addr := (addr + FLASH_HALF_SIZE) % 4294967296, len := len - FLASH_HALF_SIZE,
      p := advance p FLASH_HALF_SIZE,
      s := { Program_LongWord_8B base buf8 s with pending_valid := 0 } }
  else if addr &&& 7 = 0 ∧ len ≥ FLASH_ALIGN_SIZE then
    { addr := (addr + FLASH_ALIGN_SIZE) % 4294967296, len := len - FLASH_ALIGN_SIZE,
      p := advance p FLASH_ALIGN_SIZE,
      s := Program_LongWord_8B addr p s }
  else { addr := addr, len := len, p := p, s := s }

/-- The body of the loop `while (SREC_QueuePop(srec_line))` run for each of the given
lines in turn, as when `SREC_QueuePop` hands them to `srec_line` one after the other. -/
def process_lines (fuel : Nat) : List (Nat → Nat) → BootState → Option BootState
  | [], s => some s
  | l :: rest, s =>
    (process_line fuel { s with srec_line := l }).bind (process_lines fuel rest)

/-- The call `SREC_QueuePush(line_buf)` that the line assembler half of `Bootloader_Mode`
makes in state `s`: the number of lines the record queue holds at the call and the flag
the call returns (which the source discards); `none` when the assembler makes no such
call. The conditions are those of `assemble_line`: a byte is popped, it is a newline,
`line_pos > 0` and, after `line_buf[line_pos] = 0`, `line_buf[0] == 'S'`. -/
def assembler_push_result (s : BootState) : Option (Nat × Bool) :=
  match (UART_BufferPop s.uart).2.1 with
  | none => none
  | some c =>
    if c = 10 then
      if s.line_pos > 0 then
        if Function.update s.line_buf s.line_pos 0 0 = 83
        then some (s.queue.count,
          (SREC_QueuePush s.queue (Function.update s.line_buf s.line_pos 0)).1)
        else none
      else none
    else none

/-- The `SREC_QueuePush` calls of the main loop over a schedule of received bytes, in
order, each as `assembler_push_result` gives it. The passes are those of `main_loop`;
the list ends at a pass that does not return. -/
def main_loop_pushes (fuel : Nat) : List (List Nat) → BootState → List (Nat × Bool)
  | [], _ => []
  | bs :: rest, s =>
    (assembler_push_result { s with uart := receive bs s.uart }).toList ++
      match Bootloader_Mode fuel { s with uart := receive bs s.uart } with
      | none => []
      | some t => main_loop_pushes fuel rest t

/-! ## Specification-side vocabulary -/

/-- Spec side: the byte decoded from hex pair `k` of a line, pair 0 being the byte count
(characters 2 and 3), pair 1 the first address byte (characters 4 and 5). -/
def pair_byte (line : Nat → Nat) (k : Nat) : Nat := hex_to_byte (advance line (2 + 2 * k))

/-- Spec side: the address width in bytes fixed by the kind digit character of a data or
end-of-transfer record: S1 2, S2 3, S3 4, S7 4, S8 3, S9 2. -/
def kind_width (c : Nat) : Nat :=
  if c = 49 then 2 else if c = 50 then 3 else if c = 51 then 4
  else if c = 55 then 4 else if c = 56 then 3 else if c = 57 then 2 else 0

/-- Spec side: the character is the kind digit of a data record (1, 2, 3) or of an
end-of-transfer record (7, 8, 9). -/
def is_kind_digit (c : Nat) : Prop :=
  c = 49 ∨ c = 50 ∨ c = 51 ∨ c = 55 ∨ c = 56 ∨ c = 57

instance (c : Nat) : Decidable (is_kind_digit c) := by unfold is_kind_digit; infer_instance

/-- Spec side: the address width for every kind digit the parser accepts: that of
`kind_width`, and 2 for the header and count kinds S0 and S5. -/
def accepted_width (c : Nat) : Nat := if c = 48 ∨ c = 53 then 2 else kind_width c

/-- Spec side: count + address bytes + payload bytes + checksum byte of a line whose
address field is `aw` bytes wide, as a plain sum of the decoded bytes. -/
def field_sum (line : Nat → Nat) (aw : Nat) : Nat :=
  pair_byte line 0
    + ((List.range aw).map (fun i => pair_byte line (1 + i))).sum
    + ((List.range (pair_byte line 0 - aw - 1)).map (fun i => pair_byte line (1 + aw + i))).sum
    + pair_byte line (1 + aw + (pair_byte line 0 - aw - 1))

/-- Spec side: the big-endian value of a byte string. -/
def be_value (bytes : List Nat) : Nat := bytes.foldl (fun a b => a * 256 + b) 0

/-- Spec side: byte `i` (most significant first) of an address field `aw` bytes wide. -/
def addr_byte (aw addr i : Nat) : Nat := addr / 256 ^ (aw - 1 - i) % 256

/-- Spec side: the checksum byte of a record: the ones' complement of the low byte of
count + address bytes + payload bytes. -/
def record_checksum (aw addr : Nat) (data : List Nat) : Nat :=
  255 - (aw + data.length + 1 + ((List.range aw).map (addr_byte aw addr)).sum + data.sum) % 256

/-- Spec side: byte `k` of a record after the kind digit: the count, then the address,
then the payload, then the checksum. -/
def record_byte (aw addr : Nat) (data : List Nat) (k : Nat) : Nat :=
  if k = 0 then aw + data.length + 1
  else if k ≤ aw then addr_byte aw addr (k - 1)
  else if k ≤ aw + data.length then data.getD (k - 1 - aw) 0
  else record_checksum aw addr data

/-- Spec side: the text `l` is a record line of the given kind digit for address `addr`
and payload `data`: marker `S`, kind digit, then every byte of the record as two hex
digits (either case), with the correct count and checksum, and nothing after it; the
address fits the address field of the kind. -/
def is_record_line (l : List Nat) (kind addr : Nat) (data : List Nat) : Prop :=
  l.length = 2 + 2 * (kind_width (48 + kind) + data.length + 2) ∧
    l.getD 0 0 = 83 ∧ l.getD 1 0 = 48 + kind ∧
    (∀ k, k < kind_width (48 + kind) + data.length + 2 →
      hex_nibble (l.getD (2 + 2 * k) 0)
          = some (record_byte (kind_width (48 + kind)) addr data k / 16) ∧
        hex_nibble (l.getD (2 + 2 * k + 1) 0)
          = some (record_byte (kind_width (48 + kind)) addr data k % 16)) ∧
    addr < 256 ^ kind_width (48 + kind)

instance (l : List Nat) (kind addr : Nat) (data : List Nat) :
    Decidable (is_record_line l kind addr data) := by
  unfold is_record_line; infer_instance

/-- A record as the sender emits it: kind digit, payload bytes and the text line. -/
structure SentRecord where
  kind : Nat
  payload : List Nat
  text : List Nat

/-- The payload bytes of a sequence of records, in order. -/
def all_payload : List SentRecord → List Nat
  | [] => []
  | r :: rest => r.payload ++ all_payload rest

/-- The byte stream of a sequence of records: every text line followed by a newline. -/
def all_text : List SentRecord → List Nat
  | [] => []
  | r :: rest => r.text ++ [10] ++ all_text rest

/-- The Write Engine takes only Cases A, B or C on `(addr, len)`: the conditions of the
loop `while (len > 0U)` of `Bootloader_Mode`, with `false` where the loop would reach
its final `else` branch (or run out of fuel). -/
def only_abc : Nat → Nat → Nat → Bool
  | 0, _, _ => false
  | fuel + 1, addr, len =>
    if len = 0 then true
    else if addr &&& 7 = 0 ∧ len = 4 then
      only_abc fuel ((addr + FLASH_HALF_SIZE) % 4294967296) (len - FLASH_HALF_SIZE)
    else if addr &&& 7 = 4 ∧ len ≥ FLASH_HALF_SIZE then
      only_abc fuel ((addr + FLASH_HALF_SIZE) % 4294967296) (len - FLASH_HALF_SIZE)
    else if addr &&& 7 = 0 ∧ len ≥ FLASH_ALIGN_SIZE then
      only_abc fuel ((addr + FLASH_ALIGN_SIZE) % 4294967296) (len - FLASH_ALIGN_SIZE)
    else false

/-- The records are consecutive data records starting at `addr`: each is an S1, S2 or S3
line, correctly encoded with count and checksum, placed right after the bytes of its
predecessors, and the Write Engine takes only Cases A, B or C on it. -/
def split_records : Nat → List SentRecord → Prop
  | _, [] => True
  | addr, r :: rest =>
    (r.kind = 1 ∨ r.kind = 2 ∨ r.kind = 3) ∧
      is_record_line r.text r.kind addr r.payload ∧
      only_abc (r.payload.length + 1) addr r.payload.length = true ∧
      split_records (addr + r.payload.length) rest

/-- Decision procedure for `split_records`. -/
def split_records_dec : (addr : Nat) → (recs : List SentRecord) →
    Decidable (split_records addr recs)
  | _, [] => isTrue trivial
  | addr, r :: rest =>
    have := split_records_dec (addr + r.payload.length) rest
    by unfold split_records; infer_instance

instance (addr : Nat) (recs : List SentRecord) : Decidable (split_records addr recs) :=
  split_records_dec addr recs

/-- Modelled from the spec: the effect of one 8-byte program operation on the storage
image (the flash array itself is hardware, not code of the repository): the bytes of
the buffer replace the image at the operation's address. -/
def program_image (img : Nat → Nat) (op : Nat × List Nat) : Nat → Nat :=
  fun a => if op.1 ≤ a ∧ a < op.1 + op.2.length then op.2.getD (a - op.1) 255 else img a

/-- Modelled from the spec: the storage image after a trace of program operations on
erased storage, every byte of which reads 0xFF. -/
def flash_image (ops : List (Nat × List Nat)) : Nat → Nat :=
  ops.foldl program_image (fun _ => 255)

/-- Spec side: the image in which the first `m` bytes of `D` sit at address `A` and
every other byte is erased. -/
def expected_image (A : Nat) (D : List Nat) (m : Nat) : Nat → Nat :=
  fun a => if A ≤ a ∧ a < A + m then D.getD (a - A) 255 else 255

/-! ## Predicates used in the proofs -/

/-- The record `Bootloader_Mode` gets from `parse_srec_line(srec_line, &rec)`. -/
def parsed_record (s : BootState) : srec_record_t :=
  (parse_srec_line s.srec_line s.record).2

/-- Both queues are empty and their indices coincide, as after `UART_Init` and after
every byte has been consumed. -/
def QueuesIdle (s : BootState) : Prop :=
  s.uart.count = 0 ∧ s.uart.head = s.uart.tail ∧ s.queue.count = 0 ∧ s.queue.head = s.queue.tail

instance (s : BootState) : Decidable (QueuesIdle s) := by unfold QueuesIdle; infer_instance

/-- The write-engine part of the state (pending half and program trace) is the same. -/
def SameEngine (s t : BootState) : Prop :=
  t.pending_valid = s.pending_valid ∧ t.pending_base = s.pending_base ∧
    t.pending_low4 = s.pending_low4 ∧ t.programs = s.programs

/-- The byte queue after one byte went through it. -/
def uart_after (q : UartBuffer) (c : Nat) : UartBuffer :=
  { uart_rx_buf := Function.update q.uart_rx_buf q.head c,
    head := (q.head + 1) % 200, tail := (q.tail + 1) % 200, count := 0 }

/-- The state in which the loop body of `Bootloader_Mode` runs after a newline completed
a line that starts with `S`: the line went through the record queue into `srec_line`. -/
def line_delivered (s : BootState) : BootState :=
  { s with
    uart := uart_after s.uart 10,
    line_buf := Function.update s.line_buf s.line_pos 0,
    queue :=
      { srec_buf := Function.update s.queue.srec_buf s.queue.head
          (copy_line (Function.update s.line_buf s.line_pos 0) 255 0
            (s.queue.srec_buf s.queue.head)),
        head := (s.queue.head + 1) % 4, tail := (s.queue.tail + 1) % 4, count := 0 },
    line_pos := 0,
    srec_line := copy_line
      (copy_line (Function.update s.line_buf s.line_pos 0) 255 0
        (s.queue.srec_buf s.queue.head)) 255 0 s.srec_line }

/-- Invariant of the Write Engine between loop iterations while the bytes of `D` are
programmed at `A`: `m` bytes have been consumed; either nothing is pending and the image
holds all of them, or the last four are the pending half and the image holds the rest;
every program operation so far carries eight bytes. -/
def EngineInv (A : Nat) (D : List Nat) (m : Nat) (s : BootState) : Prop :=
  (∀ op ∈ s.programs, op.2.length = 8) ∧
  ((s.pending_valid = 0 ∧ (0 < m → (A + m) % 8 = 0) ∧
      flash_image s.programs = expected_image A D m) ∨
    (s.pending_valid = 1 ∧ 4 ≤ m ∧ (A + m) % 8 = 4 ∧ s.pending_base = A + m - 4 ∧
      (∀ i, i < 4 → s.pending_low4 i = D.getD (m - 4 + i) 255) ∧
      flash_image s.programs = expected_image A D (m - 4)))

/-! ## Concrete lines, records and states -/

/-- The memory a `char *` sees when it points at the characters `l` followed by zeros. -/
def line_of (l : List Nat) : Nat → Nat := fun i => l.getD i 0

/-- An arbitrary record value standing for the uninitialised local `rec`. -/
def blank_record : srec_record_t :=
  { type := 0, address := 0, data := fun _ => 0, data_len := 0, checksum := 0, valid := 0 }

/-- A state of `Bootloader_Mode` right after `UART_Init`: empty queues, no pending
half, nothing programmed; buffers and uninitialised locals hold zeros. -/
def boot_state0 : BootState :=
  { uart := { uart_rx_buf := fun _ => 0, head := 0, tail := 0, count := 0 },
    queue := { srec_buf := fun _ _ => 0, head := 0, tail := 0, count := 0 },
    line_buf := fun _ => 0, line_pos := 0,
    pending_valid := 0, pending_base := 0, pending_low4 := fun _ => 0,
    srec_line := fun _ => 0, record := blank_record, programs := [], sent := [] }

/-- The record line `S10BA000010203040506070830`: kind 1, count 0x0B, address 0xA000,
payload 01..08, checksum 0x30. -/
def line_s1_8 : Nat → Nat :=
  line_of [83, 49, 48, 66, 65, 48, 48, 48, 48, 49, 48, 50, 48, 51, 48, 52, 48, 53, 48, 54,
    48, 55, 48, 56, 51, 48]

/-- The line `S10300FCZZ`: kind 1, count 3, address 0x00FC and `ZZ` where the checksum
pair belongs. -/
def line_bad_hex : Nat → Nat := line_of [83, 49, 48, 51, 48, 48, 70, 67, 90, 90]

/-- The record line `S104A000005B`: kind 1, address 0xA000, one payload byte 0x00. -/
def line_one_byte : Nat → Nat := line_of [83, 49, 48, 52, 65, 48, 48, 48, 48, 48, 53, 66]

/-- A text line that does not start with the record marker: `X104A000005B`. -/
def line_no_marker : Nat → Nat := line_of [88, 49, 48, 52, 65, 48, 48, 48, 48, 48, 53, 66]

/-- The record line `S107A000010203044E`: kind 1, address 0xA000, payload 01 02 03 04. -/
def line_s1_low4 : Nat → Nat :=
  line_of [83, 49, 48, 55, 65, 48, 48, 48, 48, 49, 48, 50, 48, 51, 48, 52, 52, 69]

/-- The record line `S107A004050607083A`: kind 1, address 0xA004, payload 05 06 07 08. -/
def line_s1_high4 : Nat → Nat :=
  line_of [83, 49, 48, 55, 65, 48, 48, 52, 48, 53, 48, 54, 48, 55, 48, 56, 51, 65]

/-- The end-of-file record line `S9030000FC`. -/
def line_s9 : Nat → Nat := line_of [83, 57, 48, 51, 48, 48, 48, 48, 70, 67]

/-- The record `S107A000010203044E` as sent: 4 bytes at 0xA000. -/
def sent_low4 : SentRecord :=
  { kind := 1, payload := [1, 2, 3, 4],
    text := [83, 49, 48, 55, 65, 48, 48, 48, 48, 49, 48, 50, 48, 51, 48, 52, 52, 69] }

/-- The record `S107A004050607083A` as sent: 4 bytes at 0xA004. -/
def sent_high4 : SentRecord :=
  { kind := 1, payload := [5, 6, 7, 8],
    text := [83, 49, 48, 55, 65, 48, 48, 52, 48, 53, 48, 54, 48, 55, 48, 56, 51, 65] }

/-- The end-of-file record `S9030000FC` as sent. -/
def sent_s9 : SentRecord :=
  { kind := 9, payload := [], text := [83, 57, 48, 51, 48, 48, 48, 48, 70, 67] }

/-- The record `S183A000` + 128 × `00` + `DC` as sent: 128 zero bytes at 0xA000 in one
S1 line of 266 characters. -/
def sent_long : SentRecord :=
  { kind := 1, payload := List.replicate 128 0,
    text := [83, 49, 56, 51, 65, 48, 48, 48] ++ List.replicate 256 48 ++ [68, 67] }

/-- The record line `S107A000010203044F`: 4 bytes for 0xA000 with a wrong checksum
(the correct one is 0x4E). -/
def line_bad_sum_data : Nat → Nat :=
  line_of [83, 49, 48, 55, 65, 48, 48, 48, 48, 49, 48, 50, 48, 51, 48, 52, 52, 70]

/-- The end-of-file record line `S9030000FD` with a wrong checksum (the correct one is
0xFC). -/
def line_bad_sum_end : Nat → Nat := line_of [83, 57, 48, 51, 48, 48, 48, 48, 70, 68]

/-- The record line `S107000001020304EE`: 4 bytes for address 0x0000, below the
application window. -/
def line_below_window : Nat → Nat :=
  line_of [83, 49, 48, 55, 48, 48, 48, 48, 48, 49, 48, 50, 48, 51, 48, 52, 69, 69]

/-- The text of the record `S21407FFF8000102030405060708090A0B0C0D0E0F75`: kind 2,
address 0x07FFF8, the 16 payload bytes 00..0F. -/
def text_straddle : List Nat :=
  [83, 50, 49, 52, 48, 55, 70, 70, 70, 56, 48, 48, 48, 49, 48, 50, 48, 51, 48, 52, 48, 53,
    48, 54, 48, 55, 48, 56, 48, 57, 48, 65, 48, 66, 48, 67, 48, 68, 48, 69, 48, 70, 55, 53]

/-! ## Runs of the two queues and of the line assembler -/

/-- A call on the byte queue: `UART_BufferPush(b)` or `UART_BufferPop(&c)`. -/
inductive UartOp where
  | push (b : Nat)
  | pop

/-- The byte queue together with what its callers have seen so far: the bytes of the
pushes that returned true and the bytes stored by the pops that returned true. -/
structure UartRun where
  q : UartBuffer
  accepted : List Nat
  popped : List Nat

/-- One call on the byte queue. -/
def uart_step (t : UartRun) : UartOp → UartRun
  | UartOp.push b =>
    { q := (UART_BufferPush t.q b).2,
      accepted := if (UART_BufferPush t.q b).1 = true then t.accepted ++ [b] else t.accepted,
      popped := t.popped }
  | UartOp.pop =>
    { q := (UART_BufferPop t.q).2.2,
      accepted := t.accepted,
      popped := match (UART_BufferPop t.q).2.1 with
        | some c => t.popped ++ [c]
        | none => t.popped }

/-- A sequence of calls on the byte queue, starting with `UART_BufferInit`. -/
def uart_run (ops : List UartOp) (q : UartBuffer) : UartRun :=
  ops.foldl uart_step { q := UART_BufferInit q, accepted := [], popped := [] }

/-- The bytes the byte queue holds, oldest first: `count` bytes from index `tail` on,
wrapping at 200. -/
def uart_contents (q : UartBuffer) : List Nat :=
  (List.range q.count).map (fun i => q.uart_rx_buf ((q.tail + i) % 200))

/-- Well-formed byte queue: at most 200 bytes, `tail` a valid index and `head` the index
`count` places after `tail`. -/
def UartWF (q : UartBuffer) : Prop :=
  q.count ≤ 200 ∧ q.tail < 200 ∧ q.head = (q.tail + q.count) % 200

/-- Invariant of a run of the byte queue: the queue is well formed and the bytes popped
so far followed by the bytes still queued are the bytes accepted so far. -/
def UartRunInv (t : UartRun) : Prop :=
  UartWF t.q ∧ t.popped ++ uart_contents t.q = t.accepted

/-- A byte queue holding 200 bytes. -/
def uart_full : UartBuffer := { uart_rx_buf := fun i => i % 7, head := 3, tail := 3, count := 200 }

/-- An empty byte queue. -/
def uart_empty : UartBuffer := { uart_rx_buf := fun _ => 0, head := 0, tail := 0, count := 0 }

/-- The number of characters the copy loop of `SREC_QueuePush` and `SREC_QueuePop` takes
from `src`: the characters before the first NUL, at most 255. Same loop condition as
`copy_line`; the first argument bounds the iterations, the second is the start index. -/
def str_len (src : Nat → Nat) : Nat → Nat → Nat
  | 0, i => i
  | fuel + 1, i =>
    if src i ≠ 0 ∧ i < SREC_LINE_MAX_LEN - 1 then str_len src fuel (i + 1) else i

/-- The C string at `src` as the record queue takes it: the characters before the first
NUL, at most 255 of them. -/
def c_string (src : Nat → Nat) : List Nat := (List.range (str_len src 255 0)).map src

/-- The memory at `line` holds the characters `l`, none of them NUL, followed by a NUL:
a NUL-terminated string of at most 255 characters. -/
def IsCString (line : Nat → Nat) (l : List Nat) : Prop :=
  l.length ≤ 255 ∧ (∀ i, i < l.length → line i = l.getD i 0 ∧ l.getD i 0 ≠ 0) ∧
    line l.length = 0

instance (line : Nat → Nat) (l : List Nat) : Decidable (IsCString line l) := by
  unfold IsCString; infer_instance

/-- A call on the record queue: `SREC_QueuePush(line)` or `SREC_QueuePop(out_line)`. -/
inductive SrecOp where
  | push (line : Nat → Nat)
  | pop

/-- The record queue and the caller's buffer `out_line`, together with what the callers
have seen so far: the lines of the pushes that returned true and the lines left in
`out_line` by the pops that returned true, each as a C string. -/
structure SrecRun where
  q : SrecQueue
  out_line : Nat → Nat
  accepted : List (List Nat)
  popped : List (List Nat)

/-- One call on the record queue. -/
def srec_step (t : SrecRun) : SrecOp → SrecRun
  | SrecOp.push line =>
    { q := (SREC_QueuePush t.q line).2,
      out_line := t.out_line,
      accepted := if (SREC_QueuePush t.q line).1 = true then t.accepted ++ [c_string line]
                  else t.accepted,
      popped := t.popped }
  | SrecOp.pop =>
    { q := (SREC_QueuePop t.q t.out_line).2.1,
      out_line := (SREC_QueuePop t.q t.out_line).2.2,
      accepted := t.accepted,
      popped := if (SREC_QueuePop t.q t.out_line).1 = true
                then t.popped ++ [c_string (SREC_QueuePop t.q t.out_line).2.2]
                else t.popped }

/-- A sequence of calls on the record queue, starting with `SREC_QueueInit`. -/
def srec_run (ops : List SrecOp) (q : SrecQueue) (out : Nat → Nat) : SrecRun :=
  ops.foldl srec_step { q := SREC_QueueInit q, out_line := out, accepted := [], popped := [] }

/-- The lines the record queue holds, oldest first, each as a C string: `count` rows
from row `tail` on, wrapping at 4. -/
def srec_contents (q : SrecQueue) : List (List Nat) :=
  (List.range q.count).map (fun i => c_string (q.srec_buf ((q.tail + i) % 4)))

/-- Well-formed record queue: at most 4 lines, `tail` a valid row and `head` the row
`count` places after `tail`. -/
def SrecWF (q : SrecQueue) : Prop :=
  q.count ≤ 4 ∧ q.tail < 4 ∧ q.head = (q.tail + q.count) % 4

/-- Invariant of a run of the record queue: the queue is well formed and the lines
popped so far followed by the lines still queued are the lines accepted so far. -/
def SrecRunInv (t : SrecRun) : Prop :=
  SrecWF t.q ∧ t.popped ++ srec_contents t.q = t.accepted

/-- An empty record queue. -/
def srec_empty : SrecQueue := { srec_buf := fun _ _ => 0, head := 0, tail := 0, count := 0 }

/-- A record queue holding four lines, the oldest in row 2: row `k` holds the single
character `'A' + k`. -/
def srec_full : SrecQueue :=
  { srec_buf := fun row i => if i = 0 then 65 + row else 0, head := 2, tail := 2, count := 4 }

/-- The line, as a C string, that the line assembler half of `Bootloader_Mode` passes to
`SREC_QueuePush` in state `s`, or `none` when it makes no such call: the call is made
when the popped byte is a newline, `line_pos > 0` and `line_buf[0] == 'S'`, after
`line_buf[line_pos] = 0`. -/
def assembler_push (s : BootState) : Option (List Nat) :=
  match (UART_BufferPop s.uart).2.1 with
  | none => none
  | some c =>
    if c = 10 then
      if s.line_pos > 0 then
        if Function.update s.line_buf s.line_pos 0 0 = 83
        then some (c_string (Function.update s.line_buf s.line_pos 0)) else none
      else none
    else none

/-- The line assembler over a byte stream: for every byte the receive interrupt pushes
it into the byte queue and the assembler half of `Bootloader_Mode` runs once. The result
is the final state and the lines passed to `SREC_QueuePush`, in order. -/
def assembler_run : List Nat → BootState → BootState × List (List Nat)
  | [], s => (s, [])
  | b :: rest, s =>
    ((assembler_run rest (assemble_line { s with uart := (UART_BufferPush s.uart b).2 })).1,
     (assembler_push { s with uart := (UART_BufferPush s.uart b).2 }).toList
       ++ (assembler_run rest (assemble_line { s with uart := (UART_BufferPush s.uart b).2 })).2)

/-- Spec side: the byte stream of a list of lines, each followed by a newline. -/
def join_lines : List (List Nat) → List Nat
  | [] => []
  | l :: rest => l ++ [10] ++ join_lines rest

/-- Spec side: the lines the assembler is to emit: the non-empty lines whose first
character is `S`, in order. -/
def emitted_lines (ls : List (List Nat)) : List (List Nat) :=
  ls.filter (fun l => decide (l ≠ [] ∧ l.getD 0 0 = 83))

/-- The byte queue is empty and its indices coincide. -/
def UartIdle (s : BootState) : Prop := s.uart.count = 0 ∧ s.uart.head = s.uart.tail

instance (s : BootState) : Decidable (UartIdle s) := by unfold UartIdle; infer_instance

/-- Spec side: what is left of a line of `n` bytes after its last overflow reset: the
bytes that follow its last complete block of 256 bytes. A line of at most 255 bytes is
left whole. -/
def overflow_rest (l : List Nat) : List Nat := l.drop (256 * (l.length / 256))

/-- The text of the end-of-file record `S9030000FC`. -/
def text_s9 : List Nat := [83, 57, 48, 51, 48, 48, 48, 48, 70, 67]

/-- A line of 266 bytes: 256 times the letter `A`, then the text `S9030000FC`. -/
def overlong_line : List Nat := List.replicate 256 65 ++ text_s9

/-- Flash that reads as erased everywhere: every word is 0xFFFFFFFF. -/
def flash_blank : Nat → Nat := fun _ => 0xFFFFFFFF

/-- Flash holding an application image whose vector table starts with the initial
stack pointer 0x20007000 and the reset handler 0x0000A411. -/
def flash_with_app : Nat → Nat :=
  fun a => if a = 0xA000 then 0x20007000 else if a = 0xA004 then 0x0000A411 else 0

/-- The event is a write of VTOR, MSP or PSP or the call of the application. -/
def is_jump_event : BootEvent → Bool
  | BootEvent.write_vtor _ => true
  | BootEvent.set_msp _ => true
  | BootEvent.set_psp _ => true
  | BootEvent.call_app _ => true
  | _ => false

/-- The event is a flash command: a sector erase or an 8-byte program. -/
def is_flash_event : BootEvent → Bool
  | BootEvent.erase_sector _ => true
  | BootEvent.program _ _ => true
  | _ => false

/-- Modelled from the spec: the effect of the single-sector erases on the flash array
(hardware, not code of the repository), with the sector erase granularity of 4096
bytes: the byte at address `a` is erased when some `Erase_Sector` call was given an
address in the same sector. -/
def sector_erased (calls : List Nat) (a : Nat) : Prop :=
  ∃ c ∈ calls, c / FTFC_P_FLASH_SECTOR_SIZE = a / FTFC_P_FLASH_SECTOR_SIZE

/-- The text of the record `S10BA000010203040506070830`: kind 1, address 0xA000, payload
01..08. -/
def text_s1_8 : List Nat :=
  [83, 49, 48, 66, 65, 48, 48, 48, 48, 49, 48, 50, 48, 51, 48, 52, 48, 53, 48, 54,
    48, 55, 48, 56, 51, 48]

/-- A schedule of the receive interrupt in which the bytes of `bs` arrive one per pass
of the main loop. -/
def one_per_pass (bs : List Nat) : List (List Nat) := bs.map (fun b => [b])

/-- A state with the half `09 0A 0B 0C` pending at base 0xA000 and nothing programmed. -/
def state_pending : BootState :=
  { boot_state0 with pending_valid := 1, pending_base := 0xA000,
                     pending_low4 := line_of [9, 10, 11, 12] }

/-- Alignment invariant of the Write Engine: a pending half has a base that is a multiple
of 8, and so has the address of every program call made so far. -/
def AlignInv (s : BootState) : Prop :=
  (s.pending_valid ≠ 0 → s.pending_base % 8 = 0) ∧ ∀ op ∈ s.programs, op.1 % 8 = 0

/-- Spec side: a record as sent together with the address it is for: kind digit,
address, payload bytes and the text line. -/
structure PlacedRecord where
  kind : Nat
  addr : Nat
  payload : List Nat
  text : List Nat

/-- Spec side: a checksum-valid data record (S1, S2 or S3) whose address lies in the
application window. -/
def is_data_record (r : PlacedRecord) : Prop :=
  (r.kind = 1 ∨ r.kind = 2 ∨ r.kind = 3) ∧ is_record_line r.text r.kind r.addr r.payload ∧
    APP_FLASH_START ≤ r.addr ∧ r.addr ≤ APP_FLASH_END

instance (r : PlacedRecord) : Decidable (is_data_record r) := by
  unfold is_data_record; infer_instance

/-- Spec side: a checksum-valid end-of-transfer record (S7, S8 or S9). -/
def is_end_record (r : PlacedRecord) : Prop :=
  (r.kind = 7 ∨ r.kind = 8 ∨ r.kind = 9) ∧ is_record_line r.text r.kind r.addr r.payload

instance (r : PlacedRecord) : Decidable (is_end_record r) := by
  unfold is_end_record; infer_instance

/-- Spec side: the data records leave a half pending at `base` alone until it is merged:
each record is either the one that continues at `base + 4` with at least 4 bytes (the
matching Case B), or starts 8-byte aligned with a length that is a multiple of 8 (Case C
only) and is followed by records of the same kind. The empty list qualifies: the
end-of-transfer record that follows flushes the half. -/
def keeps_pending (base : Nat) : List PlacedRecord → Prop
  | [] => True
  | r :: rest =>
    (r.addr = base + 4 ∧ 4 ≤ r.payload.length) ∨
      (r.addr % 8 = 0 ∧ r.payload.length % 8 = 0 ∧ keeps_pending base rest)

/-- Decision procedure for `keeps_pending`. -/
def keeps_pending_dec (base : Nat) : (recs : List PlacedRecord) →
    Decidable (keeps_pending base recs)
  | [] => isTrue trivial
  | r :: rest =>
    have := keeps_pending_dec base rest
    by unfold keeps_pending; infer_instance

instance (base : Nat) (recs : List PlacedRecord) : Decidable (keeps_pending base recs) :=
  keeps_pending_dec base recs

/-- The record `S107A000010203044E`: 4 bytes 01..04 for 0xA000. -/
def placed_low4 : PlacedRecord :=
  { kind := 1, addr := 0xA000, payload := [1, 2, 3, 4], text := sent_low4.text }

/-- The record `S107A004050607083A`: 4 bytes 05..08 for 0xA004. -/
def placed_high4 : PlacedRecord :=
  { kind := 1, addr := 0xA004, payload := [5, 6, 7, 8], text := sent_high4.text }

/-- The record `S107A0080506070836`: 4 bytes 05..08 for 0xA008. -/
def placed_next4 : PlacedRecord :=
  { kind := 1, addr := 0xA008, payload := [5, 6, 7, 8],
    text := [83, 49, 48, 55, 65, 48, 48, 56, 48, 53, 48, 54, 48, 55, 48, 56, 51, 54] }

/-- The record `S10BA010010203040506070810`: 8 bytes 01..08 for 0xA010. -/
def placed_far8 : PlacedRecord :=
  { kind := 1, addr := 0xA010, payload := [1, 2, 3, 4, 5, 6, 7, 8],
    text := [83, 49, 48, 66, 65, 48, 49, 48, 48, 49, 48, 50, 48, 51, 48, 52, 48, 53, 48, 54,
      48, 55, 48, 56, 50, 48] }

/-- The end-of-file record `S9030000FC`. -/
def placed_s9 : PlacedRecord := { kind := 9, addr := 0, payload := [], text := text_s9 }

/-- The text `S100FF00`: marker, kind 1, byte count 0x00, address bytes FF 00 and
nothing after them. -/
def text_zero_count : List Nat := [83, 49, 48, 48, 70, 70, 48, 48]

/-! ## Auxiliary lemmas -/

theorem hex_nibble_lt {c n : Nat} (h : hex_nibble c = some n) : n < 16 := by
  unfold hex_nibble at h
  split_ifs at h <;> simp at h <;> omega

theorem shl4_or {h l : Nat} (hl : l < 16) : (h <<< 4) ||| l = 16 * h + l := by
  rw [Nat.shiftLeft_eq, Nat.mul_comm]
  exact (Nat.mul_add_lt_is_or (i := 4) hl h).symm

theorem hex_to_byte_lt (hex : Nat → Nat) : hex_to_byte hex < 256 := by
  unfold hex_to_byte
  split
  · decide
  · split
    · decide
    · exact Nat.mod_lt _ (by decide)

theorem foldl_update_range (f : Nat → Nat) (d0 : Nat → Nat) (n : Nat) :
    (List.range n).foldl (fun d i => Function.update d i (f i)) d0
      = fun j => if j < n then f j else d0 j := by
  induction n with
  | zero => simp
  | succ n ih =>
    rw [List.range_succ, List.foldl_append, ih]
    funext j
    simp only [List.foldl_cons, List.foldl_nil, Function.update_apply]
    by_cases hj : j = n
    · subst hj; simp
    · simp only [hj, if_false]
      by_cases hlt : j < n
      · simp [hlt, Nat.lt_succ_of_lt hlt]
      · have : ¬ j < n + 1 := by omega
        simp [hlt, this]

theorem foldl_sum_mod (f : Nat → Nat) (s0 n : Nat) :
    (List.range n).foldl (fun s i => (s + f i) % 256) s0 % 256
      = (s0 + ((List.range n).map f).sum) % 256 := by
  induction n with
  | zero => simp
  | succ n ih =>
    rw [List.range_succ, List.foldl_append, List.map_append, List.sum_append]
    simp only [List.foldl_cons, List.foldl_nil, List.map_cons, List.map_nil, List.sum_cons,
      List.sum_nil, Nat.add_zero, Nat.mod_mod]
    rw [Nat.add_mod, ih]
    omega

theorem foldl_congr_range {α : Type} (g h : α → Nat → α) (a : α) (n : Nat)
    (hgh : ∀ x i, i < n → g x i = h x i) :
    (List.range n).foldl g a = (List.range n).foldl h a := by
  induction n generalizing a with
  | zero => simp
  | succ n ih =>
    rw [List.range_succ, List.foldl_append, List.foldl_append]
    simp only [List.foldl_cons, List.foldl_nil]
    rw [ih a (fun x i hi => hgh x i (Nat.lt_succ_of_lt hi)), hgh _ n (Nat.lt_succ_self n)]

theorem addr_len_of_kind {c : Nat} (hk : is_kind_digit c) :
    addr_len_of ((c : Int) - 48) = some (kind_width c) := by
  rcases hk with h | h | h | h | h | h <;> subst h <;> decide

theorem parse_accept (line : Nat → Nat) (r : srec_record_t) (aw : Nat)
    (hS : line 0 = 83) (hw : addr_len_of ((line 1 : Int) - 48) = some aw) :
    parse_srec_line line r =
      (0, { type := (line 1 : Int) - 48,
            address := (List.range aw).foldl
              (fun a i => ((a <<< 8) % 4294967296) ||| hex_to_byte (advance line (4 + i * 2))) 0,
            data := fun j =>
              if j < ((hex_to_byte (advance line 2) : Int) - (aw : Int) - 1).toNat
              then hex_to_byte (advance line (4 + aw * 2 + j * 2)) else r.data j,
            data_len := (((hex_to_byte (advance line 2) : Int) - (aw : Int) - 1) % 256).toNat,
            checksum := hex_to_byte (advance line (2 + 2 * hex_to_byte (advance line 2))),
            valid := if (hex_to_byte (advance line 2)
                + ((List.range aw).map (fun i => hex_to_byte (advance line (4 + i * 2)))).sum
                + ((List.range ((hex_to_byte (advance line 2) : Int) - (aw : Int) - 1).toNat).map
                    (fun i => hex_to_byte (advance line (4 + aw * 2 + i * 2)))).sum
                + hex_to_byte (advance line (2 + 2 * hex_to_byte (advance line 2)))) % 256 = 255
              then 1 else 0 }) := by
  have hoff : (((4 + aw * 2 : Nat) : Int)
      + ((hex_to_byte (advance line 2) : Int) - (aw : Int) - 1) * 2).toNat
      = 2 + 2 * hex_to_byte (advance line 2) := by omega
  have hdata := foldl_update_range
    (fun i => hex_to_byte (advance line (4 + aw * 2 + i * 2))) r.data
    ((hex_to_byte (advance line 2) : Int) - (aw : Int) - 1).toNat
  unfold parse_srec_line
  simp only [hS, ne_eq, not_true_eq_false, if_false, hw, hoff, hdata]
  refine Prod.ext rfl ?_
  simp only
  congr 1
  rw [Nat.and_pow_two_sub_one_eq_mod _ 8, Nat.mod_mod]
  have h2 := foldl_sum_mod
    (fun i => hex_to_byte (advance line (4 + aw * 2 + i * 2)))
    ((List.range aw).foldl
        (fun s i => (s + hex_to_byte (advance line (4 + i * 2))) % 256)
        (hex_to_byte (advance line 2)))
    ((hex_to_byte (advance line 2) : Int) - (aw : Int) - 1).toNat
  have h1 := foldl_sum_mod (fun i => hex_to_byte (advance line (4 + i * 2)))
    (hex_to_byte (advance line 2)) aw
  rw [foldl_congr_range (fun s i => (s + (if i < ((hex_to_byte (advance line 2) : Int)
        - (aw : Int) - 1).toNat then hex_to_byte (advance line (4 + aw * 2 + i * 2))
        else r.data i)) % 256)
      (fun s i => (s + hex_to_byte (advance line (4 + aw * 2 + i * 2))) % 256) _ _
      (fun x i hi => by simp only [hi, if_true])]
  have key : ∀ a b c d e : Nat, a % 256 = (b + c) % 256 → b % 256 = (d + e) % 256 →
      ∀ k, (a + k) % 256 = (d + e + c + k) % 256 := by
    intro a b c d e h h' k; omega
  rw [key _ _ _ _ _ h2 h1]

theorem parse_ret_zero {line : Nat → Nat} {r : srec_record_t}
    (h : (parse_srec_line line r).1 = 0) :
    line 0 = 83 ∧ (is_kind_digit (line 1) ∨ line 1 = 48 ∨ line 1 = 53) ∧
      addr_len_of ((line 1 : Int) - 48) = some (accepted_width (line 1)) := by
  unfold parse_srec_line at h
  by_cases hS : line 0 = 83
  · refine ⟨hS, ?_⟩
    simp only [hS, ne_eq, not_true_eq_false, if_false] at h
    cases hw : addr_len_of ((line 1 : Int) - 48) with
    | none => rw [hw] at h; simp at h
    | some aw =>
      unfold addr_len_of at hw
      unfold is_kind_digit accepted_width kind_width
      split_ifs at hw with h1 h2 h3
      · have : line 1 = 48 ∨ line 1 = 49 ∨ line 1 = 53 ∨ line 1 = 57 := by omega
        rcases this with e | e | e | e <;> simp [e] at hw ⊢ <;> omega
      · have : line 1 = 50 ∨ line 1 = 56 := by omega
        rcases this with e | e <;> simp [e] at hw ⊢ <;> omega
      · have : line 1 = 51 ∨ line 1 = 55 := by omega
        rcases this with e | e <;> simp [e] at hw ⊢ <;> omega
  · simp [hS] at h

theorem accepted_width_le (c : Nat) : accepted_width c ≤ 4 := by
  unfold accepted_width kind_width
  split_ifs <;> omega

theorem shl8_or {a b : Nat} (ha : a < 16777216) (hb : b < 256) :
    ((a <<< 8) % 4294967296) ||| b = a * 256 + b := by
  rw [Nat.shiftLeft_eq]
  have h1 : a * 2 ^ 8 % 4294967296 = 2 ^ 8 * a := by
    rw [Nat.mod_eq_of_lt (by omega)]; ring
  rw [h1, ← Nat.mul_add_lt_is_or (i := 8) hb a]; ring

theorem address_fold (f : Nat → Nat) (hf : ∀ i, f i < 256) (n : Nat) (hn : n ≤ 4) :
    (List.range n).foldl (fun a i => ((a <<< 8) % 4294967296) ||| f i) 0
        = be_value ((List.range n).map f)
      ∧ be_value ((List.range n).map f) < 256 ^ n := by
  induction n with
  | zero => simp [be_value]
  | succ n ih =>
    obtain ⟨ih1, ih2⟩ := ih (by omega)
    have hb : be_value ((List.range n).map f) < 16777216 :=
      lt_of_lt_of_le ih2 (by
        have : 256 ^ n ≤ 256 ^ 3 := Nat.pow_le_pow_right (by decide) (by omega)
        simpa using this)
    have hstep : be_value ((List.range (n + 1)).map f)
        = be_value ((List.range n).map f) * 256 + f n := by
      simp [be_value, List.range_succ, List.foldl_append]
    constructor
    · rw [hstep, List.range_succ, List.foldl_append, ih1]
      simp only [List.foldl_cons, List.foldl_nil]
      exact shl8_or hb (hf n)
    · rw [hstep, pow_succ]
      have := hf n
      nlinarith

theorem and_seven (x : Nat) : x &&& 7 = x % 8 := Nat.and_pow_two_sub_one_eq_mod x 3

theorem write_loop_stuck (addr len : Nat) (p : Nat → Nat) (s : BootState)
    (hlen : len ≠ 0)
    (hA : ¬ (addr &&& 7 = 0 ∧ len = 4))
    (hB : ¬ (addr &&& 7 = 4 ∧ len ≥ FLASH_HALF_SIZE))
    (hC : ¬ (addr &&& 7 = 0 ∧ len ≥ FLASH_ALIGN_SIZE)) :
    ∀ fuel, write_loop fuel addr len p s = none := by
  intro fuel
  induction fuel with
  | zero => rfl
  | succ n ih => rw [write_loop]; simp only [hlen, hA, hB, hC, if_false]; exact ih

theorem write_loop_done (fuel addr : Nat) (p : Nat → Nat) (s : BootState) :
    write_loop (fuel + 1) addr 0 p s = some s := by
  rw [write_loop]; simp

theorem write_loop_case_a (fuel addr : Nat) (p : Nat → Nat) (s : BootState)
    (ha : addr % 8 = 0) :
    write_loop (fuel + 1) addr 4 p s
      = write_loop fuel ((addr + 4) % 4294967296) 0 (advance p 4)
          { s with pending_low4 := memcpy4 s.pending_low4 p,
                   pending_base := addr, pending_valid := 1 } := by
  rw [write_loop]; simp [and_seven, ha, FLASH_HALF_SIZE]

theorem write_loop_case_b (fuel addr len : Nat) (p : Nat → Nat) (s : BootState)
    (ha : addr % 8 = 4) (hl : 4 ≤ len) :
    write_loop (fuel + 1) addr len p s
      = write_loop fuel ((addr + 4) % 4294967296) (len - 4) (advance p 4)
          { Program_LongWord_8B (addr - 4)
              (memcpy4_high (if s.pending_valid ≠ 0 ∧ s.pending_base = addr - 4
                  then memcpy4 buf8_erased s.pending_low4 else buf8_erased) p) s
            with pending_valid := 0 } := by
  rw [write_loop]
  have h0 : len ≠ 0 := by omega
  simp [and_seven, ha, FLASH_HALF_SIZE, hl, h0]

theorem write_loop_case_c (fuel addr len : Nat) (p : Nat → Nat) (s : BootState)
    (ha : addr % 8 = 0) (hl : 8 ≤ len) :
    write_loop (fuel + 1) addr len p s
      = write_loop fuel ((addr + 8) % 4294967296) (len - 8) (advance p 8)
          (Program_LongWord_8B addr p s) := by
  rw [write_loop]
  have h0 : len ≠ 0 := by omega
  have h4 : len ≠ 4 := by omega
  simp [and_seven, ha, FLASH_ALIGN_SIZE, FLASH_HALF_SIZE, hl, h0, h4]

theorem drain_queue_empty (fuel : Nat) (s : BootState) (h : s.queue.count = 0) :
    drain_queue (fuel + 1) s = some s := by
  rw [drain_queue]; simp [SREC_QueuePop, h]

theorem feed_append (fuel : Nat) (xs ys : List Nat) (s : BootState) :
    feed fuel (xs ++ ys) s = (feed fuel xs s).bind (feed fuel ys) := by
  induction xs generalizing s with
  | nil => simp [feed]
  | cons x xs ih =>
    simp only [List.cons_append, feed]
    cases feed_byte fuel s x with
    | none => simp
    | some t => simp [ih]

theorem feed_byte_char_eq (fuel : Nat) (s : BootState) (c : Nat)
    (hq : QueuesIdle s) (hc : c ≠ 10) (hpos : s.line_pos < 255) :
    feed_byte (fuel + 1) s c = some
      { s with uart := uart_after s.uart c,
               line_buf := Function.update s.line_buf s.line_pos c,
               line_pos := s.line_pos + 1 } := by
  obtain ⟨h1, h2, h3, h4⟩ := hq
  have hm : (s.line_pos + 1) % 65536 = s.line_pos + 1 := by omega
  unfold feed_byte Bootloader_Mode assemble_line
  simp only [UART_BufferPush, UART_BufferPop, UART_QUEUE_SIZE, h1, h2, MAX_LINE_LENGTH]
  simp only [ge_iff_le, Nat.reduceLeDiff, if_false, Nat.zero_add, Nat.reduceMod,
    one_ne_zero, Function.update_same, hc, Nat.reduceSub, hpos, if_true, hm]
  rw [drain_queue_empty _ _ (by exact h3)]
  simp [uart_after, h2]

theorem feed_byte_char (fuel : Nat) (s : BootState) (c : Nat)
    (hq : QueuesIdle s) (hc : c ≠ 10) (hpos : s.line_pos < 255) :
    ∃ t, feed_byte (fuel + 1) s c = some t ∧ QueuesIdle t ∧ SameEngine s t ∧
      t.line_pos = s.line_pos + 1 ∧ t.line_buf = Function.update s.line_buf s.line_pos c := by
  refine ⟨_, feed_byte_char_eq fuel s c hq hc hpos, ?_, ?_, rfl, rfl⟩
  · obtain ⟨h1, h2, h3, h4⟩ := hq
    simp [QueuesIdle, uart_after, h2, h3, h4]
  · simp [SameEngine]

theorem SameEngine.trans {s t u : BootState} (h1 : SameEngine s t) (h2 : SameEngine t u) :
    SameEngine s u := by
  obtain ⟨a, b, c, d⟩ := h1
  obtain ⟨a', b', c', d'⟩ := h2
  exact ⟨a'.trans a, b'.trans b, c'.trans c, d'.trans d⟩

theorem SameEngine.refl (s : BootState) : SameEngine s s := ⟨rfl, rfl, rfl, rfl⟩

theorem feed_chars (fuel : Nat) (l : List Nat) :
    ∀ s : BootState, QueuesIdle s → (∀ c ∈ l, c ≠ 10) → s.line_pos + l.length ≤ 255 →
      ∃ t, feed (fuel + 1) l s = some t ∧ QueuesIdle t ∧ SameEngine s t ∧
        t.line_pos = s.line_pos + l.length ∧
        (∀ i, i < l.length → t.line_buf (s.line_pos + i) = l.getD i 0) ∧
        (∀ j, j < s.line_pos → t.line_buf j = s.line_buf j) := by
  induction l with
  | nil =>
    intro s hq _ _
    exact ⟨s, rfl, hq, SameEngine.refl s, rfl, fun i hi => absurd hi (Nat.not_lt_zero i),
      fun j _ => rfl⟩
  | cons c l ih =>
    intro s hq hc hlen
    simp only [List.length_cons] at hlen
    obtain ⟨t, ht, hqt, het, hpt, hbt⟩ :=
      feed_byte_char fuel s c hq (hc c (List.mem_cons_self c l)) (by omega)
    obtain ⟨u, hu, hqu, heu, hpu, hbu, hku⟩ :=
      ih t hqt (fun x hx => hc x (List.mem_cons_of_mem c hx)) (by omega)
    refine ⟨u, ?_, hqu, het.trans heu, ?_, ?_, ?_⟩
    · simp only [feed, ht, Option.some_bind]; exact hu
    · simp only [List.length_cons]; omega
    · intro i hi
      cases i with
      | zero =>
        rw [Nat.add_zero, hku _ (by omega), hbt]
        simp
      | succ i =>
        simp only [List.length_cons] at hi
        have := hbu i (by omega)
        rw [hpt] at this
        rw [show s.line_pos + (i + 1) = s.line_pos + 1 + i by omega, this]
        simp
    · intro j hj
      rw [hku j (by omega), hbt, Function.update_noteq (by omega)]

theorem copy_line_spec (src : Nat → Nat) (n : Nat) (hn : n ≤ 255)
    (hsrc : ∀ j, j < n → src j ≠ 0) (hend : n < 255 → src n = 0) :
    ∀ (fuel i : Nat) (dst : Nat → Nat), i ≤ n → n ≤ i + fuel →
      copy_line src fuel i dst
        = fun j => if i ≤ j ∧ j < n then src j else if j = n then 0 else dst j := by
  intro fuel
  induction fuel with
  | zero =>
    intro i dst hi hf
    have : i = n := by omega
    subst this
    funext j
    simp only [copy_line, Function.update_apply]
    by_cases hj : j = i
    · simp [hj]
    · have : ¬ (i ≤ j ∧ j < i) := by omega
      simp [hj, this]
  | succ fuel ih =>
    intro i dst hi hf
    rw [copy_line]
    by_cases hin : i = n
    · subst hin
      have hc : ¬ (src i ≠ 0 ∧ i < SREC_LINE_MAX_LEN - 1) := by
        rintro ⟨h1, h2⟩
        exact h1 (hend h2)
      rw [if_neg hc]
      funext j
      simp only [Function.update_apply]
      by_cases hj : j = i
      · simp [hj]
      · have : ¬ (i ≤ j ∧ j < i) := by omega
        simp [hj, this]
    · have hlt : i < n := by omega
      have hc : src i ≠ 0 ∧ i < SREC_LINE_MAX_LEN - 1 :=
        ⟨hsrc i hlt, by show i < 255; omega⟩
      rw [if_pos hc, ih (i + 1) _ (by omega) (by omega)]
      funext j
      simp only [Function.update_apply]
      by_cases h1 : i + 1 ≤ j ∧ j < n
      · have : i ≤ j ∧ j < n := by omega
        simp [h1, this]
      · by_cases hj : j = i
        · subst hj; simp [hlt, hin]
        · have : ¬ (i ≤ j ∧ j < n) := by omega
          simp [h1, this, hj]

theorem feed_byte_newline_eq (fuel : Nat) (s : BootState)
    (hq : QueuesIdle s) (hpos : 0 < s.line_pos) (hS : s.line_buf 0 = 83) :
    feed_byte (fuel + 1) s 10
      = (process_line fuel (line_delivered s)).bind (drain_queue fuel) := by
  obtain ⟨h1, h2, h3, h4⟩ := hq
  have hne : s.line_pos ≠ 0 := by omega
  have hS' : Function.update s.line_buf s.line_pos 0 0 = 83 := by
    rw [Function.update_noteq (Ne.symm hne)]; exact hS
  unfold feed_byte Bootloader_Mode assemble_line
  simp only [UART_BufferPush, UART_BufferPop, UART_QUEUE_SIZE, h1, h2, MAX_LINE_LENGTH]
  simp only [ge_iff_le, Nat.reduceLeDiff, if_false, Nat.zero_add, Nat.reduceMod,
    one_ne_zero, Function.update_same, if_true, hpos, gt_iff_lt, hS']
  rw [drain_queue]
  simp only [SREC_QueuePush, SREC_QueuePop, h3, SREC_MAX_LINES, Nat.zero_add, Nat.reduceMod,
    Nat.lt_add_one, if_true, gt_iff_lt, Nat.reduceLT, h4, Function.update_same,
    Nat.sub_self, Nat.add_one_sub_one]
  simp [line_delivered, uart_after, h2, h4]

theorem line_delivered_spec (s : BootState) (hq : QueuesIdle s) (hlen : s.line_pos ≤ 255)
    (hnz : ∀ i, i < s.line_pos → s.line_buf i ≠ 0) :
    QueuesIdle (line_delivered s) ∧ SameEngine s (line_delivered s) ∧
      (line_delivered s).line_pos = 0 ∧
      (∀ i, i < s.line_pos → (line_delivered s).srec_line i = s.line_buf i) := by
  obtain ⟨h1, h2, h3, h4⟩ := hq
  refine ⟨?_, ?_, rfl, ?_⟩
  · simp [QueuesIdle, line_delivered, uart_after, h2, h4]
  · simp [SameEngine, line_delivered]
  · intro i hi
    have hsrc : ∀ j, j < s.line_pos → Function.update s.line_buf s.line_pos 0 j ≠ 0 := by
      intro j hj
      rw [Function.update_noteq (by omega)]
      exact hnz j hj
    have hrow := copy_line_spec (Function.update s.line_buf s.line_pos 0) s.line_pos hlen hsrc
      (fun _ => by simp) 255 0 (s.queue.srec_buf s.queue.head) (Nat.zero_le _) (by omega)
    have hsrc2 : ∀ j, j < s.line_pos →
        copy_line (Function.update s.line_buf s.line_pos 0) 255 0
          (s.queue.srec_buf s.queue.head) j ≠ 0 := by
      intro j hj
      rw [hrow]
      simp only [Nat.zero_le, true_and, hj, if_true]
      exact hsrc j hj
    have hout := copy_line_spec _ s.line_pos hlen hsrc2
      (fun _ => by rw [hrow]; simp) 255 0 s.srec_line (Nat.zero_le _) (by omega)
    show copy_line _ 255 0 s.srec_line i = _
    rw [hout]
    simp only [Nat.zero_le, true_and, hi, if_true]
    rw [hrow]
    simp only [Nat.zero_le, true_and, hi, if_true]
    rw [Function.update_noteq (by omega)]

theorem hex_to_byte_of_nibbles (line : Nat → Nat) (off b : Nat)
    (h1 : hex_nibble (line off) = some (b / 16))
    (h2 : hex_nibble (line (off + 1)) = some (b % 16)) :
    hex_to_byte (advance line off) = b := by
  have hb := hex_nibble_lt h1
  unfold hex_to_byte advance
  simp only [Nat.add_zero, h1, h2]
  rw [shl4_or (Nat.mod_lt _ (by decide))]
  omega

theorem range_map_getD (l : List Nat) :
    (List.range l.length).map (fun i => l.getD i 0) = l := by
  apply List.ext_getElem
  · simp
  · intro i h1 h2
    simp [List.getElem?_eq_getElem h2]

theorem be_value_addr_bytes (aw addr : Nat) (haw : aw = 2 ∨ aw = 3 ∨ aw = 4)
    (haddr : addr < 256 ^ aw) :
    be_value ((List.range aw).map (addr_byte aw addr)) = addr := by
  rcases haw with h | h | h <;> subst h <;>
    simp [be_value, List.range_succ, addr_byte] at haddr ⊢ <;> omega

theorem kind_width_cases {kind : Nat}
    (hk : kind = 1 ∨ kind = 2 ∨ kind = 3 ∨ kind = 7 ∨ kind = 8 ∨ kind = 9) :
    (kind_width (48 + kind) = 2 ∨ kind_width (48 + kind) = 3 ∨ kind_width (48 + kind) = 4) ∧
      addr_len_of (((48 + kind : Nat) : Int) - 48) = some (kind_width (48 + kind)) := by
  rcases hk with h | h | h | h | h | h <;> subst h <;> decide

theorem parse_record_line (line : Nat → Nat) (r : srec_record_t) (l : List Nat)
    (kind addr : Nat) (data : List Nat)
    (hk : kind = 1 ∨ kind = 2 ∨ kind = 3 ∨ kind = 7 ∨ kind = 8 ∨ kind = 9)
    (hl : is_record_line l kind addr data)
    (hagree : ∀ i, i < l.length → line i = l.getD i 0) :
    (parse_srec_line line r).1 = 0 ∧
      (parse_srec_line line r).2.type = (kind : Int) ∧
      (parse_srec_line line r).2.address = addr ∧
      (parse_srec_line line r).2.data_len = data.length ∧
      (∀ i, i < data.length → (parse_srec_line line r).2.data i = data.getD i 0) ∧
      (parse_srec_line line r).2.valid = 1 := by
  obtain ⟨hlen, hS, hK, hnib, haddr⟩ := hl
  obtain ⟨haw, hw⟩ := kind_width_cases hk
  generalize hawdef : kind_width (48 + kind) = aw at *
  have hS' : line 0 = 83 := by rw [hagree 0 (by omega)]; exact hS
  have hK' : line 1 = 48 + kind := by rw [hagree 1 (by omega)]; exact hK
  have hpair : ∀ k, k < aw + data.length + 2 →
      hex_to_byte (advance line (2 + 2 * k)) = record_byte aw addr data k := by
    intro k hk'
    obtain ⟨n1, n2⟩ := hnib k hk'
    apply hex_to_byte_of_nibbles
    · rw [hagree _ (by omega)]; exact n1
    · rw [hagree _ (by omega)]; exact n2
  have hcount : hex_to_byte (advance line 2) = aw + data.length + 1 := by
    have := hpair 0 (by omega)
    simpa [record_byte] using this
  have hlt := hex_to_byte_lt (advance line 2)
  have haddrb : ∀ i, i < aw →
      hex_to_byte (advance line (4 + i * 2)) = addr_byte aw addr i := by
    intro i hi
    have := hpair (1 + i) (by omega)
    rw [show 2 + 2 * (1 + i) = 4 + i * 2 by omega] at this
    rw [this]
    have h0 : ¬ (1 + i = 0) := by omega
    have h1 : 1 + i ≤ aw := by omega
    simp only [record_byte, h0, h1, if_false, if_true]
    rw [show 1 + i - 1 = i by omega]
  have hdatab : ∀ i, i < data.length →
      hex_to_byte (advance line (4 + aw * 2 + i * 2)) = data.getD i 0 := by
    intro i hi
    have := hpair (1 + aw + i) (by omega)
    rw [show 2 + 2 * (1 + aw + i) = 4 + aw * 2 + i * 2 by omega] at this
    rw [this]
    have h0 : ¬ (1 + aw + i = 0) := by omega
    have h1 : ¬ (1 + aw + i ≤ aw) := by omega
    have h2 : 1 + aw + i ≤ aw + data.length := by omega
    simp only [record_byte, h0, h1, h2, if_false, if_true]
    rw [show 1 + aw + i - 1 - aw = i by omega]
  have hck : hex_to_byte (advance line (2 + 2 * (aw + data.length + 1)))
      = record_checksum aw addr data := by
    rw [hpair (aw + data.length + 1) (by omega)]
    have h0 : ¬ (aw + data.length + 1 = 0) := by omega
    have h1 : ¬ (aw + data.length + 1 ≤ aw) := by omega
    have h2 : ¬ (aw + data.length + 1 ≤ aw + data.length) := by omega
    simp only [record_byte, h0, h1, h2, if_false]
  have hwl : addr_len_of ((line 1 : Int) - 48) = some aw := by rw [hK']; exact hw
  have hn : (((aw + data.length + 1 : Nat) : Int) - (aw : Int) - 1).toNat = data.length := by
    omega
  have hm : ((((aw + data.length + 1 : Nat) : Int) - (aw : Int) - 1) % 256).toNat
      = data.length := by
    rw [hcount] at hlt; omega
  have hsa : (List.range aw).map (fun i => hex_to_byte (advance line (4 + i * 2)))
      = (List.range aw).map (addr_byte aw addr) :=
    List.map_congr_left (fun i hi => haddrb i (List.mem_range.mp hi))
  have hsd : (List.range data.length).map
      (fun i => hex_to_byte (advance line (4 + aw * 2 + i * 2))) = data := by
    rw [List.map_congr_left (fun i hi => hdatab i (List.mem_range.mp hi))]
    exact range_map_getD data
  rw [parse_accept line r aw hS' hwl]
  simp only [hcount, hn, hm, hsa, hsd, hck]
  refine ⟨trivial, ?_, ?_, trivial, ?_, ?_⟩
  · rw [hK']; push_cast; ring
  · have haf := (address_fold (fun i => hex_to_byte (advance line (4 + i * 2)))
      (fun i => hex_to_byte_lt _) aw (by omega)).1
    rw [haf, hsa]
    exact be_value_addr_bytes aw addr haw haddr
  · intro i hi
    rw [if_pos hi]
    exact hdatab i hi
  · have : (aw + data.length + 1 + ((List.range aw).map (addr_byte aw addr)).sum + data.sum
        + record_checksum aw addr data) % 256 = 255 := by
      unfold record_checksum
      omega
    rw [if_pos this]

theorem flash_image_append (ops : List (Nat × List Nat)) (op : Nat × List Nat) :
    flash_image (ops ++ [op]) = program_image (flash_image ops) op := by
  simp [flash_image, List.foldl_append]

theorem program_image_eight (img : Nat → Nat) (base : Nat) (b : Nat → Nat) :
    program_image img (base, [b 0, b 1, b 2, b 3, b 4, b 5, b 6, b 7])
      = fun a => if base ≤ a ∧ a < base + 8 then b (a - base) else img a := by
  funext a
  simp only [program_image, List.length_cons, List.length_nil]
  by_cases h : base ≤ a ∧ a < base + 8
  · have h' : base ≤ a ∧ a < base + (0 + 1 + 1 + 1 + 1 + 1 + 1 + 1 + 1) := by omega
    rw [if_pos h, if_pos h']
    obtain ⟨k, rfl⟩ : ∃ k, a = base + k := ⟨a - base, by omega⟩
    rw [Nat.add_sub_cancel_left]
    have hk : k < 8 := by omega
    interval_cases k <;> rfl
  · have h' : ¬ (base ≤ a ∧ a < base + (0 + 1 + 1 + 1 + 1 + 1 + 1 + 1 + 1)) := by omega
    rw [if_neg h, if_neg h']

theorem flash_image_program (s : BootState) (base : Nat) (b : Nat → Nat) :
    flash_image (Program_LongWord_8B base b s).programs
      = fun a => if base ≤ a ∧ a < base + 8 then b (a - base) else flash_image s.programs a := by
  simp only [Program_LongWord_8B]
  rw [flash_image_append, program_image_eight]

theorem ops8_program {s : BootState} (h : ∀ op ∈ s.programs, op.2.length = 8)
    (base : Nat) (b : Nat → Nat) :
    ∀ op ∈ (Program_LongWord_8B base b s).programs, op.2.length = 8 := by
  intro op hop
  simp only [Program_LongWord_8B, List.mem_append, List.mem_singleton] at hop
  rcases hop with hop | hop
  · exact h op hop
  · rw [hop]; rfl

theorem inv_case_a (A : Nat) (D : List Nat) (m : Nat) (s : BootState) (p : Nat → Nat)
    (hinv : EngineInv A D m s) (hal : (A + m) % 8 = 0)
    (hp : ∀ i, i < 4 → p i = D.getD (m + i) 255) :
    EngineInv A D (m + 4)
      { s with pending_low4 := memcpy4 s.pending_low4 p,
               pending_base := A + m, pending_valid := 1 } := by
  obtain ⟨h8, hinv⟩ := hinv
  refine ⟨h8, ?_⟩
  rcases hinv with ⟨_, _, himg⟩ | ⟨_, _, h4, _⟩
  · right
    refine ⟨rfl, by omega, by omega, by simp; omega, ?_, ?_⟩
    · intro i hi
      simp only [memcpy4, hi, if_true, Nat.add_sub_cancel]
      exact hp i hi
    · simpa using himg
  · omega

theorem inv_case_c (A : Nat) (D : List Nat) (m : Nat) (s : BootState) (p : Nat → Nat)
    (hinv : EngineInv A D m s) (hal : (A + m) % 8 = 0)
    (hp : ∀ i, i < 8 → p i = D.getD (m + i) 255) :
    EngineInv A D (m + 8) (Program_LongWord_8B (A + m) p s) := by
  obtain ⟨h8, hinv⟩ := hinv
  refine ⟨ops8_program h8 _ _, ?_⟩
  rcases hinv with ⟨hv, _, himg⟩ | ⟨_, _, h4, _⟩
  · left
    refine ⟨hv, fun _ => by omega, ?_⟩
    rw [flash_image_program, himg]
    funext a
    simp only [expected_image]
    by_cases h1 : A + m ≤ a ∧ a < A + m + 8
    · have h2 : A ≤ a ∧ a < A + (m + 8) := by omega
      rw [if_pos h1, if_pos h2, hp _ (by omega)]
      congr 1; omega
    · rw [if_neg h1]
      by_cases h2 : A ≤ a ∧ a < A + m
      · have h3 : A ≤ a ∧ a < A + (m + 8) := by omega
        rw [if_pos h2, if_pos h3]
      · have h3 : ¬ (A ≤ a ∧ a < A + (m + 8)) := by omega
        rw [if_neg h2, if_neg h3]
  · omega

theorem inv_case_b (A : Nat) (D : List Nat) (m : Nat) (s : BootState) (p : Nat → Nat)
    (hinv : EngineInv A D m s) (hal : (A + m) % 8 = 4)
    (hp : ∀ i, i < 4 → p i = D.getD (m + i) 255) :
    EngineInv A D (m + 4)
      { Program_LongWord_8B (A + m - 4)
          (memcpy4_high (if s.pending_valid ≠ 0 ∧ s.pending_base = A + m - 4
              then memcpy4 buf8_erased s.pending_low4 else buf8_erased) p) s
        with pending_valid := 0 } := by
  obtain ⟨h8, hinv⟩ := hinv
  refine ⟨ops8_program h8 _ _, ?_⟩
  left
  refine ⟨rfl, fun _ => by omega, ?_⟩
  show flash_image (Program_LongWord_8B _ _ s).programs = _
  rw [flash_image_program]
  rcases hinv with ⟨hv, hm, himg⟩ | ⟨hv, hm4, _, hbase, hlow, himg⟩
  · have hm0 : m = 0 := by
      by_contra h
      have := hm (by omega)
      omega
    subst hm0
    have hc : ¬ (s.pending_valid ≠ 0 ∧ s.pending_base = A + 0 - 4) := by
      rintro ⟨h, _⟩; exact h hv
    rw [if_neg hc, himg]
    funext a
    simp only [expected_image, memcpy4_high, buf8_erased, Nat.add_zero]
    by_cases h1 : A - 4 ≤ a ∧ a < A - 4 + 8
    · rw [if_pos h1]
      by_cases h2 : 4 ≤ a - (A - 4) ∧ a - (A - 4) < 8
      · have h3 : A ≤ a ∧ a < A + (0 + 4) := by omega
        rw [if_pos h2, if_pos h3, hp _ (by omega)]
        congr 1; omega
      · have h3 : ¬ (A ≤ a ∧ a < A + (0 + 4)) := by omega
        rw [if_neg h2, if_neg h3]
    · have h3 : ¬ (A ≤ a ∧ a < A + (0 + 4)) := by omega
      have h4 : ¬ (A ≤ a ∧ a < A) := by omega
      rw [if_neg h1, if_neg h3, if_neg h4]
  · have hc : s.pending_valid ≠ 0 ∧ s.pending_base = A + m - 4 := ⟨by omega, hbase⟩
    rw [if_pos hc, himg]
    funext a
    simp only [expected_image, memcpy4_high, memcpy4, buf8_erased]
    by_cases h1 : A + m - 4 ≤ a ∧ a < A + m - 4 + 8
    · rw [if_pos h1]
      by_cases h2 : 4 ≤ a - (A + m - 4) ∧ a - (A + m - 4) < 8
      · have h3 : A ≤ a ∧ a < A + (m + 4) := by omega
        rw [if_pos h2, if_pos h3, hp _ (by omega)]
        congr 1; omega
      · have h3 : A ≤ a ∧ a < A + (m + 4) := by omega
        have h5 : a - (A + m - 4) < 4 := by omega
        rw [if_neg h2, if_pos h3, if_pos h5, hlow _ h5]
        congr 1; omega
    · rw [if_neg h1]
      by_cases h2 : A ≤ a ∧ a < A + (m - 4)
      · have h3 : A ≤ a ∧ a < A + (m + 4) := by omega
        rw [if_pos h2, if_pos h3]
      · have h3 : ¬ (A ≤ a ∧ a < A + (m + 4)) := by omega
        rw [if_neg h2, if_neg h3]

theorem write_loop_inv (A : Nat) (D : List Nat) (hbound : A + D.length ≤ 4294967288) :
    ∀ (fuel addr len : Nat) (p : Nat → Nat) (s : BootState) (m : Nat),
      only_abc fuel addr len = true → EngineInv A D m s → addr = A + m →
      m + len ≤ D.length → (∀ i, i < len → p i = D.getD (m + i) 255) →
      ∃ s', write_loop fuel addr len p s = some s' ∧ EngineInv A D (m + len) s' ∧
        s'.uart = s.uart ∧ s'.queue = s.queue ∧ s'.line_pos = s.line_pos ∧
        s'.record = s.record := by
  intro fuel
  induction fuel with
  | zero => intro addr len p s m h; simp [only_abc] at h
  | succ fuel ih =>
    intro addr len p s m habc hinv haddr hlen hp
    subst haddr
    by_cases h0 : len = 0
    · subst h0
      exact ⟨s, write_loop_done _ _ _ _, hinv, rfl, rfl, rfl, rfl⟩
    · rw [only_abc] at habc
      simp only [h0, if_false, and_seven, FLASH_HALF_SIZE, FLASH_ALIGN_SIZE] at habc
      by_cases hA : (A + m) % 8 = 0 ∧ len = 4
      · obtain ⟨hal, hl4⟩ := hA
        subst hl4
        simp only [hal, and_self, if_true] at habc
        have hnext : (A + m + 4) % 4294967296 = A + (m + 4) := by omega
        rw [write_loop_case_a _ _ _ _ hal]
        rw [hnext] at habc ⊢
        obtain ⟨s', h1, h2, h3, h4, h5, h6⟩ := ih (A + (m + 4)) 0 (advance p 4) _ (m + 4) habc
          (inv_case_a A D m s p hinv (by omega) (fun i hi => hp i hi))
          rfl (by omega) (fun i hi => absurd hi (Nat.not_lt_zero i))
        exact ⟨s', h1, h2, h3, h4, h5, h6⟩
      · rw [if_neg hA] at habc
        by_cases hB : (A + m) % 8 = 4 ∧ len ≥ 4
        · obtain ⟨hal, hl4⟩ := hB
          simp only [hal, hl4, and_self, if_true, ge_iff_le] at habc
          have hnext : (A + m + 4) % 4294967296 = A + (m + 4) := by omega
          rw [write_loop_case_b _ _ _ _ _ hal hl4]
          rw [hnext] at habc ⊢
          obtain ⟨s', h1, h2, h3, h4, h5, h6⟩ := ih (A + (m + 4)) (len - 4) (advance p 4) _
            (m + 4) habc
            (inv_case_b A D m s p hinv (by omega) (fun i hi => hp i (by omega)))
            rfl (by omega)
            (fun i hi => by
              show p (4 + i) = _
              rw [hp _ (by omega)]; congr 1; omega)
          refine ⟨s', h1, ?_, h3, h4, h5, h6⟩
          rw [show m + len = m + 4 + (len - 4) by omega]; exact h2
        · rw [if_neg hB] at habc
          by_cases hC : (A + m) % 8 = 0 ∧ len ≥ 8
          · obtain ⟨hal, hl8⟩ := hC
            simp only [hal, hl8, and_self, if_true, ge_iff_le] at habc
            have hnext : (A + m + 8) % 4294967296 = A + (m + 8) := by omega
            rw [write_loop_case_c _ _ _ _ _ hal hl8]
            rw [hnext] at habc ⊢
            obtain ⟨s', h1, h2, h3, h4, h5, h6⟩ := ih (A + (m + 8)) (len - 8) (advance p 8) _
              (m + 8) habc
              (inv_case_c A D m s p hinv (by omega) (fun i hi => hp i (by omega)))
              rfl (by omega)
              (fun i hi => by
                show p (8 + i) = _
                rw [hp _ (by omega)]; congr 1; omega)
            refine ⟨s', h1, ?_, h3, h4, h5, h6⟩
            rw [show m + len = m + 8 + (len - 8) by omega]; exact h2
          · rw [if_neg hC] at habc
            exact absurd habc (by simp)

theorem only_abc_mono : ∀ (fuel fuel' addr len : Nat), fuel ≤ fuel' →
    only_abc fuel addr len = true → only_abc fuel' addr len = true := by
  intro fuel
  induction fuel with
  | zero => intro fuel' addr len _ h; simp [only_abc] at h
  | succ fuel ih =>
    intro fuel' addr len hle h
    obtain ⟨g, rfl⟩ : ∃ g, fuel' = g + 1 := ⟨fuel' - 1, by omega⟩
    rw [only_abc] at h ⊢
    split_ifs at h ⊢ with h0 hA hB hC
    · rfl
    · exact ih g _ _ (by omega) h
    · exact ih g _ _ (by omega) h
    · exact ih g _ _ (by omega) h

theorem process_line_data_record (A : Nat) (D : List Nat) (hbound : A + D.length ≤ 4294967288)
    (hlo : APP_FLASH_START ≤ A) (hhi : A + D.length ≤ APP_FLASH_END + 1)
    (fuel : Nat) (t : BootState) (m : Nat) (c : List Nat)
    (hret : (parse_srec_line t.srec_line t.record).1 = 0)
    (htype : (parse_srec_line t.srec_line t.record).2.type = 1
      ∨ (parse_srec_line t.srec_line t.record).2.type = 2
      ∨ (parse_srec_line t.srec_line t.record).2.type = 3)
    (haddr : (parse_srec_line t.srec_line t.record).2.address = A + m)
    (hdl : (parse_srec_line t.srec_line t.record).2.data_len = c.length)
    (hdata : ∀ i, i < c.length →
      (parse_srec_line t.srec_line t.record).2.data i = c.getD i 0)
    (hvalid : (parse_srec_line t.srec_line t.record).2.valid = 1)
    (hD : ∀ i, i < c.length → D.getD (m + i) 255 = c.getD i 0)
    (hm : m + c.length ≤ D.length)
    (habc : only_abc fuel (A + m) c.length = true)
    (hinv : EngineInv A D m t) :
    ∃ t', process_line fuel t = some t' ∧ EngineInv A D (m + c.length) t' ∧
      t'.uart = t.uart ∧ t'.queue = t.queue ∧ t'.line_pos = t.line_pos := by
  have hne : ¬ ((parse_srec_line t.srec_line t.record).2.type = 7
      ∨ (parse_srec_line t.srec_line t.record).2.type = 8
      ∨ (parse_srec_line t.srec_line t.record).2.type = 9) := by omega
  have hinv1 : EngineInv A D m { t with record := (parse_srec_line t.srec_line t.record).2 } :=
    hinv
  obtain ⟨s', h1, h2, h3, h4, h5, h6⟩ := write_loop_inv A D hbound fuel (A + m) c.length
    (parse_srec_line t.srec_line t.record).2.data
    { t with record := (parse_srec_line t.srec_line t.record).2 } m habc hinv1 rfl hm
    (fun i hi => by rw [hdata i hi, hD i hi])
  have hend : process_end s' = s' := by
    unfold process_end
    rw [h6]
    simp only [hne, if_false]
  by_cases hc : c.length = 0
  · refine ⟨{ t with record := (parse_srec_line t.srec_line t.record).2 }, ?_, ?_, rfl, rfl, rfl⟩
    · obtain ⟨g, rfl⟩ : ∃ g, fuel = g + 1 := by
        cases fuel with
        | zero => simp [only_abc] at habc
        | succ g => exact ⟨g, rfl⟩
      unfold process_line process_data
      simp only [hret, hvalid, ne_eq, one_ne_zero, not_false_eq_true, and_self, if_true, htype,
        hdl, hc, write_loop_done, ite_self, Option.map_some']
      congr 1
      unfold process_end
      simp only [hne, if_false]
    · rw [hc]; exact hinv
  · refine ⟨s', ?_, h2, h3, h4, h5⟩
    have hin : A + m ≥ APP_FLASH_START ∧ A + m ≤ APP_FLASH_END := by
      have e1 : APP_FLASH_START = 40960 := rfl
      have e2 : APP_FLASH_END = 524287 := rfl
      rw [e1] at hlo ⊢
      rw [e2] at hhi ⊢
      omega
    unfold process_line process_data
    simp only [hret, hvalid, ne_eq, one_ne_zero, not_false_eq_true, and_self, if_true, htype,
      hin, haddr, hdl, h1, Option.map_some', hend]

theorem process_line_end_record (A : Nat) (D : List Nat)
    (fuel : Nat) (t : BootState)
    (hret : (parse_srec_line t.srec_line t.record).1 = 0)
    (htype : (parse_srec_line t.srec_line t.record).2.type = 7
      ∨ (parse_srec_line t.srec_line t.record).2.type = 8
      ∨ (parse_srec_line t.srec_line t.record).2.type = 9)
    (hvalid : (parse_srec_line t.srec_line t.record).2.valid = 1)
    (hinv : EngineInv A D D.length t) :
    ∃ t', process_line fuel t = some t' ∧ t'.pending_valid = 0 ∧
      flash_image t'.programs = expected_image A D D.length ∧
      t'.queue.count = 0 ∧ (∀ op ∈ t'.programs, op.2.length = 8) := by
  have hne : ¬ ((parse_srec_line t.srec_line t.record).2.type = 1
      ∨ (parse_srec_line t.srec_line t.record).2.type = 2
      ∨ (parse_srec_line t.srec_line t.record).2.type = 3) := by omega
  have h1 : process_line fuel t = some (process_end
      { t with record := (parse_srec_line t.srec_line t.record).2 }) := by
    unfold process_line process_data
    simp only [hret, hvalid, ne_eq, one_ne_zero, not_false_eq_true, and_self, if_true, hne,
      if_false]
    rfl
  obtain ⟨h8, hinv⟩ := hinv
  refine ⟨_, h1, ?_, ?_, ?_, ?_⟩
  · by_cases hp : t.pending_valid = 0 <;> simp [process_end, htype, hp]
  · rcases hinv with ⟨hv, _, himg⟩ | ⟨hv, hm4, _, hbase, hlow, himg⟩
    · simp [process_end, htype, hv, himg]
    · have hv' : t.pending_valid ≠ 0 := by omega
      simp only [process_end, htype, if_true, hv', ne_eq, not_false_eq_true]
      show flash_image (Program_LongWord_8B _ _ _).programs = _
      rw [flash_image_program]
      show (fun a => if t.pending_base ≤ a ∧ a < t.pending_base + 8
        then memcpy4 buf8_erased t.pending_low4 (a - t.pending_base)
        else flash_image t.programs a) = _
      rw [himg, hbase]
      funext a
      simp only [expected_image, memcpy4, buf8_erased]
      by_cases h1 : A + D.length - 4 ≤ a ∧ a < A + D.length - 4 + 8
      · rw [if_pos h1]
        by_cases h2 : a - (A + D.length - 4) < 4
        · have h3 : A ≤ a ∧ a < A + D.length := by omega
          rw [if_pos h2, if_pos h3, hlow _ h2]
          congr 1; omega
        · have h3 : ¬ (A ≤ a ∧ a < A + D.length) := by omega
          rw [if_neg h2, if_neg h3]
      · rw [if_neg h1]
        by_cases h2 : A ≤ a ∧ a < A + (D.length - 4)
        · have h3 : A ≤ a ∧ a < A + D.length := by omega
          rw [if_pos h2, if_pos h3]
        · have h3 : ¬ (A ≤ a ∧ a < A + D.length) := by omega
          rw [if_neg h2, if_neg h3]
  · by_cases hp : t.pending_valid = 0 <;> simp [process_end, htype, hp, SREC_QueueInit]
  · by_cases hp : t.pending_valid = 0
    · simpa [process_end, htype, hp] using h8
    · simp only [process_end, htype, if_true, hp, ne_eq, not_false_eq_true]
      exact ops8_program h8 _ _

theorem hex_nibble_char {c n : Nat} (h : hex_nibble c = some n) : c ≠ 10 ∧ c ≠ 0 := by
  unfold hex_nibble at h
  split_ifs at h <;> omega

theorem record_line_chars {l : List Nat} {kind addr : Nat} {data : List Nat}
    (hl : is_record_line l kind addr data) (hk : 1 ≤ kind) :
    ∀ i, i < l.length → l.getD i 0 ≠ 10 ∧ l.getD i 0 ≠ 0 := by
  obtain ⟨hlen, hS, hK, hnib, -⟩ := hl
  intro i hi
  by_cases h0 : i = 0
  · subst h0; rw [hS]; omega
  · by_cases h1 : i = 1
    · subst h1; rw [hK]; omega
    · obtain ⟨n1, n2⟩ := hnib ((i - 2) / 2) (by omega)
      by_cases hpar : i % 2 = 0
      · rw [show 2 + 2 * ((i - 2) / 2) = i by omega] at n1
        exact hex_nibble_char n1
      · rw [show 2 + 2 * ((i - 2) / 2) + 1 = i by omega] at n2
        exact hex_nibble_char n2

theorem mem_of_getD {l : List Nat} {P : Nat → Prop}
    (h : ∀ i, i < l.length → P (l.getD i 0)) : ∀ c ∈ l, P c := by
  intro c hc
  obtain ⟨i, hi, rfl⟩ := List.mem_iff_getElem.mp hc
  have := h i hi
  rwa [List.getD_eq_getElem _ _ hi] at this

theorem feed_line (fuel : Nat) (s : BootState) (l : List Nat)
    (hq : QueuesIdle s) (hpos : s.line_pos = 0)
    (hne : 0 < l.length) (hlen : l.length ≤ 255) (hS : l.getD 0 0 = 83)
    (hch : ∀ i, i < l.length → l.getD i 0 ≠ 10 ∧ l.getD i 0 ≠ 0) :
    ∃ t, feed (fuel + 1) (l ++ [10]) s = (process_line fuel t).bind (drain_queue fuel) ∧
      QueuesIdle t ∧ SameEngine s t ∧ t.line_pos = 0 ∧
      (∀ i, i < l.length → t.srec_line i = l.getD i 0) := by
  obtain ⟨u, hu, hqu, heu, hpu, hbu, -⟩ := feed_chars fuel l s hq
    (mem_of_getD (fun i hi => (hch i hi).1)) (by omega)
  rw [hpos, Nat.zero_add] at hpu
  have hbu' : ∀ i, i < l.length → u.line_buf i = l.getD i 0 := by
    intro i hi
    have := hbu i hi
    rwa [hpos, Nat.zero_add] at this
  have hnz : ∀ i, i < u.line_pos → u.line_buf i ≠ 0 := by
    intro i hi
    rw [hpu] at hi
    rw [hbu' i hi]
    exact (hch i hi).2
  obtain ⟨k1, k2, k3, k4⟩ := line_delivered_spec u hqu (by omega) hnz
  refine ⟨line_delivered u, ?_, k1, heu.trans k2, k3, ?_⟩
  · rw [feed_append, hu]
    simp only [Option.some_bind, feed]
    rw [feed_byte_newline_eq fuel u hqu (by omega) (by rw [hbu' 0 hne]; exact hS)]
    cases (process_line fuel (line_delivered u)).bind (drain_queue fuel) <;> rfl
  · intro i hi
    rw [k4 i (by omega), hbu' i hi]

theorem EngineInv_of_same {A : Nat} {D : List Nat} {m : Nat} {s t : BootState}
    (h : SameEngine s t) (hinv : EngineInv A D m s) : EngineInv A D m t := by
  obtain ⟨a, b, c, d⟩ := h
  unfold EngineInv at hinv ⊢
  rw [a, b, c, d]
  exact hinv

theorem feed_record (A : Nat) (D : List Nat) (hbound : A + D.length ≤ 4294967288)
    (hlo : APP_FLASH_START ≤ A) (hhi : A + D.length ≤ APP_FLASH_END + 1)
    (fuel : Nat) (s : BootState) (m : Nat) (r : SentRecord)
    (hq : QueuesIdle s) (hpos : s.line_pos = 0) (hinv : EngineInv A D m s)
    (hk : r.kind = 1 ∨ r.kind = 2 ∨ r.kind = 3)
    (hl : is_record_line r.text r.kind (A + m) r.payload)
    (hshort : r.text.length ≤ 255)
    (habc : only_abc (r.payload.length + 1) (A + m) r.payload.length = true)
    (hD : ∀ i, i < r.payload.length → D.getD (m + i) 255 = r.payload.getD i 0)
    (hm : m + r.payload.length ≤ D.length)
    (hfuel : r.payload.length + 1 ≤ fuel) :
    ∃ s', feed (fuel + 1) (r.text ++ [10]) s = some s' ∧ QueuesIdle s' ∧ s'.line_pos = 0 ∧
      EngineInv A D (m + r.payload.length) s' := by
  have hk6 : r.kind = 1 ∨ r.kind = 2 ∨ r.kind = 3 ∨ r.kind = 7 ∨ r.kind = 8 ∨ r.kind = 9 := by
    omega
  obtain ⟨t, ht, hqt, het, hpt, hst⟩ := feed_line fuel s r.text hq hpos
    (by rw [hl.1]; omega) hshort hl.2.1 (record_line_chars hl (by omega))
  obtain ⟨p1, p2, p3, p4, p5, p6⟩ :=
    parse_record_line t.srec_line t.record r.text r.kind (A + m) r.payload hk6 hl hst
  obtain ⟨t', q1, q2, q3, q4, q5⟩ := process_line_data_record A D hbound hlo hhi fuel t m
    r.payload p1 (by rw [p2]; omega) p3 p4 p5 p6 hD hm
    (only_abc_mono _ _ _ _ hfuel habc) (EngineInv_of_same het hinv)
  obtain ⟨g, rfl⟩ : ∃ g, fuel = g + 1 := ⟨fuel - 1, by omega⟩
  obtain ⟨a1, a2, a3, a4⟩ := hqt
  refine ⟨t', ?_, ?_, by rw [q5, hpt], q2⟩
  · rw [ht, q1, Option.some_bind, drain_queue_empty _ _ (by rw [q4]; exact a3)]
  · exact ⟨by rw [q3]; exact a1, by rw [q3]; exact a2, by rw [q4]; exact a3,
      by rw [q4]; exact a4⟩

theorem record_payload_short {l : List Nat} {kind addr : Nat} {data : List Nat}
    (hl : is_record_line l kind addr data) (hshort : l.length ≤ 255) :
    data.length + 1 ≤ 125 := by
  have := hl.1
  omega

theorem feed_records (A : Nat) (D : List Nat) (hbound : A + D.length ≤ 4294967288)
    (hlo : APP_FLASH_START ≤ A) (hhi : A + D.length ≤ APP_FLASH_END + 1)
    (fuel : Nat) (hfuel : 125 ≤ fuel) :
    ∀ (recs : List SentRecord) (pre : List Nat) (s : BootState),
      D = pre ++ all_payload recs → split_records (A + pre.length) recs →
      (∀ r ∈ recs, r.text.length ≤ 255) →
      QueuesIdle s → s.line_pos = 0 → EngineInv A D pre.length s →
      ∃ s', feed (fuel + 1) (all_text recs) s = some s' ∧ QueuesIdle s' ∧ s'.line_pos = 0 ∧
        EngineInv A D D.length s' := by
  intro recs
  induction recs with
  | nil =>
    intro pre s hD _ _ hq hpos hinv
    refine ⟨s, rfl, hq, hpos, ?_⟩
    simp only [all_payload, List.append_nil] at hD
    subst hD; exact hinv
  | cons r rest ih =>
    intro pre s hD hsplit hshort hq hpos hinv
    obtain ⟨hk, hl, habc, hrest⟩ := hsplit
    have hsh := hshort r (List.mem_cons_self r rest)
    have hDlen : D.length = pre.length + (r.payload.length + (all_payload rest).length) := by
      rw [hD]; simp [all_payload]
    have hDget : ∀ i, i < r.payload.length →
        D.getD (pre.length + i) 255 = r.payload.getD i 0 := by
      intro i hi
      rw [hD]
      simp only [all_payload]
      rw [List.getD_append_right _ _ _ _ (by omega), Nat.add_sub_cancel_left,
        List.getD_append _ _ _ _ hi, List.getD_eq_getElem _ _ hi, List.getD_eq_getElem _ _ hi]
    obtain ⟨s1, f1, q1, p1, i1⟩ := feed_record A D hbound hlo hhi fuel s pre.length r hq hpos
      hinv hk hl hsh habc hDget (by omega)
      (le_trans (record_payload_short hl hsh) hfuel)
    obtain ⟨s2, f2, q2, p2, i2⟩ := ih (pre ++ r.payload) s1
      (by rw [hD]; simp [all_payload])
      (by rw [List.length_append, ← Nat.add_assoc]; exact hrest)
      (fun x hx => hshort x (List.mem_cons_of_mem r hx)) q1 p1
      (by rw [List.length_append]; exact i1)
    refine ⟨s2, ?_, q2, p2, i2⟩
    simp only [all_text]
    rw [feed_append, f1, Option.some_bind, f2]

theorem EngineInv_init (A : Nat) (D : List Nat) (s : BootState)
    (hpend : s.pending_valid = 0) (herased : s.programs = []) : EngineInv A D 0 s := by
  refine ⟨fun op hop => ?_, ?_⟩
  · rw [herased] at hop; cases hop
  left
  refine ⟨hpend, fun h => absurd h (Nat.lt_irrefl 0), ?_⟩
  rw [herased]
  funext a
  have : ¬ (A ≤ a ∧ a < A + 0) := by omega
  simp only [flash_image, expected_image, List.foldl_nil]
  rw [if_neg this]

theorem feed_cons (fuel : Nat) (b : Nat) (rest : List Nat) (s : BootState) :
    feed fuel (b :: rest) s = (feed_byte fuel s b).bind (feed fuel rest) := rfl

theorem feed_byte_overflow_eq (fuel : Nat) (s : BootState) (c : Nat)
    (hq : QueuesIdle s) (hc : c ≠ 10) (hpos : ¬ s.line_pos < 255) :
    feed_byte (fuel + 1) s c = some { s with uart := uart_after s.uart c, line_pos := 0 } := by
  obtain ⟨h1, h2, h3, h4⟩ := hq
  unfold feed_byte Bootloader_Mode assemble_line
  simp only [UART_BufferPush, UART_BufferPop, UART_QUEUE_SIZE, h1, h2, MAX_LINE_LENGTH]
  simp only [ge_iff_le, Nat.reduceLeDiff, if_false, Nat.zero_add, Nat.reduceMod,
    one_ne_zero, Function.update_same, hc, Nat.reduceSub, hpos]
  rw [drain_queue_empty _ _ (by exact h3)]
  simp [uart_after, h2]

theorem feed_byte_discard_eq (fuel : Nat) (s : BootState)
    (hq : QueuesIdle s) (hpos : 0 < s.line_pos) (hS : s.line_buf 0 ≠ 83) :
    feed_byte (fuel + 1) s 10 = some
      { s with uart := uart_after s.uart 10,
               line_buf := Function.update s.line_buf s.line_pos 0,
               line_pos := 0 } := by
  obtain ⟨h1, h2, h3, h4⟩ := hq
  have hne : s.line_pos ≠ 0 := by omega
  have hS' : ¬ Function.update s.line_buf s.line_pos 0 0 = 83 := by
    rw [Function.update_noteq (Ne.symm hne)]; exact hS
  unfold feed_byte Bootloader_Mode assemble_line
  simp only [UART_BufferPush, UART_BufferPop, UART_QUEUE_SIZE, h1, h2, MAX_LINE_LENGTH]
  simp only [ge_iff_le, Nat.reduceLeDiff, if_false, Nat.zero_add, Nat.reduceMod,
    one_ne_zero, Function.update_same, if_true, hpos, gt_iff_lt, hS']
  rw [drain_queue_empty _ _ (by exact h3)]
  simp [uart_after, h2]

theorem feed_overlong_line (fuel : Nat) (s : BootState) (l1 l2 : List Nat) (c : Nat)
    (hq : QueuesIdle s) (hpos : s.line_pos = 0)
    (h1 : l1.length = 255) (hn1 : ∀ x ∈ l1, x ≠ 10) (hc : c ≠ 10)
    (hn2 : ∀ x ∈ l2, x ≠ 10) (h2 : 0 < l2.length) (h2' : l2.length ≤ 255)
    (hS : l2.getD 0 0 ≠ 83) :
    ∃ t, feed (fuel + 1) (l1 ++ (c :: l2 ++ [10])) s = some t ∧ QueuesIdle t ∧ SameEngine s t ∧
      t.line_pos = 0 := by
  obtain ⟨u1, f1, q1, e1, p1, -, -⟩ := feed_chars fuel l1 s hq hn1 (by omega)
  have hov : ¬ u1.line_pos < 255 := by omega
  have f2 := feed_byte_overflow_eq fuel u1 c q1 hc hov
  have q2 : QueuesIdle { u1 with uart := uart_after u1.uart c, line_pos := 0 } := by
    obtain ⟨a1, a2, a3, a4⟩ := q1
    simp [QueuesIdle, uart_after, a2, a3, a4]
  obtain ⟨u3, f3, q3, e3, p3, b3, -⟩ := feed_chars fuel l2
    { u1 with uart := uart_after u1.uart c, line_pos := 0 } q2 hn2 (by simp; omega)
  have p3' : u3.line_pos = l2.length := by simpa using p3
  have hb : u3.line_buf 0 ≠ 83 := by
    have := b3 0 h2
    simp only [Nat.add_zero] at this
    rw [this]; exact hS
  have f4 := feed_byte_discard_eq fuel u3 q3 (by omega) hb
  refine ⟨{ u3 with uart := uart_after u3.uart 10,
                    line_buf := Function.update u3.line_buf u3.line_pos 0,
                    line_pos := 0 }, ?_, ?_, ?_, rfl⟩
  · rw [feed_append, f1, Option.some_bind]
    rw [List.cons_append, feed_cons, f2, Option.some_bind, feed_append, f3, Option.some_bind,
      feed_cons, f4]
    rfl
  · obtain ⟨a1, a2, a3, a4⟩ := q3
    simp [QueuesIdle, uart_after, a2, a3, a4]
  · refine e1.trans (SameEngine.trans ?_ (e3.trans ?_))
    · simp [SameEngine]
    · simp [SameEngine]

theorem uart_init_wf (q : UartBuffer) :
    UartWF (UART_BufferInit q) ∧ uart_contents (UART_BufferInit q) = [] := by
  simp [UartWF, UART_BufferInit, uart_contents]

theorem uart_push_full (q : UartBuffer) (b : Nat) (h : 200 ≤ q.count) :
    UART_BufferPush q b = (false, q) := by
  simp [UART_BufferPush, UART_QUEUE_SIZE, h]

theorem uart_push_spec (q : UartBuffer) (b : Nat) (hwf : UartWF q) (h : q.count < 200) :
    (UART_BufferPush q b).1 = true ∧ UartWF (UART_BufferPush q b).2 ∧
      uart_contents (UART_BufferPush q b).2 = uart_contents q ++ [b] ∧
      (UART_BufferPush q b).2.count = q.count + 1 := by
  obtain ⟨h1, h2, h3⟩ := hwf
  have hn : ¬ q.count ≥ 200 := by omega
  have hm : (q.count + 1) % 65536 = q.count + 1 := by omega
  simp only [UART_BufferPush, UART_QUEUE_SIZE, hn, if_false, hm]
  refine ⟨trivial, ?_, ?_, trivial⟩
  · refine ⟨?_, ?_, ?_⟩ <;> dsimp only <;> omega
  simp only [uart_contents, List.range_succ, List.map_append, List.map_cons, List.map_nil]
  congr 1
  · apply List.map_congr_left
    intro i hi
    have hi' := List.mem_range.mp hi
    rw [Function.update_noteq]
    rw [h3]; omega
  · rw [h3, Function.update_same]

theorem uart_pop_empty (q : UartBuffer) (h : q.count = 0) :
    UART_BufferPop q = (false, none, q) := by
  simp [UART_BufferPop, h]

theorem uart_pop_spec (q : UartBuffer) (hwf : UartWF q) (h : 0 < q.count) :
    (UART_BufferPop q).1 = true ∧ UartWF (UART_BufferPop q).2.2 ∧
      uart_contents q
        = (UART_BufferPop q).2.1.toList ++ uart_contents (UART_BufferPop q).2.2 ∧
      (UART_BufferPop q).2.1.isSome = true ∧
      (UART_BufferPop q).2.2.count = q.count - 1 := by
  obtain ⟨h1, h2, h3⟩ := hwf
  have hn : ¬ q.count = 0 := by omega
  simp only [UART_BufferPop, hn, if_false, UART_QUEUE_SIZE]
  refine ⟨trivial, ?_, ?_, rfl, trivial⟩
  · refine ⟨?_, ?_, ?_⟩ <;> dsimp only <;> omega
  obtain ⟨n, hn'⟩ : ∃ n, q.count = n + 1 := ⟨q.count - 1, by omega⟩
  simp only [uart_contents, hn', List.range_succ_eq_map, List.map_cons, List.map_map,
    Option.toList_some, List.singleton_append, Nat.add_zero, Nat.add_one_sub_one]
  congr 1
  · rw [Nat.mod_eq_of_lt h2]
  · apply List.map_congr_left
    intro i _
    simp only [Function.comp]
    congr 1
    omega

theorem uart_step_inv (t : UartRun) (op : UartOp) (h : UartRunInv t) :
    UartRunInv (uart_step t op) := by
  obtain ⟨hwf, hc⟩ := h
  cases op with
  | push b =>
    by_cases hfull : t.q.count < 200
    · obtain ⟨p1, p2, p3, -⟩ := uart_push_spec t.q b hwf hfull
      refine ⟨p2, ?_⟩
      show t.popped ++ uart_contents (UART_BufferPush t.q b).2
        = if (UART_BufferPush t.q b).1 = true then t.accepted ++ [b] else t.accepted
      rw [p3, if_pos p1, ← List.append_assoc, hc]
    · have e := uart_push_full t.q b (by omega)
      refine ⟨by show UartWF (UART_BufferPush t.q b).2; rw [e]; exact hwf, ?_⟩
      show t.popped ++ uart_contents (UART_BufferPush t.q b).2
        = if (UART_BufferPush t.q b).1 = true then t.accepted ++ [b] else t.accepted
      rw [e]; simpa using hc
  | pop =>
    by_cases hne : 0 < t.q.count
    · obtain ⟨-, p2, p3, p4, -⟩ := uart_pop_spec t.q hwf hne
      refine ⟨p2, ?_⟩
      show (match (UART_BufferPop t.q).2.1 with
          | some c => t.popped ++ [c]
          | none => t.popped) ++ uart_contents (UART_BufferPop t.q).2.2 = t.accepted
      rw [← hc, p3]
      cases hx : (UART_BufferPop t.q).2.1 with
      | none => rw [hx] at p4; simp at p4
      | some c => simp
    · have e := uart_pop_empty t.q (by omega)
      refine ⟨by show UartWF (UART_BufferPop t.q).2.2; rw [e]; exact hwf, ?_⟩
      show (match (UART_BufferPop t.q).2.1 with
          | some c => t.popped ++ [c]
          | none => t.popped) ++ uart_contents (UART_BufferPop t.q).2.2 = t.accepted
      rw [e]; exact hc

theorem uart_foldl_inv (ops : List UartOp) :
    ∀ t : UartRun, UartRunInv t → UartRunInv (ops.foldl uart_step t) := by
  induction ops with
  | nil => intro t h; exact h
  | cons op ops ih => intro t h; exact ih _ (uart_step_inv t op h)

theorem uart_run_inv (ops : List UartOp) (q : UartBuffer) : UartRunInv (uart_run ops q) := by
  apply uart_foldl_inv
  exact ⟨(uart_init_wf q).1, by simp [(uart_init_wf q).2]⟩

theorem uart_push_all (bs : List Nat) :
    ∀ t : UartRun, UartRunInv t → t.q.count + bs.length ≤ 200 →
      ((bs.map UartOp.push).foldl uart_step t).accepted = t.accepted ++ bs ∧
        ((bs.map UartOp.push).foldl uart_step t).popped = t.popped ∧
        ((bs.map UartOp.push).foldl uart_step t).q.count = t.q.count + bs.length := by
  induction bs with
  | nil => intro t _ _; simp
  | cons b bs ih =>
    intro t h hlen
    simp only [List.length_cons] at hlen
    obtain ⟨p1, -, -, p4⟩ := uart_push_spec t.q b h.1 (by omega)
    obtain ⟨a1, a2, a3⟩ := ih (uart_step t (UartOp.push b)) (uart_step_inv t _ h)
      (by show (UART_BufferPush t.q b).2.count + bs.length ≤ 200; rw [p4]; omega)
    simp only [List.map_cons, List.foldl_cons, List.length_cons]
    refine ⟨?_, ?_, ?_⟩
    · rw [a1]
      show (if (UART_BufferPush t.q b).1 = true then t.accepted ++ [b] else t.accepted) ++ bs = _
      rw [if_pos p1]; simp
    · rw [a2]; rfl
    · rw [a3]
      show (UART_BufferPush t.q b).2.count + bs.length = _
      rw [p4]; omega

theorem uart_pop_all (k : Nat) :
    ∀ t : UartRun, UartRunInv t → k ≤ t.q.count →
      ((List.replicate k UartOp.pop).foldl uart_step t).accepted = t.accepted ∧
        ((List.replicate k UartOp.pop).foldl uart_step t).q.count = t.q.count - k := by
  induction k with
  | zero => intro t _ _; simp
  | succ k ih =>
    intro t h hk
    obtain ⟨-, -, -, -, p5⟩ := uart_pop_spec t.q h.1 (by omega)
    obtain ⟨a1, a2⟩ := ih (uart_step t UartOp.pop) (uart_step_inv t _ h)
      (by show k ≤ (UART_BufferPop t.q).2.2.count; rw [p5]; omega)
    simp only [List.replicate_succ, List.foldl_cons]
    refine ⟨by rw [a1]; rfl, ?_⟩
    rw [a2]
    show (UART_BufferPop t.q).2.2.count - k = _
    rw [p5]; omega

theorem str_len_bounds (src : Nat → Nat) :
    ∀ fuel i, i ≤ 255 → 255 ≤ i + fuel →
      i ≤ str_len src fuel i ∧ str_len src fuel i ≤ 255 ∧
        (∀ j, i ≤ j → j < str_len src fuel i → src j ≠ 0) ∧
        (str_len src fuel i < 255 → src (str_len src fuel i) = 0) := by
  intro fuel
  induction fuel with
  | zero =>
    intro i h1 h2
    have : i = 255 := by omega
    subst this
    simp only [str_len]
    exact ⟨le_refl _, le_refl _, fun j a b => by omega, fun h => by omega⟩
  | succ fuel ih =>
    intro i h1 h2
    rw [str_len]
    by_cases hc : src i ≠ 0 ∧ i < SREC_LINE_MAX_LEN - 1
    · rw [if_pos hc]
      have hi : i < 255 := hc.2
      obtain ⟨a1, a2, a3, a4⟩ := ih (i + 1) (by omega) (by omega)
      refine ⟨by omega, a2, ?_, a4⟩
      intro j hj1 hj2
      by_cases hji : j = i
      · rw [hji]; exact hc.1
      · exact a3 j (by omega) hj2
    · rw [if_neg hc]
      refine ⟨le_refl _, h1, fun j a b => by omega, ?_⟩
      intro hlt
      by_contra hne
      exact hc ⟨hne, hlt⟩

theorem str_len_unique (f : Nat → Nat) (m : Nat) (hm : m ≤ 255)
    (hnz : ∀ j, j < m → f j ≠ 0) (hend : m < 255 → f m = 0) :
    ∀ fuel i, i ≤ m → m ≤ i + fuel → str_len f fuel i = m := by
  intro fuel
  induction fuel with
  | zero => intro i h1 h2; simp only [str_len]; omega
  | succ fuel ih =>
    intro i h1 h2
    rw [str_len]
    by_cases him : i = m
    · subst him
      have hc : ¬ (f i ≠ 0 ∧ i < SREC_LINE_MAX_LEN - 1) := by
        rintro ⟨a, b⟩
        exact a (hend b)
      rw [if_neg hc]
    · have hc : f i ≠ 0 ∧ i < SREC_LINE_MAX_LEN - 1 :=
        ⟨hnz i (by omega), by show i < 255; omega⟩
      rw [if_pos hc]
      exact ih (i + 1) (by omega) (by omega)

theorem copy_line_eq (src dst : Nat → Nat) :
    copy_line src 255 0 dst
      = fun j => if j < str_len src 255 0 then src j
          else if j = str_len src 255 0 then 0 else dst j := by
  obtain ⟨-, a2, a3, a4⟩ := str_len_bounds src 255 0 (by omega) (by omega)
  rw [copy_line_spec src (str_len src 255 0) a2 (fun j hj => a3 j (Nat.zero_le j) hj) a4
    255 0 dst (Nat.zero_le _) (by omega)]
  funext j
  simp only [Nat.zero_le, true_and]

theorem c_string_copy_line (src dst : Nat → Nat) :
    c_string (copy_line src 255 0 dst) = c_string src := by
  obtain ⟨-, a2, a3, a4⟩ := str_len_bounds src 255 0 (by omega) (by omega)
  have hlen : str_len (copy_line src 255 0 dst) 255 0 = str_len src 255 0 := by
    apply str_len_unique _ _ a2 _ _ 255 0 (Nat.zero_le _) (by omega)
    · intro j hj
      rw [copy_line_eq]
      simp only [hj, if_true]
      exact a3 j (Nat.zero_le j) hj
    · intro _
      rw [copy_line_eq]
      simp
  unfold c_string
  rw [hlen]
  apply List.map_congr_left
  intro j hj
  rw [copy_line_eq]
  simp only [List.mem_range.mp hj, if_true]

theorem c_string_of_text (line : Nat → Nat) (l : List Nat) (h : IsCString line l) :
    c_string line = l := by
  obtain ⟨h1, h2, h3⟩ := h
  have hlen : str_len line 255 0 = l.length :=
    str_len_unique line l.length h1 (fun j hj => by rw [(h2 j hj).1]; exact (h2 j hj).2)
      (fun _ => h3) 255 0 (Nat.zero_le _) (by omega)
  unfold c_string
  rw [hlen]
  rw [List.map_congr_left (fun i hi => (h2 i (List.mem_range.mp hi)).1)]
  exact range_map_getD l

theorem srec_init_wf (q : SrecQueue) :
    SrecWF (SREC_QueueInit q) ∧ srec_contents (SREC_QueueInit q) = [] := by
  simp [SrecWF, SREC_QueueInit, srec_contents]

theorem srec_push_full (q : SrecQueue) (line : Nat → Nat) (h : 4 ≤ q.count) :
    SREC_QueuePush q line = (false, q) := by
  have hn : ¬ q.count < 4 := by omega
  simp [SREC_QueuePush, SREC_MAX_LINES, hn]

theorem srec_push_spec (q : SrecQueue) (line : Nat → Nat) (hwf : SrecWF q)
    (h : q.count < 4) :
    (SREC_QueuePush q line).1 = true ∧ SrecWF (SREC_QueuePush q line).2 ∧
      srec_contents (SREC_QueuePush q line).2 = srec_contents q ++ [c_string line] ∧
      (SREC_QueuePush q line).2.count = q.count + 1 := by
  obtain ⟨h1, h2, h3⟩ := hwf
  have hm : (q.count + 1) % 256 = q.count + 1 := by omega
  simp only [SREC_QueuePush, SREC_MAX_LINES, h, if_true, hm]
  refine ⟨trivial, ?_, ?_, trivial⟩
  · refine ⟨?_, ?_, ?_⟩ <;> dsimp only <;> omega
  simp only [srec_contents, List.range_succ, List.map_append, List.map_cons, List.map_nil]
  congr 1
  · apply List.map_congr_left
    intro i hi
    have hi' := List.mem_range.mp hi
    rw [Function.update_noteq]
    rw [h3]; omega
  · rw [h3, Function.update_same, c_string_copy_line]

theorem srec_pop_empty (q : SrecQueue) (out : Nat → Nat) (h : q.count = 0) :
    SREC_QueuePop q out = (false, q, out) := by
  simp [SREC_QueuePop, h]

theorem srec_pop_spec (q : SrecQueue) (out : Nat → Nat) (htail : q.tail < 4)
    (h : 0 < q.count) :
    (SREC_QueuePop q out).1 = true ∧
      (SREC_QueuePop q out).2.1.tail < 4 ∧
      (SREC_QueuePop q out).2.1.head = q.head ∧
      (SREC_QueuePop q out).2.1.count = q.count - 1 ∧
      c_string (SREC_QueuePop q out).2.2 = c_string (q.srec_buf q.tail) ∧
      srec_contents q
        = c_string (q.srec_buf q.tail) :: srec_contents (SREC_QueuePop q out).2.1 := by
  simp only [SREC_QueuePop, h, gt_iff_lt, if_true, SREC_MAX_LINES, c_string_copy_line]
  refine ⟨trivial, Nat.mod_lt _ (by decide), trivial, trivial, trivial, ?_⟩
  obtain ⟨n, hn'⟩ : ∃ n, q.count = n + 1 := ⟨q.count - 1, by omega⟩
  simp only [srec_contents, hn', List.range_succ_eq_map, List.map_cons, List.map_map,
    Nat.add_zero, Nat.add_one_sub_one]
  congr 1
  · rw [Nat.mod_eq_of_lt htail]
  · apply List.map_congr_left
    intro i _
    simp only [Function.comp]
    rw [show ((q.tail + 1) % 4 + i) % 4 = (q.tail + (i + 1)) % 4 by omega]

theorem srec_step_inv (t : SrecRun) (op : SrecOp) (h : SrecRunInv t) :
    SrecRunInv (srec_step t op) := by
  obtain ⟨hwf, hc⟩ := h
  cases op with
  | push line =>
    by_cases hfull : t.q.count < 4
    · obtain ⟨p1, p2, p3, -⟩ := srec_push_spec t.q line hwf hfull
      refine ⟨p2, ?_⟩
      show t.popped ++ srec_contents (SREC_QueuePush t.q line).2
        = if (SREC_QueuePush t.q line).1 = true then t.accepted ++ [c_string line]
          else t.accepted
      rw [p3, if_pos p1, ← List.append_assoc, hc]
    · have e := srec_push_full t.q line (by omega)
      refine ⟨by show SrecWF (SREC_QueuePush t.q line).2; rw [e]; exact hwf, ?_⟩
      show t.popped ++ srec_contents (SREC_QueuePush t.q line).2
        = if (SREC_QueuePush t.q line).1 = true then t.accepted ++ [c_string line]
          else t.accepted
      rw [e]; simpa using hc
  | pop =>
    by_cases hne : 0 < t.q.count
    · obtain ⟨p1, p2, p3, p4, p5, p6⟩ := srec_pop_spec t.q t.out_line hwf.2.1 hne
      obtain ⟨w1, w2, w3⟩ := hwf
      have ptail : (SREC_QueuePop t.q t.out_line).2.1.tail = (t.q.tail + 1) % 4 := by
        simp [SREC_QueuePop, hne, SREC_MAX_LINES]
      refine ⟨?_, ?_⟩
      · show SrecWF (SREC_QueuePop t.q t.out_line).2.1
        refine ⟨by rw [p4]; omega, p2, ?_⟩
        rw [p3, p4, w3, ptail]; omega
      · show (if (SREC_QueuePop t.q t.out_line).1 = true
            then t.popped ++ [c_string (SREC_QueuePop t.q t.out_line).2.2]
            else t.popped) ++ srec_contents (SREC_QueuePop t.q t.out_line).2.1 = t.accepted
        rw [if_pos p1, p5, ← hc, p6]
        simp
    · have e := srec_pop_empty t.q t.out_line (by omega)
      refine ⟨by show SrecWF (SREC_QueuePop t.q t.out_line).2.1; rw [e]; exact hwf, ?_⟩
      show (if (SREC_QueuePop t.q t.out_line).1 = true
          then t.popped ++ [c_string (SREC_QueuePop t.q t.out_line).2.2]
          else t.popped) ++ srec_contents (SREC_QueuePop t.q t.out_line).2.1 = t.accepted
      rw [e]; simpa using hc

theorem srec_foldl_inv (ops : List SrecOp) :
    ∀ t : SrecRun, SrecRunInv t → SrecRunInv (ops.foldl srec_step t) := by
  induction ops with
  | nil => intro t h; exact h
  | cons op ops ih => intro t h; exact ih _ (srec_step_inv t op h)

theorem srec_run_inv (ops : List SrecOp) (q : SrecQueue) (out : Nat → Nat) :
    SrecRunInv (srec_run ops q out) := by
  apply srec_foldl_inv
  exact ⟨(srec_init_wf q).1, by simp [(srec_init_wf q).2]⟩

theorem srec_pop_all (k : Nat) :
    ∀ t : SrecRun, t.q.tail < 4 → k ≤ t.q.count →
      ((List.replicate k SrecOp.pop).foldl srec_step t).popped
        = t.popped ++ (srec_contents t.q).take k := by
  induction k with
  | zero => intro t _ _; simp
  | succ k ih =>
    intro t ht hk
    obtain ⟨p1, p2, -, p4, p5, p6⟩ := srec_pop_spec t.q t.out_line ht (by omega)
    have hstep := ih (srec_step t SrecOp.pop) p2
      (by show k ≤ (SREC_QueuePop t.q t.out_line).2.1.count; rw [p4]; omega)
    simp only [List.replicate_succ, List.foldl_cons]
    rw [hstep, p6]
    show (if (SREC_QueuePop t.q t.out_line).1 = true
        then t.popped ++ [c_string (SREC_QueuePop t.q t.out_line).2.2]
        else t.popped) ++ (srec_contents (SREC_QueuePop t.q t.out_line).2.1).take k = _
    rw [if_pos p1, p5]
    simp

theorem srec_accepted_from_ops (ops : List SrecOp) :
    ∀ t : SrecRun, ∀ a ∈ (ops.foldl srec_step t).accepted,
      a ∈ t.accepted ∨ ∃ line, SrecOp.push line ∈ ops ∧ a = c_string line := by
  induction ops with
  | nil => intro t a ha; exact Or.inl ha
  | cons op ops ih =>
    intro t a ha
    rcases ih (srec_step t op) a ha with h | ⟨line, hl, e⟩
    · cases op with
      | push line =>
        have h' : a ∈ (if (SREC_QueuePush t.q line).1 = true
            then t.accepted ++ [c_string line] else t.accepted) := h
        split_ifs at h'
        · rcases List.mem_append.mp h' with h'' | h''
          · exact Or.inl h''
          · exact Or.inr ⟨line, List.mem_cons_self _ _, List.mem_singleton.mp h''⟩
        · exact Or.inl h'
      | pop => exact Or.inl h
    · exact Or.inr ⟨line, List.mem_cons_of_mem _ hl, e⟩

theorem assembler_push_sound (s : BootState) :
    (assembler_push s = none → (assemble_line s).queue = s.queue) ∧
      (∀ l, assembler_push s = some l →
        ∃ line, (assemble_line s).queue = (SREC_QueuePush s.queue line).2 ∧
          c_string line = l) := by
  unfold assembler_push assemble_line
  cases h : (UART_BufferPop s.uart).2.1 with
  | none => simp only [h]; simp
  | some c =>
    simp only [h]
    by_cases hc : c = 10
    · by_cases hp : s.line_pos > 0
      · by_cases hS : Function.update s.line_buf s.line_pos 0 0 = 83
        · simp only [hc, hp, hS, if_true]
          refine ⟨fun h => by simp at h, fun l hl => ?_⟩
          exact ⟨Function.update s.line_buf s.line_pos 0, rfl, by simpa using hl⟩
        · simp [hc, hp, hS]
      · simp [hc, hp]
    · by_cases hl : s.line_pos < MAX_LINE_LENGTH - 1 <;> simp [hc, hl]

theorem assembler_run_cons (b : Nat) (rest : List Nat) (s : BootState) :
    assembler_run (b :: rest) s
      = ((assembler_run rest (assemble_line { s with uart := (UART_BufferPush s.uart b).2 })).1,
         (assembler_push { s with uart := (UART_BufferPush s.uart b).2 }).toList
           ++ (assembler_run rest
                (assemble_line { s with uart := (UART_BufferPush s.uart b).2 })).2) := rfl

theorem assembler_run_append (xs ys : List Nat) :
    ∀ s : BootState, assembler_run (xs ++ ys) s
      = ((assembler_run ys (assembler_run xs s).1).1,
         (assembler_run xs s).2 ++ (assembler_run ys (assembler_run xs s).1).2) := by
  induction xs with
  | nil => intro s; rfl
  | cons x xs ih =>
    intro s
    rw [List.cons_append, assembler_run_cons, assembler_run_cons, ih, List.append_assoc]

theorem assemble_char (s : BootState) (c : Nat) (hq : UartIdle s) (hc : c ≠ 10)
    (hpos : s.line_pos < 255) :
    assemble_line { s with uart := (UART_BufferPush s.uart c).2 }
        = { s with uart := uart_after s.uart c,
                   line_buf := Function.update s.line_buf s.line_pos c,
                   line_pos := s.line_pos + 1 } ∧
      assembler_push { s with uart := (UART_BufferPush s.uart c).2 } = none := by
  obtain ⟨h1, h2⟩ := hq
  have hm : (s.line_pos + 1) % 65536 = s.line_pos + 1 := by omega
  constructor
  · unfold assemble_line
    simp only [UART_BufferPush, UART_BufferPop, UART_QUEUE_SIZE, h1, h2, MAX_LINE_LENGTH]
    simp only [ge_iff_le, Nat.reduceLeDiff, if_false, Nat.zero_add, Nat.reduceMod,
      one_ne_zero, Function.update_same, hc, Nat.reduceSub, hpos, if_true, hm]
    simp [uart_after, h2]
  · unfold assembler_push
    simp only [UART_BufferPush, UART_BufferPop, UART_QUEUE_SIZE, h1, h2]
    simp only [ge_iff_le, Nat.reduceLeDiff, if_false, Nat.zero_add, Nat.reduceMod,
      one_ne_zero, Function.update_same, hc]

theorem assemble_newline (s : BootState) (hq : UartIdle s) :
    assemble_line { s with uart := (UART_BufferPush s.uart 10).2 }
        = (if s.line_pos > 0 then
            { s with uart := uart_after s.uart 10,
                     line_buf := Function.update s.line_buf s.line_pos 0,
                     queue := if Function.update s.line_buf s.line_pos 0 0 = 83
                       then (SREC_QueuePush s.queue
                              (Function.update s.line_buf s.line_pos 0)).2
                       else s.queue,
                     line_pos := 0 }
           else { s with uart := uart_after s.uart 10 }) ∧
      assembler_push { s with uart := (UART_BufferPush s.uart 10).2 }
        = (if s.line_pos > 0 then
            if Function.update s.line_buf s.line_pos 0 0 = 83
            then some (c_string (Function.update s.line_buf s.line_pos 0)) else none
           else none) := by
  obtain ⟨h1, h2⟩ := hq
  constructor
  · unfold assemble_line
    simp only [UART_BufferPush, UART_BufferPop, UART_QUEUE_SIZE, h1, h2, MAX_LINE_LENGTH]
    simp only [ge_iff_le, Nat.reduceLeDiff, if_false, Nat.zero_add, Nat.reduceMod,
      one_ne_zero, Function.update_same, if_true]
    by_cases hp : s.line_pos > 0
    · simp [hp, uart_after, h2]
    · simp [hp, uart_after, h2]
  · unfold assembler_push
    simp only [UART_BufferPush, UART_BufferPop, UART_QUEUE_SIZE, h1, h2]
    simp only [ge_iff_le, Nat.reduceLeDiff, if_false, Nat.zero_add, Nat.reduceMod,
      one_ne_zero, Function.update_same, if_true]

theorem uart_after_idle (s : BootState) (c : Nat) (hq : UartIdle s) :
    (uart_after s.uart c).count = 0 ∧ (uart_after s.uart c).head = (uart_after s.uart c).tail := by
  obtain ⟨h1, h2⟩ := hq
  simp [uart_after, h2]

theorem assembler_chars (l : List Nat) :
    ∀ s : BootState, UartIdle s → (∀ c ∈ l, c ≠ 10) → s.line_pos + l.length ≤ 255 →
      (assembler_run l s).2 = [] ∧ UartIdle (assembler_run l s).1 ∧
        (assembler_run l s).1.line_pos = s.line_pos + l.length ∧
        (∀ i, i < l.length → (assembler_run l s).1.line_buf (s.line_pos + i) = l.getD i 0) ∧
        (∀ j, j < s.line_pos → (assembler_run l s).1.line_buf j = s.line_buf j) := by
  induction l with
  | nil =>
    intro s hq _ _
    exact ⟨rfl, hq, rfl, fun i hi => absurd hi (Nat.not_lt_zero i), fun j _ => rfl⟩
  | cons c l ih =>
    intro s hq hc hlen
    simp only [List.length_cons] at hlen
    obtain ⟨e1, e2⟩ := assemble_char s c hq (hc c (List.mem_cons_self c l)) (by omega)
    rw [assembler_run_cons, e1, e2]
    obtain ⟨a1, a2, a3, a4, a5⟩ := ih
      { s with uart := uart_after s.uart c,
               line_buf := Function.update s.line_buf s.line_pos c,
               line_pos := s.line_pos + 1 }
      (uart_after_idle s c hq) (fun x hx => hc x (List.mem_cons_of_mem c hx))
      (by show s.line_pos + 1 + l.length ≤ 255; omega)
    refine ⟨by rw [a1]; rfl, a2, ?_, ?_, ?_⟩
    · rw [a3]; simp only [List.length_cons]; omega
    · intro i hi
      cases i with
      | zero =>
        rw [Nat.add_zero, a5 _ (by show s.line_pos < s.line_pos + 1; omega)]
        simp
      | succ i =>
        simp only [List.length_cons] at hi
        have := a4 i (by omega)
        rw [show s.line_pos + (i + 1) = s.line_pos + 1 + i by omega]
        rw [this]
        simp
    · intro j hj
      rw [a5 j (by show j < s.line_pos + 1; omega)]
      exact Function.update_noteq (by omega) _ _

theorem c_string_congr (f g : Nat → Nat) (n : Nat)
    (hfg : ∀ i, i ≤ n → f i = g i) (hz : f n = 0) : c_string f = c_string g := by
  obtain ⟨-, a2, a3, a4⟩ := str_len_bounds f 255 0 (by omega) (by omega)
  have hle : str_len f 255 0 ≤ n := by
    by_contra h
    exact a3 n (Nat.zero_le n) (by omega) hz
  have hlen : str_len g 255 0 = str_len f 255 0 := by
    apply str_len_unique g _ a2 _ _ 255 0 (Nat.zero_le _) (by omega)
    · intro j hj
      rw [← hfg j (by omega)]
      exact a3 j (Nat.zero_le j) hj
    · intro h
      rw [← hfg _ hle]
      exact a4 h
  unfold c_string
  rw [hlen]
  apply List.map_congr_left
  intro i hi
  exact hfg i (by have := List.mem_range.mp hi; omega)

theorem assembler_one_line (l : List Nat) (s : BootState) (hq : UartIdle s)
    (hpos : s.line_pos = 0) (hnl : ∀ c ∈ l, c ≠ 10) (hlen : l.length ≤ 255) :
    (assembler_run (l ++ [10]) s).2
        = (if l ≠ [] ∧ l.getD 0 0 = 83 then [c_string (line_of l)] else []) ∧
      UartIdle (assembler_run (l ++ [10]) s).1 ∧
      (assembler_run (l ++ [10]) s).1.line_pos = 0 := by
  obtain ⟨a1, a2, a3, a4, -⟩ := assembler_chars l s hq hnl (by omega)
  rw [hpos, Nat.zero_add] at a3
  obtain ⟨e1, e2⟩ := assemble_newline (assembler_run l s).1 a2
  rw [assembler_run_append, a1, assembler_run_cons, e1, e2, a3]
  have hbuf : ∀ i, i < l.length → (assembler_run l s).1.line_buf i = l.getD i 0 := by
    intro i hi
    have := a4 i hi
    rwa [hpos, Nat.zero_add] at this
  by_cases hne : l = []
  · subst hne
    simp only [List.length_nil, gt_iff_lt, Nat.lt_irrefl, if_false, ne_eq, not_true_eq_false,
      false_and, assembler_run, Option.toList_none, List.append_nil, List.nil_append]
    exact ⟨trivial, uart_after_idle _ 10 a2, by simp⟩
  · have hp : l.length > 0 := List.length_pos.mpr hne
    have h0 : Function.update (assembler_run l s).1.line_buf l.length 0 0 = l.getD 0 0 := by
      rw [Function.update_noteq (by omega), hbuf 0 hp]
    have hcs : c_string (Function.update (assembler_run l s).1.line_buf l.length 0)
        = c_string (line_of l) := by
      apply c_string_congr _ _ l.length
      · intro i hi
        by_cases hil : i = l.length
        · subst hil
          simp [line_of]
        · rw [Function.update_noteq hil, hbuf i (by omega)]
          rfl
      · simp
    simp only [hp, if_true, h0, hcs, ne_eq, hne, not_false_eq_true, true_and]
    by_cases hS : l.getD 0 0 = 83
    · simp only [hS, if_true, assembler_run, Option.toList_some, List.nil_append,
        List.append_nil]
      exact ⟨trivial, uart_after_idle _ 10 a2, trivial⟩
    · simp only [hS, if_false, assembler_run, Option.toList_none, List.nil_append,
        List.append_nil]
      exact ⟨trivial, uart_after_idle _ 10 a2, trivial⟩

theorem assembler_lines (ls : List (List Nat)) :
    ∀ s : BootState, UartIdle s → s.line_pos = 0 →
      (∀ l ∈ ls, l.length ≤ 255 ∧ ∀ c ∈ l, c ≠ 10) →
      (assembler_run (join_lines ls) s).2
          = (emitted_lines ls).map (fun l => c_string (line_of l)) ∧
        UartIdle (assembler_run (join_lines ls) s).1 ∧
        (assembler_run (join_lines ls) s).1.line_pos = 0 := by
  induction ls with
  | nil => intro s hq hpos _; exact ⟨rfl, hq, hpos⟩
  | cons l ls ih =>
    intro s hq hpos hl
    obtain ⟨h1, h2⟩ := hl l (List.mem_cons_self l ls)
    obtain ⟨a1, a2, a3⟩ := assembler_one_line l s hq hpos h2 h1
    obtain ⟨b1, b2, b3⟩ := ih (assembler_run (l ++ [10]) s).1 a2 a3
      (fun x hx => hl x (List.mem_cons_of_mem l hx))
    simp only [join_lines]
    rw [assembler_run_append, a1, b1]
    refine ⟨?_, b2, b3⟩
    unfold emitted_lines
    by_cases hc : l ≠ [] ∧ l.getD 0 0 = 83
    · rw [if_pos hc, List.filter_cons_of_pos
        (p := fun l : List Nat => decide (l ≠ [] ∧ l.getD 0 0 = 83)) (decide_eq_true hc)]
      rfl
    · rw [if_neg hc, List.filter_cons_of_neg
        (p := fun l : List Nat => decide (l ≠ [] ∧ l.getD 0 0 = 83)) (by simpa using hc)]
      rfl

theorem assemble_overflow (s : BootState) (c : Nat) (hq : UartIdle s) (hc : c ≠ 10)
    (hpos : ¬ s.line_pos < 255) :
    assemble_line { s with uart := (UART_BufferPush s.uart c).2 }
        = { s with uart := uart_after s.uart c, line_pos := 0 } ∧
      assembler_push { s with uart := (UART_BufferPush s.uart c).2 } = none := by
  obtain ⟨h1, h2⟩ := hq
  constructor
  · unfold assemble_line
    simp only [UART_BufferPush, UART_BufferPop, UART_QUEUE_SIZE, h1, h2, MAX_LINE_LENGTH]
    simp only [ge_iff_le, Nat.reduceLeDiff, if_false, Nat.zero_add, Nat.reduceMod,
      one_ne_zero, Function.update_same, hc, Nat.reduceSub, hpos]
    simp [uart_after, h2]
  · unfold assembler_push
    simp only [UART_BufferPush, UART_BufferPop, UART_QUEUE_SIZE, h1, h2]
    simp only [ge_iff_le, Nat.reduceLeDiff, if_false, Nat.zero_add, Nat.reduceMod,
      one_ne_zero, Function.update_same, hc]

theorem assembler_unterminated (l : List Nat) :
    ∀ s : BootState, UartIdle s → (∀ c ∈ l, c ≠ 10) → (assembler_run l s).2 = [] := by
  induction l with
  | nil => intro s _ _; rfl
  | cons c l ih =>
    intro s hq hc
    have hc0 := hc c (List.mem_cons_self c l)
    have hrest : ∀ x ∈ l, x ≠ 10 := fun x hx => hc x (List.mem_cons_of_mem c hx)
    rw [assembler_run_cons]
    by_cases hpos : s.line_pos < 255
    · obtain ⟨e1, e2⟩ := assemble_char s c hq hc0 hpos
      rw [e1, e2, ih { s with uart := uart_after s.uart c,
                              line_buf := Function.update s.line_buf s.line_pos c,
                              line_pos := s.line_pos + 1 } (uart_after_idle s c hq) hrest]
      rfl
    · obtain ⟨e1, e2⟩ := assemble_overflow s c hq hc0 hpos
      rw [e1, e2, ih { s with uart := uart_after s.uart c, line_pos := 0 }
        (uart_after_idle s c hq) hrest]
      rfl

theorem overflow_rest_short (l : List Nat) (h : l.length ≤ 255) : overflow_rest l = l := by
  unfold overflow_rest
  rw [Nat.div_eq_of_lt (by omega)]
  rfl

theorem overflow_rest_long (l1 l2 : List Nat) (c : Nat) (h : l1.length = 255) :
    overflow_rest (l1 ++ c :: l2) = overflow_rest l2 := by
  unfold overflow_rest
  have hlen : (l1 ++ c :: l2).length = l2.length + 256 := by
    simp [h]; omega
  rw [hlen, Nat.add_div_right _ (by norm_num : 0 < 256), Nat.mul_succ]
  have hsplit : l1 ++ c :: l2 = (l1 ++ [c]) ++ l2 := by simp
  rw [hsplit, Nat.add_comm, ← List.drop_drop]
  congr 1
  have : (l1 ++ [c]).length = 256 := by simp [h]
  rw [← this, List.drop_left]

theorem overflow_rest_length (l : List Nat) : (overflow_rest l).length ≤ 255 := by
  unfold overflow_rest
  rw [List.length_drop]
  have := Nat.div_add_mod l.length 256
  have := Nat.mod_lt l.length (by norm_num : 256 > 0)
  omega

theorem overflow_rest_mem (l : List Nat) : ∀ c ∈ overflow_rest l, c ∈ l :=
  fun _ hc => List.mem_of_mem_drop hc

theorem assembler_long_line (n : Nat) :
    ∀ (l : List Nat) (s : BootState), l.length ≤ n → UartIdle s → s.line_pos = 0 →
      (∀ c ∈ l, c ≠ 10) →
      (assembler_run (l ++ [10]) s).2
          = (if overflow_rest l ≠ [] ∧ (overflow_rest l).getD 0 0 = 83
             then [c_string (line_of (overflow_rest l))] else []) ∧
        UartIdle (assembler_run (l ++ [10]) s).1 ∧
        (assembler_run (l ++ [10]) s).1.line_pos = 0 := by
  induction n using Nat.strong_induction_on with
  | _ n ih =>
    intro l s hn hq hpos hnl
    by_cases hshort : l.length ≤ 255
    · rw [overflow_rest_short l hshort]
      exact assembler_one_line l s hq hpos hnl hshort
    · have hsplit : l = l.take 255 ++ (l.getD 255 0 :: l.drop 256) := by
        have h1 : l = l.take 255 ++ l.drop 255 := (List.take_append_drop 255 l).symm
        have h2 : l.drop 255 = l.getD 255 0 :: l.drop 256 := by
          rw [List.getD_eq_getElem _ _ (by omega)]
          exact List.drop_eq_getElem_cons (by omega)
        rw [← h2]; exact h1
      have hlen1 : (l.take 255).length = 255 := by rw [List.length_take]; omega
      have hnl1 : ∀ c ∈ l.take 255, c ≠ 10 := fun c hc => hnl c (List.mem_of_mem_take hc)
      have hnl2 : ∀ c ∈ l.drop 256, c ≠ 10 := fun c hc => hnl c (List.mem_of_mem_drop hc)
      have hc : l.getD 255 0 ≠ 10 := by
        rw [List.getD_eq_getElem _ _ (by omega)]
        exact hnl _ (List.getElem_mem _)
      obtain ⟨a1, a2, a3, -, -⟩ := assembler_chars (l.take 255) s hq hnl1 (by omega)
      obtain ⟨b1, b2⟩ := assemble_overflow (assembler_run (l.take 255) s).1 (l.getD 255 0)
        a2 hc (by omega)
      have hq2 := uart_after_idle (assembler_run (l.take 255) s).1 (l.getD 255 0) a2
      obtain ⟨d1, d2, d3⟩ := ih (n - 256) (by omega) (l.drop 256)
        { (assembler_run (l.take 255) s).1 with
          uart := uart_after (assembler_run (l.take 255) s).1.uart (l.getD 255 0),
          line_pos := 0 }
        (by rw [List.length_drop]; omega) hq2 rfl hnl2
      have hrest : overflow_rest l = overflow_rest (l.drop 256) := by
        conv_lhs => rw [hsplit]
        exact overflow_rest_long _ _ _ hlen1
      have hrun : assembler_run (l ++ [10]) s
          = ((assembler_run (l.drop 256 ++ [10])
                { (assembler_run (l.take 255) s).1 with
                  uart := uart_after (assembler_run (l.take 255) s).1.uart (l.getD 255 0),
                  line_pos := 0 }).1,
             (assembler_run (l.drop 256 ++ [10])
                { (assembler_run (l.take 255) s).1 with
                  uart := uart_after (assembler_run (l.take 255) s).1.uart (l.getD 255 0),
                  line_pos := 0 }).2) := by
        conv_lhs => rw [hsplit]
        rw [List.append_assoc, assembler_run_append, List.cons_append, assembler_run_cons,
          b1, b2, a1]
        rfl
      rw [hrun, hrest]
      exact ⟨d1, d2, d3⟩

theorem erase_loop_spec (Addr Size : Nat) (hS : Size < 256) :
    ∀ fuel i, i ≤ Size → Size - i < fuel →
      erase_loop Addr Size fuel i
        = (List.range (Size - i)).map (fun k => (Addr + (i + k) * 4096) % 4294967296) := by
  intro fuel
  induction fuel with
  | zero => intro i _ h; omega
  | succ fuel ih =>
    intro i hi hf
    unfold erase_loop
    by_cases hlt : i < Size
    · rw [if_pos hlt, Nat.mod_eq_of_lt (by omega : i + 1 < 256), ih (i + 1) (by omega) (by omega)]
      have hsub : Size - i = (Size - (i + 1)) + 1 := by omega
      rw [hsub, List.range_succ_eq_map, List.map_cons, List.map_map]
      simp only [FTFC_P_FLASH_SECTOR_SIZE, Nat.add_zero]
      refine congrArg _ ?_
      apply List.map_congr_left
      intro k _
      simp only [Function.comp, Nat.succ_eq_add_one]
      rw [show i + 1 + k = i + (k + 1) by omega]
    · rw [if_neg hlt, show Size - i = 0 by omega]
      rfl

theorem erase_multi_spec (Addr Size : Nat) :
    Erase_Multi_Sector Addr Size
      = (List.range (Size % 256)).map (fun i => (Addr + i * 4096) % 4294967296) := by
  unfold Erase_Multi_Sector
  have h := Nat.mod_lt Size (by norm_num : 256 > 0)
  rw [erase_loop_spec Addr (Size % 256) h 256 0 (Nat.zero_le _) (by omega)]
  simp

theorem main_loop_one_per_pass (fuel : Nat) (bs : List Nat) :
    ∀ s : BootState, main_loop fuel (one_per_pass bs) s = feed fuel bs s := by
  induction bs with
  | nil => intro s; rfl
  | cons b bs ih =>
    intro s
    show (Bootloader_Mode fuel { s with uart := receive [b] s.uart }).bind
        (main_loop fuel (one_per_pass bs)) = (feed_byte fuel s b).bind (feed fuel bs)
    rw [funext ih]
    rfl

theorem process_line_aligned8 (fuel : Nat) (s : BootState)
    (hret : (parse_srec_line s.srec_line s.record).1 = 0)
    (hvalid : (parse_srec_line s.srec_line s.record).2.valid ≠ 0)
    (htype : (parse_srec_line s.srec_line s.record).2.type = 1
      ∨ (parse_srec_line s.srec_line s.record).2.type = 2
      ∨ (parse_srec_line s.srec_line s.record).2.type = 3)
    (halign : (parse_srec_line s.srec_line s.record).2.address % 8 = 0)
    (hlo : APP_FLASH_START ≤ (parse_srec_line s.srec_line s.record).2.address)
    (hhi : (parse_srec_line s.srec_line s.record).2.address ≤ APP_FLASH_END)
    (hlen : (parse_srec_line s.srec_line s.record).2.data_len = 8) :
    ∃ s', process_line (fuel + 2) s = some s' ∧
      s'.programs = s.programs ++ [((parse_srec_line s.srec_line s.record).2.address,
        (List.range 8).map (parse_srec_line s.srec_line s.record).2.data)] ∧
      s'.queue = s.queue := by
  have hne : ¬ ((parse_srec_line s.srec_line s.record).2.type = 7
      ∨ (parse_srec_line s.srec_line s.record).2.type = 8
      ∨ (parse_srec_line s.srec_line s.record).2.type = 9) := by omega
  unfold process_line process_data
  simp only [hret, hvalid, ne_eq, not_false_eq_true, and_self, if_true, htype, hlo, hhi,
    ge_iff_le, hlen]
  rw [write_loop_case_c _ _ _ _ _ halign (le_refl 8), write_loop_done]
  refine ⟨_, rfl, ?_, ?_⟩
  · simp [process_end, hne, Program_LongWord_8B, List.range_succ]
  · simp [process_end, hne, Program_LongWord_8B]

theorem feed_aligned8_record (fuel : Nat) (s : BootState) (l : List Nat)
    (kind addr : Nat) (data : List Nat)
    (hq : QueuesIdle s) (hpos : s.line_pos = 0)
    (hk : kind = 1 ∨ kind = 2 ∨ kind = 3)
    (hl : is_record_line l kind addr data) (hshort : l.length ≤ 255)
    (halign : addr % 8 = 0) (hlo : APP_FLASH_START ≤ addr) (hhi : addr ≤ APP_FLASH_END)
    (hlen : data.length = 8) :
    ∃ s', feed (fuel + 3) (l ++ [10]) s = some s' ∧
      s'.programs = s.programs ++ [(addr, (List.range 8).map (fun i => data.getD i 0))] := by
  obtain ⟨t, ht, hqt, het, -, hst⟩ := feed_line (fuel + 2) s l hq hpos
    (by rw [hl.1]; omega) hshort hl.2.1 (record_line_chars hl (by omega))
  obtain ⟨r1, r2, r3, r4, r5, r6⟩ :=
    parse_record_line t.srec_line t.record l kind addr data (by omega) hl hst
  obtain ⟨s', p1, p2, p3⟩ := process_line_aligned8 fuel t r1 (by rw [r6]; decide)
    (by rw [r2]; omega) (by rw [r3]; exact halign) (by rw [r3]; exact hlo)
    (by rw [r3]; exact hhi) (by rw [r4]; exact hlen)
  refine ⟨s', ?_, ?_⟩
  · rw [ht, p1, Option.some_bind]
    exact drain_queue_empty _ _ (by rw [p3]; exact hqt.2.2.1)
  · rw [p2, het.2.2.2, r3]
    congr 3
    apply List.map_congr_left
    intro i hi
    exact r5 i (by have := List.mem_range.mp hi; omega)

theorem write_loop_step (fuel addr len : Nat) (p : Nat → Nat) (s : BootState) :
    write_loop (fuel + 1) addr len p s
      = if len = 0 then some s
        else write_loop fuel (write_step addr len p s).addr (write_step addr len p s).len
          (write_step addr len p s).p (write_step addr len p s).s := by
  unfold write_step
  rw [write_loop]
  by_cases h0 : len = 0
  · rw [if_pos h0, if_pos h0]
  · rw [if_neg h0, if_neg h0]
    by_cases hA : addr &&& 7 = 0 ∧ len = 4
    · rw [if_pos hA, if_pos hA]
    · rw [if_neg hA, if_neg hA]
      by_cases hB : addr &&& 7 = 4 ∧ len ≥ FLASH_HALF_SIZE
      · rw [if_pos hB, if_pos hB]
      · rw [if_neg hB, if_neg hB]
        by_cases hC : addr &&& 7 = 0 ∧ len ≥ FLASH_ALIGN_SIZE
        · rw [if_pos hC, if_pos hC]
        · rw [if_neg hC, if_neg hC]

theorem write_step_case_b (addr len : Nat) (p : Nat → Nat) (s : BootState)
    (hoff : addr % 8 = 4) (hlen : 4 ≤ len) :
    write_step addr len p s
      = { addr := (addr + 4) % 4294967296, len := len - 4, p := advance p 4,
          s := { Program_LongWord_8B (addr - 4)
                   (memcpy4_high (if s.pending_valid ≠ 0 ∧ s.pending_base = addr - 4
                     then memcpy4 buf8_erased s.pending_low4 else buf8_erased) p) s
                 with pending_valid := 0 } } := by
  have hA : ¬ (addr &&& 7 = 0 ∧ len = 4) := by rw [and_seven]; omega
  have hB : addr &&& 7 = 4 ∧ len ≥ FLASH_HALF_SIZE := by
    rw [and_seven]; exact ⟨hoff, hlen⟩
  unfold write_step
  rw [if_neg hA, if_pos hB]
  rfl

theorem write_step_align (addr len : Nat) (p : Nat → Nat) (s : BootState)
    (h : AlignInv s) : AlignInv (write_step addr len p s).s := by
  obtain ⟨h1, h2⟩ := h
  unfold write_step
  by_cases hA : addr &&& 7 = 0 ∧ len = 4
  · rw [if_pos hA]
    rw [and_seven] at hA
    exact ⟨fun _ => hA.1, h2⟩
  · rw [if_neg hA]
    by_cases hB : addr &&& 7 = 4 ∧ len ≥ FLASH_HALF_SIZE
    · rw [if_pos hB]
      rw [and_seven] at hB
      refine ⟨fun hv => absurd rfl hv, ?_⟩
      intro op hop
      simp only [Program_LongWord_8B, List.mem_append, List.mem_singleton] at hop
      rcases hop with hop | rfl
      · exact h2 op hop
      · simp only [FLASH_HALF_SIZE]; omega
    · rw [if_neg hB]
      by_cases hC : addr &&& 7 = 0 ∧ len ≥ FLASH_ALIGN_SIZE
      · rw [if_pos hC]
        rw [and_seven] at hC
        refine ⟨h1, ?_⟩
        intro op hop
        simp only [Program_LongWord_8B, List.mem_append, List.mem_singleton] at hop
        rcases hop with hop | rfl
        · exact h2 op hop
        · exact hC.1
      · rw [if_neg hC]
        exact ⟨h1, h2⟩

theorem write_loop_align :
    ∀ (fuel addr len : Nat) (p : Nat → Nat) (s s' : BootState),
      AlignInv s → write_loop fuel addr len p s = some s' → AlignInv s' := by
  intro fuel
  induction fuel with
  | zero => intro addr len p s s' _ h; simp [write_loop] at h
  | succ fuel ih =>
    intro addr len p s s' hinv h
    rw [write_loop_step] at h
    by_cases h0 : len = 0
    · rw [if_pos h0] at h
      cases h
      exact hinv
    · rw [if_neg h0] at h
      exact ih _ _ _ _ _ (write_step_align addr len p s hinv) h

theorem process_end_align (s : BootState) (h : AlignInv s) : AlignInv (process_end s) := by
  obtain ⟨h1, h2⟩ := h
  unfold process_end
  by_cases ht : s.record.type = 7 ∨ s.record.type = 8 ∨ s.record.type = 9
  · rw [if_pos ht]
    by_cases hv : s.pending_valid ≠ 0
    · simp only [hv, if_true, not_false_eq_true, ne_eq]
      refine ⟨fun hc => absurd rfl hc, ?_⟩
      intro op hop
      simp only [Program_LongWord_8B, List.mem_append, List.mem_singleton] at hop
      rcases hop with hop | rfl
      · exact h2 op hop
      · exact h1 hv
    · simp only [hv, if_false]
      exact ⟨fun hc => absurd hc hv, h2⟩
  · rw [if_neg ht]
    exact ⟨h1, h2⟩

theorem process_line_align (fuel : Nat) (s s' : BootState) (h : AlignInv s)
    (hrun : process_line fuel s = some s') : AlignInv s' := by
  unfold process_line at hrun
  have hs1 : AlignInv { s with record := (parse_srec_line s.srec_line s.record).2 } := h
  by_cases hc : (parse_srec_line s.srec_line s.record).1 = 0
      ∧ (parse_srec_line s.srec_line s.record).2.valid ≠ 0
  · simp only [hc, ne_eq, not_false_eq_true, and_self, if_true, Option.map_eq_some'] at hrun
    obtain ⟨t, ht, rfl⟩ := hrun
    apply process_end_align
    unfold process_data at ht
    split at ht
    · split at ht
      · exact write_loop_align _ _ _ _ _ _ hs1 ht
      · cases ht; exact hs1
    · cases ht; exact hs1
  · simp only [hc, if_false, Option.some.injEq] at hrun
    rw [← hrun]
    exact hs1

theorem drain_queue_align :
    ∀ (fuel : Nat) (s s' : BootState), AlignInv s → drain_queue fuel s = some s' →
      AlignInv s' := by
  intro fuel
  induction fuel with
  | zero => intro s s' _ h; simp [drain_queue] at h
  | succ fuel ih =>
    intro s s' hinv h
    rw [drain_queue] at h
    have hinv' : AlignInv { s with queue := (SREC_QueuePop s.queue s.srec_line).2.1,
                                   srec_line := (SREC_QueuePop s.queue s.srec_line).2.2 } := hinv
    by_cases hp : (SREC_QueuePop s.queue s.srec_line).1 = true
    · simp only [hp, if_true, Option.bind_eq_some] at h
      obtain ⟨t, ht, hd⟩ := h
      exact ih t s' (process_line_align fuel _ t hinv' ht) hd
    · simp only [hp, Bool.false_eq_true, if_false, Option.some.injEq] at h
      rw [← h]
      exact hinv

theorem assemble_line_engine (s : BootState) :
    (assemble_line s).pending_valid = s.pending_valid ∧
      (assemble_line s).pending_base = s.pending_base ∧
      (assemble_line s).pending_low4 = s.pending_low4 ∧
      (assemble_line s).programs = s.programs := by
  unfold assemble_line
  cases h : (UART_BufferPop s.uart).2.1 with
  | none => simp [h]
  | some c =>
    simp only [h]
    split
    · split <;> exact ⟨rfl, rfl, rfl, rfl⟩
    · split <;> exact ⟨rfl, rfl, rfl, rfl⟩

theorem Bootloader_Mode_align (fuel : Nat) (s s' : BootState) (h : AlignInv s)
    (hrun : Bootloader_Mode fuel s = some s') : AlignInv s' := by
  obtain ⟨e1, e2, -, e4⟩ := assemble_line_engine s
  refine drain_queue_align fuel (assemble_line s) s' ?_ hrun
  unfold AlignInv
  rw [e1, e2, e4]
  exact h

theorem main_loop_align (fuel : Nat) (sched : List (List Nat)) :
    ∀ s s' : BootState, AlignInv s → main_loop fuel sched s = some s' → AlignInv s' := by
  induction sched with
  | nil => intro s s' h hrun; cases hrun; exact h
  | cons bs rest ih =>
    intro s s' h hrun
    rw [main_loop] at hrun
    simp only [Option.bind_eq_some] at hrun
    obtain ⟨t, ht, hr⟩ := hrun
    have h' : AlignInv { s with uart := receive bs s.uart } := h
    exact ih t s' (Bootloader_Mode_align fuel _ t h' ht) hr

theorem placed_check : is_data_record placed_low4 ∧ is_data_record placed_high4 ∧
    is_data_record placed_next4 ∧ is_data_record placed_far8 ∧ is_end_record placed_s9 := by
  decide

theorem write_step_programs (addr len : Nat) (p : Nat → Nat) (s : BootState) :
    s.programs <+: (write_step addr len p s).s.programs := by
  unfold write_step
  split
  · exact List.prefix_refl _
  · split
    · exact List.prefix_append _ _
    · split
      · exact List.prefix_append _ _
      · exact List.prefix_refl _

theorem write_step_record (addr len : Nat) (p : Nat → Nat) (s : BootState) :
    (write_step addr len p s).s.record = s.record := by
  unfold write_step
  split
  · rfl
  · split
    · rfl
    · split <;> rfl

theorem write_loop_programs :
    ∀ (fuel addr len : Nat) (p : Nat → Nat) (s s' : BootState),
      write_loop fuel addr len p s = some s' →
      s.programs <+: s'.programs ∧ s'.record = s.record := by
  intro fuel
  induction fuel with
  | zero => intro addr len p s s' h; simp [write_loop] at h
  | succ fuel ih =>
    intro addr len p s s' h
    rw [write_loop_step] at h
    by_cases h0 : len = 0
    · rw [if_pos h0] at h
      cases h
      exact ⟨List.prefix_refl _, rfl⟩
    · rw [if_neg h0] at h
      obtain ⟨a, b⟩ := ih _ _ _ _ _ h
      exact ⟨(write_step_programs addr len p s).trans a,
        b.trans (write_step_record addr len p s)⟩

theorem write_loop_case_c_only :
    ∀ (fuel addr len : Nat) (p : Nat → Nat) (s s' : BootState),
      addr % 8 = 0 → len % 8 = 0 → write_loop fuel addr len p s = some s' →
      s'.pending_valid = s.pending_valid ∧ s'.pending_base = s.pending_base ∧
        s'.pending_low4 = s.pending_low4 := by
  intro fuel
  induction fuel with
  | zero => intro addr len p s s' _ _ h; simp [write_loop] at h
  | succ fuel ih =>
    intro addr len p s s' ha hl h
    by_cases h0 : len = 0
    · subst h0
      rw [write_loop_done] at h
      cases h
      exact ⟨rfl, rfl, rfl⟩
    · rw [write_loop_case_c _ _ _ _ _ ha (by omega)] at h
      obtain ⟨a, b, c⟩ := ih ((addr + 8) % 4294967296) (len - 8) (advance p 8)
        (Program_LongWord_8B addr p s) s' (by omega) (by omega) h
      exact ⟨a, b, c⟩

theorem process_line_data (fuel : Nat) (s s' : BootState) (r : PlacedRecord)
    (hr : is_data_record r)
    (hrun : process_line fuel { s with srec_line := line_of r.text } = some s') :
    write_loop fuel r.addr r.payload.length (parse_srec_line (line_of r.text) s.record).2.data
        { s with srec_line := line_of r.text,
                 record := (parse_srec_line (line_of r.text) s.record).2 } = some s' ∧
      ∀ i, i < r.payload.length →
        (parse_srec_line (line_of r.text) s.record).2.data i = r.payload.getD i 0 := by
  obtain ⟨hk, hl, hlo, hhi⟩ := hr
  obtain ⟨r1, r2, r3, r4, r5, r6⟩ := parse_record_line (line_of r.text) s.record r.text
    r.kind r.addr r.payload (by omega) hl (fun i _ => rfl)
  refine ⟨?_, r5⟩
  have hty : (parse_srec_line (line_of r.text) s.record).2.type = 1
      ∨ (parse_srec_line (line_of r.text) s.record).2.type = 2
      ∨ (parse_srec_line (line_of r.text) s.record).2.type = 3 := by rw [r2]; omega
  have hne : ¬ ((parse_srec_line (line_of r.text) s.record).2.type = 7
      ∨ (parse_srec_line (line_of r.text) s.record).2.type = 8
      ∨ (parse_srec_line (line_of r.text) s.record).2.type = 9) := by omega
  have hin : r.addr ≥ APP_FLASH_START ∧ r.addr ≤ APP_FLASH_END := ⟨hlo, hhi⟩
  unfold process_line process_data at hrun
  simp only [r1, r6, r3, r4, ne_eq, one_ne_zero, not_false_eq_true, and_self, if_true, hty,
    hin, Option.map_eq_some'] at hrun
  obtain ⟨t, ht, hts⟩ := hrun
  have hrec := (write_loop_programs _ _ _ _ _ _ ht).2
  have hend : process_end t = t := by
    unfold process_end
    rw [if_neg (by rw [hrec]; exact hne)]
  rw [hend] at hts
  rw [← hts]
  exact ht

theorem write_loop_merge (fuel addr len : Nat) (p : Nat → Nat) (s s' : BootState)
    (hoff : addr % 8 = 4) (hlen : 4 ≤ len) (hv : s.pending_valid ≠ 0)
    (hb : s.pending_base = addr - 4) (hrun : write_loop fuel addr len p s = some s') :
    ∃ ext, s'.programs = s.programs ++
      (addr - 4, [s.pending_low4 0, s.pending_low4 1, s.pending_low4 2, s.pending_low4 3,
        p 0, p 1, p 2, p 3]) :: ext := by
  cases fuel with
  | zero => simp [write_loop] at hrun
  | succ fuel =>
    rw [write_loop_step, if_neg (by omega), write_step_case_b addr len p s hoff hlen] at hrun
    obtain ⟨⟨ext, he⟩, -⟩ := write_loop_programs _ _ _ _ _ _ hrun
    refine ⟨ext, ?_⟩
    rw [← he]
    simp [Program_LongWord_8B, hv, hb, memcpy4, memcpy4_high, buf8_erased]

theorem process_line_stash (fuel : Nat) (s : BootState) (r : PlacedRecord)
    (hr : is_data_record r) (ha : r.addr % 8 = 0) (hl4 : r.payload.length = 4) :
    ∃ s1, process_line (fuel + 2) { s with srec_line := line_of r.text } = some s1 ∧
      s1.programs = s.programs ∧ s1.pending_valid = 1 ∧ s1.pending_base = r.addr ∧
      ∀ i, i < 4 → s1.pending_low4 i = r.payload.getD i 0 := by
  obtain ⟨hk, hl, hlo, hhi⟩ := hr
  obtain ⟨r1, r2, r3, r4, r5, r6⟩ := parse_record_line (line_of r.text) s.record r.text
    r.kind r.addr r.payload (by omega) hl (fun i _ => rfl)
  have hty : (parse_srec_line (line_of r.text) s.record).2.type = 1
      ∨ (parse_srec_line (line_of r.text) s.record).2.type = 2
      ∨ (parse_srec_line (line_of r.text) s.record).2.type = 3 := by rw [r2]; omega
  have hne : ¬ ((parse_srec_line (line_of r.text) s.record).2.type = 7
      ∨ (parse_srec_line (line_of r.text) s.record).2.type = 8
      ∨ (parse_srec_line (line_of r.text) s.record).2.type = 9) := by omega
  have hin : r.addr ≥ APP_FLASH_START ∧ r.addr ≤ APP_FLASH_END := ⟨hlo, hhi⟩
  have h1 : process_line (fuel + 2) { s with srec_line := line_of r.text }
      = some (process_end
          { s with srec_line := line_of r.text,
                   record := (parse_srec_line (line_of r.text) s.record).2,
                   pending_low4 := memcpy4 s.pending_low4
                     (parse_srec_line (line_of r.text) s.record).2.data,
                   pending_base := r.addr,
                   pending_valid := 1 }) := by
    unfold process_line process_data
    simp only [r1, r6, r3, r4, hl4, ne_eq, one_ne_zero, not_false_eq_true, and_self, if_true,
      hty, hin]
    rw [write_loop_case_a _ _ _ _ ha, write_loop_done]
    rfl
  refine ⟨_, h1, ?_, ?_, ?_, ?_⟩
  · simp [process_end, hne]
  · simp [process_end, hne]
  · simp [process_end, hne]
  · intro i hi
    simp only [process_end, hne, if_false, memcpy4, hi, if_true]
    exact r5 i (by omega)

theorem process_line_end_exists (fuel : Nat) (s : BootState) (e : PlacedRecord)
    (he : is_end_record e) :
    ∃ s1, process_line fuel { s with srec_line := line_of e.text } = some s1 ∧
      s1.pending_valid = 0 ∧
      s1.programs = s.programs ++
        (if s.pending_valid ≠ 0 then
          [(s.pending_base, [s.pending_low4 0, s.pending_low4 1, s.pending_low4 2,
            s.pending_low4 3, 255, 255, 255, 255])]
         else []) := by
  obtain ⟨hk, hl⟩ := he
  obtain ⟨r1, r2, r3, r4, r5, r6⟩ := parse_record_line (line_of e.text) s.record e.text
    e.kind e.addr e.payload (by omega) hl (fun i _ => rfl)
  have hty : (parse_srec_line (line_of e.text) s.record).2.type = 7
      ∨ (parse_srec_line (line_of e.text) s.record).2.type = 8
      ∨ (parse_srec_line (line_of e.text) s.record).2.type = 9 := by rw [r2]; omega
  have hne : ¬ ((parse_srec_line (line_of e.text) s.record).2.type = 1
      ∨ (parse_srec_line (line_of e.text) s.record).2.type = 2
      ∨ (parse_srec_line (line_of e.text) s.record).2.type = 3) := by omega
  have h1 : process_line fuel { s with srec_line := line_of e.text }
      = some (process_end { s with srec_line := line_of e.text,
                                   record := (parse_srec_line (line_of e.text) s.record).2 }) := by
    unfold process_line process_data
    simp only [r1, r6, ne_eq, one_ne_zero, not_false_eq_true, and_self, if_true, hne, if_false]
    rfl
  refine ⟨_, h1, ?_, ?_⟩
  · by_cases hp : s.pending_valid = 0 <;> simp [process_end, hty, hp]
  · by_cases hp : s.pending_valid = 0
    · simp [process_end, hty, hp]
    · simp [process_end, hty, hp, Program_LongWord_8B, memcpy4, buf8_erased]

theorem process_end_programs (s : BootState) : s.programs <+: (process_end s).programs := by
  unfold process_end
  split
  · split
    · exact List.prefix_append _ _
    · exact List.prefix_refl _
  · exact List.prefix_refl _

theorem process_line_programs (fuel : Nat) (s s' : BootState)
    (hrun : process_line fuel s = some s') : s.programs <+: s'.programs := by
  unfold process_line at hrun
  by_cases hc : (parse_srec_line s.srec_line s.record).1 = 0
      ∧ (parse_srec_line s.srec_line s.record).2.valid ≠ 0
  · simp only [hc, ne_eq, not_false_eq_true, and_self, if_true, Option.map_eq_some'] at hrun
    obtain ⟨t, ht, rfl⟩ := hrun
    refine List.IsPrefix.trans ?_ (process_end_programs t)
    unfold process_data at ht
    split at ht
    · split at ht
      · exact (write_loop_programs _ _ _ _ _ _ ht).1
      · cases ht; exact List.prefix_refl _
    · cases ht; exact List.prefix_refl _
  · simp only [hc, if_false, Option.some.injEq] at hrun
    rw [← hrun]

theorem process_lines_programs (fuel : Nat) :
    ∀ (lines : List (Nat → Nat)) (s s' : BootState),
      process_lines fuel lines s = some s' → s.programs <+: s'.programs := by
  intro lines
  induction lines with
  | nil => intro s s' h; cases h; exact List.prefix_refl _
  | cons l rest ih =>
    intro s s' h
    rw [process_lines] at h
    simp only [Option.bind_eq_some] at h
    obtain ⟨t, ht, hr⟩ := h
    exact (process_line_programs fuel _ t ht).trans (ih t s' hr)

theorem mem_drop_of_append {α : Type} (l ext rest : List α) (x : α) (l' : List α)
    (h : l' = l ++ ext ++ rest) (hx : x ∈ ext) : x ∈ l'.drop l.length := by
  rw [h, List.append_assoc, List.drop_left]
  exact List.mem_append_left _ hx

theorem write_loop_len5_hangs :
    ∀ (fuel addr len : Nat) (p : Nat → Nat) (s : BootState),
      addr % 8 = 0 → len % 8 = 5 → write_loop fuel addr len p s = none := by
  intro fuel
  induction fuel with
  | zero => intro addr len p s _ _; rfl
  | succ fuel ih =>
    intro addr len p s ha hl
    by_cases h8 : 8 ≤ len
    · rw [write_loop_case_c _ _ _ _ _ ha h8]
      exact ih _ _ _ _ (by omega) (by omega)
    · have hA : ¬ (addr &&& 7 = 0 ∧ len = 4) := by omega
      have hB : ¬ (addr &&& 7 = 4 ∧ len ≥ FLASH_HALF_SIZE) := by rw [and_seven]; omega
      have hC : ¬ (addr &&& 7 = 0 ∧ len ≥ FLASH_ALIGN_SIZE) := by
        simp only [FLASH_ALIGN_SIZE]; omega
      exact write_loop_stuck addr len p s (by omega) hA hB hC (fuel + 1)

theorem parse_zero_count (r : srec_record_t) :
    parse_srec_line (line_of text_zero_count) r
      = (0, { type := 1, address := 0xFF00, data := r.data, data_len := 253,
              checksum := 0, valid := 1 }) := by
  rw [parse_accept (line_of text_zero_count) r 2 (by decide) (by decide)]
  have hc : hex_to_byte (advance (line_of text_zero_count) 2) = 0 := by decide
  have ha0 : hex_to_byte (advance (line_of text_zero_count) (4 + 0 * 2)) = 255 := by decide
  have ha1 : hex_to_byte (advance (line_of text_zero_count) (4 + 1 * 2)) = 0 := by decide
  have hck : hex_to_byte (advance (line_of text_zero_count) (2 + 2 * 0)) = 0 := by decide
  simp only [hc, List.range_succ, List.range_zero, List.nil_append, List.foldl_cons,
    List.foldl_nil, List.cons_append, ha0, ha1, hck, List.map_cons, List.map_nil]
  congr 1

theorem assembler_push_result_sound (s : BootState) :
    (assembler_push_result s = none → (assemble_line s).queue = s.queue) ∧
      (∀ x, assembler_push_result s = some x →
        ∃ line, (assemble_line s).queue = (SREC_QueuePush s.queue line).2 ∧
          x = (s.queue.count, (SREC_QueuePush s.queue line).1)) := by
  unfold assembler_push_result assemble_line
  cases h : (UART_BufferPop s.uart).2.1 with
  | none => simp only [h]; simp
  | some c =>
    simp only [h]
    by_cases hc : c = 10
    · by_cases hp : s.line_pos > 0
      · by_cases hS : Function.update s.line_buf s.line_pos 0 0 = 83
        · simp only [hc, hp, hS, if_true]
          refine ⟨fun h => by simp at h, fun x hx => ?_⟩
          exact ⟨Function.update s.line_buf s.line_pos 0, rfl, by simpa using hx.symm⟩
        · simp [hc, hp, hS]
      · simp [hc, hp]
    · by_cases hl : s.line_pos < MAX_LINE_LENGTH - 1 <;> simp [hc, hl]

theorem assembler_push_result_empty (s : BootState) (h : s.queue.count = 0) :
    ∀ x, assembler_push_result s = some x → x = (0, true) := by
  intro x hx
  unfold assembler_push_result at hx
  cases hpop : (UART_BufferPop s.uart).2.1 with
  | none => simp only [hpop] at hx; cases hx
  | some c =>
    simp only [hpop] at hx
    split at hx
    · split at hx
      · split at hx
        · cases hx
          simp [SREC_QueuePush, SREC_MAX_LINES, h]
        · cases hx
      · cases hx
    · cases hx

theorem drain_queue_leaves_empty :
    ∀ (fuel : Nat) (s s' : BootState), drain_queue fuel s = some s' → s'.queue.count = 0 := by
  intro fuel
  induction fuel with
  | zero => intro s s' h; simp [drain_queue] at h
  | succ fuel ih =>
    intro s s' h
    rw [drain_queue] at h
    by_cases hp : (SREC_QueuePop s.queue s.srec_line).1 = true
    · simp only [hp, if_true, Option.bind_eq_some] at h
      obtain ⟨t, -, hd⟩ := h
      exact ih t s' hd
    · simp only [hp, Bool.false_eq_true, if_false, Option.some.injEq] at h
      rw [← h]
      unfold SREC_QueuePop at hp
      by_cases hc : s.queue.count > 0
      · rw [if_pos hc] at hp
        exact absurd rfl hp
      · omega

theorem Bootloader_Mode_leaves_empty (fuel : Nat) (s s' : BootState)
    (h : Bootloader_Mode fuel s = some s') : s'.queue.count = 0 :=
  drain_queue_leaves_empty fuel (assemble_line s) s' h

theorem main_loop_leaves_empty (fuel : Nat) (sched : List (List Nat)) :
    ∀ s s' : BootState, s.queue.count = 0 → main_loop fuel sched s = some s' →
      s'.queue.count = 0 := by
  induction sched with
  | nil => intro s s' h hrun; cases hrun; exact h
  | cons bs rest ih =>
    intro s s' _ hrun
    rw [main_loop] at hrun
    simp only [Option.bind_eq_some] at hrun
    obtain ⟨t, ht, hr⟩ := hrun
    exact ih t s' (Bootloader_Mode_leaves_empty fuel _ t ht) hr

theorem main_loop_pushes_succeed (fuel : Nat) (sched : List (List Nat)) :
    ∀ s : BootState, s.queue.count = 0 →
      ∀ x ∈ main_loop_pushes fuel sched s, x = (0, true) := by
  induction sched with
  | nil => intro s _ x hx; cases hx
  | cons bs rest ih =>
    intro s h x hx
    rw [main_loop_pushes, List.mem_append] at hx
    rcases hx with hx | hx
    · rw [Option.mem_toList] at hx
      exact assembler_push_result_empty { s with uart := receive bs s.uart } h x hx
    · cases hb : Bootloader_Mode fuel { s with uart := receive bs s.uart } with
      | none => rw [hb] at hx; cases hx
      | some t =>
        rw [hb] at hx
        exact ih t (Bootloader_Mode_leaves_empty fuel _ t hb) x hx

theorem assembler_push_result_char (s : BootState) (c : Nat) (hq : UartIdle s)
    (hc : c ≠ 10) :
    assembler_push_result { s with uart := (UART_BufferPush s.uart c).2 } = none := by
  obtain ⟨h1, h2⟩ := hq
  unfold assembler_push_result
  simp only [UART_BufferPush, UART_BufferPop, UART_QUEUE_SIZE, h1, h2]
  simp only [ge_iff_le, Nat.reduceLeDiff, if_false, Nat.zero_add, Nat.reduceMod,
    one_ne_zero, Function.update_same, hc]

theorem assembler_push_result_newline (s : BootState) (hq : UartIdle s)
    (hpos : 0 < s.line_pos) (hS : s.line_buf 0 = 83) :
    assembler_push_result { s with uart := (UART_BufferPush s.uart 10).2 }
      = some (s.queue.count,
          (SREC_QueuePush s.queue (Function.update s.line_buf s.line_pos 0)).1) := by
  obtain ⟨h1, h2⟩ := hq
  have hS' : Function.update s.line_buf s.line_pos 0 0 = 83 := by
    rw [Function.update_noteq (by omega)]; exact hS
  unfold assembler_push_result
  simp only [UART_BufferPush, UART_BufferPop, UART_QUEUE_SIZE, h1, h2]
  simp only [ge_iff_le, Nat.reduceLeDiff, if_false, Nat.zero_add, Nat.reduceMod,
    one_ne_zero, Function.update_same, if_true, hpos, gt_iff_lt, hS']

theorem main_loop_pushes_chars (fuel : Nat) (rest : List (List Nat)) (l : List Nat) :
    ∀ s : BootState, QueuesIdle s → (∀ c ∈ l, c ≠ 10) → s.line_pos + l.length ≤ 255 →
      ∃ t, main_loop_pushes (fuel + 1) (one_per_pass l ++ rest) s
            = main_loop_pushes (fuel + 1) rest t ∧
        QueuesIdle t ∧ t.line_pos = s.line_pos + l.length ∧
        (∀ j, j < s.line_pos → t.line_buf j = s.line_buf j) ∧
        (∀ i, i < l.length → t.line_buf (s.line_pos + i) = l.getD i 0) := by
  induction l with
  | nil =>
    intro s hq _ _
    exact ⟨s, rfl, hq, rfl, fun _ _ => rfl, fun i hi => absurd hi (Nat.not_lt_zero i)⟩
  | cons c l ih =>
    intro s hq hc hlen
    have hc0 := hc c (List.mem_cons_self c l)
    simp only [List.length_cons] at hlen
    have hstep := feed_byte_char_eq fuel s c hq hc0 (by omega)
    have hstep' : Bootloader_Mode (fuel + 1) { s with uart := receive [c] s.uart }
        = some { s with uart := uart_after s.uart c,
                        line_buf := Function.update s.line_buf s.line_pos c,
                        line_pos := s.line_pos + 1 } := hstep
    have hidle : QueuesIdle { s with uart := uart_after s.uart c,
                                     line_buf := Function.update s.line_buf s.line_pos c,
                                     line_pos := s.line_pos + 1 } := by
      obtain ⟨q1, q2, q3, q4⟩ := hq
      exact ⟨rfl, by simp [uart_after, q2], q3, q4⟩
    obtain ⟨t, e1, e2, e3, e4, e5⟩ := ih
      { s with uart := uart_after s.uart c,
               line_buf := Function.update s.line_buf s.line_pos c,
               line_pos := s.line_pos + 1 } hidle
      (fun x hx => hc x (List.mem_cons_of_mem c hx)) (by show s.line_pos + 1 + l.length ≤ 255; omega)
    refine ⟨t, ?_, e2, by rw [e3]; simp only [List.length_cons]; omega, ?_, ?_⟩
    · show (assembler_push_result { s with uart := receive [c] s.uart }).toList ++
          (match Bootloader_Mode (fuel + 1) { s with uart := receive [c] s.uart } with
            | none => []
            | some t => main_loop_pushes (fuel + 1) (one_per_pass l ++ rest) t)
        = main_loop_pushes (fuel + 1) rest t
      rw [hstep']
      have hnone : assembler_push_result { s with uart := receive [c] s.uart } = none :=
        assembler_push_result_char s c ⟨hq.1, hq.2.1⟩ hc0
      rw [hnone]
      exact e1
    · intro j hj
      rw [e4 j (by show j < s.line_pos + 1; omega)]
      exact Function.update_noteq (by omega) _ _
    · intro i hi
      cases i with
      | zero =>
        rw [Nat.add_zero, e4 s.line_pos (by show s.line_pos < s.line_pos + 1; omega)]
        exact Function.update_same _ _ _
      | succ i =>
        have := e5 i (by simpa using hi)
        rw [show s.line_pos + (i + 1) = s.line_pos + 1 + i by omega]
        exact this

theorem main_loop_pushes_line (fuel : Nat) (l : List Nat) (s : BootState)
    (hq : QueuesIdle s) (hpos : s.line_pos = 0) (hne : 0 < l.length) (hlen : l.length ≤ 255)
    (hS : l.getD 0 0 = 83) (hnl : ∀ c ∈ l, c ≠ 10) :
    main_loop_pushes (fuel + 1) (one_per_pass (l ++ [10])) s = [(0, true)] := by
  have hsplit : one_per_pass (l ++ [10]) = one_per_pass l ++ [[10]] := by
    simp [one_per_pass]
  obtain ⟨t, e1, e2, e3, -, e5⟩ := main_loop_pushes_chars fuel [[10]] l s hq hnl (by omega)
  rw [hsplit, e1]
  have hS' : t.line_buf 0 = 83 := by
    have := e5 0 hne
    rw [hpos] at this
    rw [this, hS]
  have hres : assembler_push_result { t with uart := receive [10] t.uart }
      = some (t.queue.count,
          (SREC_QueuePush t.queue (Function.update t.line_buf t.line_pos 0)).1) :=
    assembler_push_result_newline t ⟨e2.1, e2.2.1⟩ (by omega) hS'
  show (assembler_push_result { t with uart := receive [10] t.uart }).toList ++
      (match Bootloader_Mode (fuel + 1) { t with uart := receive [10] t.uart } with
        | none => []
        | some u => main_loop_pushes (fuel + 1) [] u) = [(0, true)]
  rw [hres]
  have htail : (match Bootloader_Mode (fuel + 1) { t with uart := receive [10] t.uart } with
        | none => ([] : List (Nat × Bool))
        | some u => main_loop_pushes (fuel + 1) [] u) = [] := by
    cases Bootloader_Mode (fuel + 1) { t with uart := receive [10] t.uart } <;> rfl
  rw [htail]
  simp [SREC_QueuePush, SREC_MAX_LINES, e2.2.2.1]

/-! ## The claims -/

/-! ### C1 -/

/-- C1. For a line with marker `S`, kind digit in 1, 2, 3, 7, 8, 9 and byte count at
least address width + 1, `parse_srec_line` returns 0 and sets `valid` non-zero exactly
when count + address bytes + payload bytes + checksum byte is 0xFF modulo 256. -/
theorem valid_iff_checksum_rule (line : Nat → Nat) (r : srec_record_t)
    (hS : line 0 = 83) (hk : is_kind_digit (line 1))
    (hc : pair_byte line 0 ≥ kind_width (line 1) + 1) :
    (parse_srec_line line r).1 = 0 ∧
      ((parse_srec_line line r).2.valid ≠ 0 ↔
        field_sum line (kind_width (line 1)) % 256 = 255) := by
  have hw := addr_len_of_kind hk
  rw [parse_accept line r _ hS hw]
  refine ⟨rfl, ?_⟩
  have hcnt : pair_byte line 0 = hex_to_byte (advance line 2) := rfl
  have hn : ((hex_to_byte (advance line 2) : Int) - (kind_width (line 1) : Int) - 1).toNat
      = pair_byte line 0 - kind_width (line 1) - 1 := by omega
  have hck : 1 + kind_width (line 1) + (pair_byte line 0 - kind_width (line 1) - 1)
      = hex_to_byte (advance line 2) := by omega
  have e1 : (fun i => hex_to_byte (advance line (4 + i * 2)))
      = fun i => pair_byte line (1 + i) := by
    funext i; unfold pair_byte
    rw [show 4 + i * 2 = 2 + 2 * (1 + i) by omega]
  have e2 : (fun i => hex_to_byte (advance line (4 + kind_width (line 1) * 2 + i * 2)))
      = fun i => pair_byte line (1 + kind_width (line 1) + i) := by
    funext i; unfold pair_byte
    rw [show 4 + kind_width (line 1) * 2 + i * 2 = 2 + 2 * (1 + kind_width (line 1) + i) by omega]
  simp only [hn, e1, e2]
  unfold field_sum
  rw [hck]
  have e3 : hex_to_byte (advance line (2 + 2 * hex_to_byte (advance line 2)))
      = pair_byte line (hex_to_byte (advance line 2)) := rfl
  rw [e3, ← hcnt]
  split_ifs with h <;> simp [h]

theorem valid_iff_checksum_rule_witness :
    line_s1_8 0 = 83 ∧ is_kind_digit (line_s1_8 1) ∧
      pair_byte line_s1_8 0 ≥ kind_width (line_s1_8 1) + 1 ∧
      (parse_srec_line line_s1_8 blank_record).1 = 0 ∧
      ((parse_srec_line line_s1_8 blank_record).2.valid ≠ 0 ↔
        field_sum line_s1_8 (kind_width (line_s1_8 1)) % 256 = 255) :=
  ⟨by decide, by decide, by decide,
    valid_iff_checksum_rule line_s1_8 blank_record (by decide) (by decide) (by decide)⟩

/-! ### C2 -/

set_option maxRecDepth 100000 in
/-- C2, counterexample. The 128 zero bytes at 0xA000 sent as the one S1 record
`sent_long` (a correct line of 266 characters, on which the Write Engine would take
Case C sixteen times) followed by the end-of-file record `S9030000FC`: every hypothesis
of the round trip holds, the run returns, and the image still reads 0xFF at 0xA000 where
the data has 0x00, because the line assembler drops a line longer than its buffer. -/
theorem overlong_record_not_programmed :
    APP_FLASH_START ≤ 0xA000 ∧
      0xA000 + (all_payload [sent_long]).length ≤ APP_FLASH_END + 1 ∧
      split_records 0xA000 [sent_long] ∧
      (sent_s9.kind = 7 ∨ sent_s9.kind = 8 ∨ sent_s9.kind = 9) ∧
      is_record_line sent_s9.text sent_s9.kind 0 sent_s9.payload ∧
      QueuesIdle boot_state0 ∧ boot_state0.line_pos = 0 ∧
      boot_state0.pending_valid = 0 ∧ boot_state0.programs = [] ∧
      ∃ s', feed 300 (all_text [sent_long] ++ (sent_s9.text ++ [10])) boot_state0 = some s' ∧
        flash_image s'.programs 0xA000 = 255 ∧
        (all_payload [sent_long]).getD (0xA000 - 0xA000) 255 = 0 := by
  have hq0 : QueuesIdle boot_state0 := by decide
  have hline : is_record_line sent_s9.text sent_s9.kind 0 sent_s9.payload := by decide
  refine ⟨by decide, by decide, by decide, by decide, hline, hq0, rfl, rfl, rfl, ?_⟩
  have hstream : all_text [sent_long] ++ (sent_s9.text ++ [10])
      = (([83, 49, 56, 51, 65, 48, 48, 48] ++ List.replicate 247 48)
          ++ (48 :: (List.replicate 8 48 ++ [68, 67]) ++ [10])) ++ (sent_s9.text ++ [10]) := by
    decide
  obtain ⟨t, f1, q1, e1, p1⟩ := feed_overlong_line 299 boot_state0
    ([83, 49, 56, 51, 65, 48, 48, 48] ++ List.replicate 247 48)
    (List.replicate 8 48 ++ [68, 67]) 48 hq0 rfl (by decide) (by decide) (by decide)
    (by decide) (by decide) (by decide) (by decide)
  obtain ⟨u, f2, q2, e2, p2, hsu⟩ := feed_line 299 t sent_s9.text q1 p1
    (by decide) (by decide) (by decide) (record_line_chars hline (by decide))
  obtain ⟨r1, r2, r3, r4, r5, r6⟩ :=
    parse_record_line u.srec_line u.record sent_s9.text sent_s9.kind 0 sent_s9.payload
      (by decide) hline hsu
  obtain ⟨u', v1, v2, v3, v4, -⟩ := process_line_end_record 0xA000 [] 299 u r1
    (by rw [r2]; decide) r6
    (EngineInv_of_same (e1.trans e2) (EngineInv_init 0xA000 [] boot_state0 rfl rfl))
  refine ⟨u', ?_, ?_, by decide⟩
  · rw [hstream, feed_append, f1, Option.some_bind, f2, v1, Option.some_bind,
      drain_queue_empty _ _ v4]
  · rw [v3]; rfl

/-- C2, amended. Take an address A and data records that split a byte string D into
consecutive S1/S2/S3 lines with correct count and checksum, with [A, A+N) inside the
FlashRegion, on each of which the Write Engine takes only Cases A, B or C, and whose
text lines are at most 255 characters long, as is that of the end-of-file record that
follows them. Fed one byte per pass of the main loop to `Bootloader_Mode`, from a state
with empty queues, an empty line accumulator, no pending half and nothing programmed,
the run returns, leaves no pending half, and the image of its program operations on
erased storage reads D over [A, A+N) and 0xFF everywhere else. -/
theorem ingest_round_trip (A : Nat) (recs : List SentRecord) (e : SentRecord) (eaddr : Nat)
    (s : BootState) (fuel : Nat)
    (hlo : APP_FLASH_START ≤ A)
    (hhi : A + (all_payload recs).length ≤ APP_FLASH_END + 1)
    (hsplit : split_records A recs)
    (hshort : ∀ r ∈ recs, r.text.length ≤ 255)
    (hekind : e.kind = 7 ∨ e.kind = 8 ∨ e.kind = 9)
    (heline : is_record_line e.text e.kind eaddr e.payload)
    (heshort : e.text.length ≤ 255)
    (hq : QueuesIdle s) (hpos : s.line_pos = 0)
    (hpend : s.pending_valid = 0) (herased : s.programs = [])
    (hfuel : 126 ≤ fuel) :
    ∃ s', feed fuel (all_text recs ++ (e.text ++ [10])) s = some s' ∧
      s'.pending_valid = 0 ∧ (∀ op ∈ s'.programs, op.2.length = 8) ∧
      ∀ a, flash_image s'.programs a
        = if A ≤ a ∧ a < A + (all_payload recs).length
          then (all_payload recs).getD (a - A) 255 else 255 := by
  obtain ⟨g, rfl⟩ : ∃ g, fuel = g + 1 := ⟨fuel - 1, by omega⟩
  have hhi' : A + (all_payload recs).length ≤ 524288 := hhi
  have hinv0 : EngineInv A (all_payload recs) ([] : List Nat).length s :=
    EngineInv_init A (all_payload recs) s hpend herased
  obtain ⟨s1, f1, q1, p1, i1⟩ := feed_records A (all_payload recs) (by omega) hlo hhi g
    (by omega) recs [] s rfl (by simpa using hsplit) hshort hq hpos hinv0
  have hk6 : e.kind = 1 ∨ e.kind = 2 ∨ e.kind = 3 ∨ e.kind = 7 ∨ e.kind = 8 ∨ e.kind = 9 := by
    omega
  obtain ⟨t, ht, hqt, het, hpt, hst⟩ := feed_line g s1 e.text q1 p1
    (by rw [heline.1]; omega) heshort heline.2.1 (record_line_chars heline (by omega))
  obtain ⟨r1, r2, r3, r4, r5, r6⟩ :=
    parse_record_line t.srec_line t.record e.text e.kind eaddr e.payload hk6 heline hst
  obtain ⟨t', u1, u2, u3, u4, u5⟩ := process_line_end_record A (all_payload recs) g t r1
    (by rw [r2]; omega) r6 (EngineInv_of_same het i1)
  obtain ⟨g', rfl⟩ : ∃ g', g = g' + 1 := ⟨g - 1, by omega⟩
  refine ⟨t', ?_, u2, u5, ?_⟩
  · rw [feed_append, f1, Option.some_bind, ht, u1, Option.some_bind,
      drain_queue_empty _ _ u4]
  · intro a
    rw [u3]
    rfl

theorem ingest_round_trip_witness :
    ∃ s', feed 126 (all_text [sent_low4, sent_high4] ++ (sent_s9.text ++ [10])) boot_state0
        = some s' ∧
      s'.pending_valid = 0 ∧ (∀ op ∈ s'.programs, op.2.length = 8) ∧
      ∀ a, flash_image s'.programs a
        = if 0xA000 ≤ a ∧ a < 0xA000 + (all_payload [sent_low4, sent_high4]).length
          then (all_payload [sent_low4, sent_high4]).getD (a - 0xA000) 255 else 255 :=
  ingest_round_trip 0xA000 [sent_low4, sent_high4] sent_s9 0 boot_state0 126
    (by decide) (by decide) (by decide) (by decide) (by decide) (by decide) (by decide)
    (by decide) (by decide) (by decide) (by decide) (by decide)

/-! ### C3 -/

/-- C3, the code at the failing input. For the checksum-valid in-region data record
`S104A000005B` (one payload byte at 0xA000) the loop body of `Bootloader_Mode` returns
for no amount of fuel: the `while (len > 0U)` loop never ends. -/
theorem one_byte_record_never_returns (fuel : Nat) (s : BootState) :
    (parse_srec_line line_one_byte s.record).1 = 0 ∧
      (parse_srec_line line_one_byte s.record).2.valid = 1 ∧
      (parse_srec_line line_one_byte s.record).2.type = 1 ∧
      (parse_srec_line line_one_byte s.record).2.address = 0xA000 ∧
      (parse_srec_line line_one_byte s.record).2.data_len = 1 ∧
      process_line fuel { s with srec_line := line_one_byte } = none := by
  have hS : line_one_byte 0 = 83 := by decide
  have hw : addr_len_of ((line_one_byte 1 : Int) - 48) = some 2 := by decide
  have hp := parse_accept line_one_byte s.record 2 hS hw
  have h1 : (parse_srec_line line_one_byte s.record).1 = 0 := by rw [hp]
  have h2 : (parse_srec_line line_one_byte s.record).2.valid = 1 := by rw [hp]; simp only; decide
  have h3 : (parse_srec_line line_one_byte s.record).2.type = 1 := by rw [hp]; simp only; decide
  have h4 : (parse_srec_line line_one_byte s.record).2.address = 0xA000 := by rw [hp]; simp only; decide
  have h5 : (parse_srec_line line_one_byte s.record).2.data_len = 1 := by rw [hp]; simp only; decide
  refine ⟨h1, h2, h3, h4, h5, ?_⟩
  unfold process_line
  simp only [h1, h2, true_and, ne_eq, one_ne_zero, not_false_eq_true, if_true]
  unfold process_data
  simp only [h3, h4, h5, true_or, if_true]
  rw [if_pos (by decide)]
  rw [write_loop_stuck _ _ _ _ (by decide) (by decide) (by decide) (by decide)]
  rfl

/-! ### C4 -/

/-- C4. For every accepted line the address width is the one fixed by the kind digit
(S1 2, S2 3, S3 4, S7 4, S8 3, S9 2, and 2 for the other accepted kinds S0 and S5) and
`rec.address` is the big-endian value of that many hex pairs starting at character 4. -/
theorem address_big_endian (line : Nat → Nat) (r : srec_record_t)
    (h : (parse_srec_line line r).1 = 0) :
    (is_kind_digit (line 1) ∨ line 1 = 48 ∨ line 1 = 53) ∧
      (line 1 = 49 → accepted_width (line 1) = 2) ∧
      (line 1 = 50 → accepted_width (line 1) = 3) ∧
      (line 1 = 51 → accepted_width (line 1) = 4) ∧
      (line 1 = 55 → accepted_width (line 1) = 4) ∧
      (line 1 = 56 → accepted_width (line 1) = 3) ∧
      (line 1 = 57 → accepted_width (line 1) = 2) ∧
      (parse_srec_line line r).2.address
        = be_value ((List.range (accepted_width (line 1))).map
            (fun i => hex_to_byte (advance line (4 + 2 * i)))) := by
  obtain ⟨hS, hk, hw⟩ := parse_ret_zero h
  refine ⟨hk, ?_, ?_, ?_, ?_, ?_, ?_, ?_⟩
  iterate 6 (intro e; rw [e]; decide)
  rw [parse_accept line r _ hS hw]
  have e1 : (fun i => hex_to_byte (advance line (4 + 2 * i)))
      = fun i => hex_to_byte (advance line (4 + i * 2)) := by
    funext i
    rw [show 4 + 2 * i = 4 + i * 2 by omega]
  rw [e1]
  exact (address_fold (fun i => hex_to_byte (advance line (4 + i * 2)))
    (fun i => hex_to_byte_lt _) _ (accepted_width_le _)).1

theorem address_big_endian_witness :
    (parse_srec_line line_s1_8 blank_record).1 = 0 ∧
      (parse_srec_line line_s1_8 blank_record).2.address = 0xA000 ∧
      (parse_srec_line line_s1_8 blank_record).2.address
        = be_value ((List.range (accepted_width (line_s1_8 1))).map
            (fun i => hex_to_byte (advance line_s1_8 (4 + 2 * i)))) :=
  ⟨by decide, by decide,
    (address_big_endian line_s1_8 blank_record (by decide)).2.2.2.2.2.2.2⟩

/-! ### C5 -/

/-- C5. For an accepted line whose byte count is at least address width + 1,
`rec.data_len` is count - address width - 1, `rec.data[i]` is the byte decoded from the
i-th hex pair after the address field and `rec.checksum` the byte decoded from the pair
right after the last payload pair. -/
theorem payload_and_checksum_fields (line : Nat → Nat) (r : srec_record_t)
    (h : (parse_srec_line line r).1 = 0)
    (hc : hex_to_byte (advance line 2) ≥ accepted_width (line 1) + 1) :
    (parse_srec_line line r).2.data_len
        = hex_to_byte (advance line 2) - accepted_width (line 1) - 1 ∧
      (∀ i, i < (parse_srec_line line r).2.data_len →
        (parse_srec_line line r).2.data i
          = hex_to_byte (advance line (4 + 2 * accepted_width (line 1) + 2 * i))) ∧
      (parse_srec_line line r).2.checksum
        = hex_to_byte (advance line (4 + 2 * accepted_width (line 1)
            + 2 * (parse_srec_line line r).2.data_len)) := by
  obtain ⟨hS, -, hw⟩ := parse_ret_zero h
  have hlt := hex_to_byte_lt (advance line 2)
  rw [parse_accept line r _ hS hw]
  simp only
  have hn : ((hex_to_byte (advance line 2) : Int) - (accepted_width (line 1) : Int) - 1).toNat
      = hex_to_byte (advance line 2) - accepted_width (line 1) - 1 := by omega
  have hm : (((hex_to_byte (advance line 2) : Int) - (accepted_width (line 1) : Int) - 1)
      % 256).toNat = hex_to_byte (advance line 2) - accepted_width (line 1) - 1 := by omega
  rw [hn, hm]
  refine ⟨rfl, ?_, ?_⟩
  · intro i hi
    rw [if_pos hi, show 4 + accepted_width (line 1) * 2 + i * 2
      = 4 + 2 * accepted_width (line 1) + 2 * i by omega]
  · rw [show 4 + 2 * accepted_width (line 1)
        + 2 * (hex_to_byte (advance line 2) - accepted_width (line 1) - 1)
      = 2 + 2 * hex_to_byte (advance line 2) by omega]

theorem payload_and_checksum_fields_witness :
    (parse_srec_line line_s1_8 blank_record).1 = 0 ∧
      hex_to_byte (advance line_s1_8 2) ≥ accepted_width (line_s1_8 1) + 1 ∧
      (parse_srec_line line_s1_8 blank_record).2.data_len = 8 ∧
      (parse_srec_line line_s1_8 blank_record).2.data_len
        = hex_to_byte (advance line_s1_8 2) - accepted_width (line_s1_8 1) - 1 :=
  ⟨by decide, by decide, by decide,
    (payload_and_checksum_fields line_s1_8 blank_record (by decide) (by decide)).1⟩

/-! ### C6 -/

/-- C6, counterexample. The line `S10300FCZZ` has the non-hex characters `ZZ` at its
checksum position, and `parse_srec_line` still returns 0 with `valid` set. -/
theorem bad_hex_line_accepted_valid :
    hex_nibble (line_bad_hex 8) = none ∧ hex_nibble (line_bad_hex 9) = none ∧
      2 + 2 * hex_to_byte (advance line_bad_hex 2) = 8 ∧
      (parse_srec_line line_bad_hex blank_record).1 = 0 ∧
      (parse_srec_line line_bad_hex blank_record).2.valid = 1 := by
  decide

/-- C6, amended. A hex pair holding a character outside `[0-9A-Fa-f]` is decoded as the
byte 0 and raises no error: `parse_srec_line` returns 0 exactly when the marker is `S`
and the kind digit is one of 0, 1, 2, 3, 5, 7, 8, 9, whatever the hex positions hold. -/
theorem bad_hex_pair_decodes_zero (line : Nat → Nat) (r : srec_record_t) (k : Nat)
    (hbad : hex_nibble (line (2 + 2 * k)) = none ∨ hex_nibble (line (2 + 2 * k + 1)) = none) :
    hex_to_byte (advance line (2 + 2 * k)) = 0 ∧
      ((parse_srec_line line r).1 = 0 ↔
        (line 0 = 83 ∧ (is_kind_digit (line 1) ∨ line 1 = 48 ∨ line 1 = 53))) := by
  constructor
  · unfold hex_to_byte advance
    rcases hbad with hb | hb
    · simp only [Nat.add_zero]; rw [hb]
    · simp only [Nat.add_zero]
      cases hx : hex_nibble (line (2 + 2 * k)) with
      | none => rfl
      | some hi => simp only; rw [hb]
  · constructor
    · intro h
      exact ⟨(parse_ret_zero h).1, (parse_ret_zero h).2.1⟩
    · rintro ⟨hS, hk⟩
      have hw : addr_len_of ((line 1 : Int) - 48) = some (accepted_width (line 1)) := by
        rcases hk with hk | hk | hk
        · rw [addr_len_of_kind hk]
          unfold accepted_width
          rcases hk with e | e | e | e | e | e <;> simp [e]
        · rw [hk]; decide
        · rw [hk]; decide
      rw [parse_accept line r _ hS hw]

theorem bad_hex_pair_decodes_zero_witness :
    (hex_nibble (line_bad_hex (2 + 2 * 3)) = none
        ∨ hex_nibble (line_bad_hex (2 + 2 * 3 + 1)) = none) ∧
      hex_to_byte (advance line_bad_hex (2 + 2 * 3)) = 0 ∧
      ((parse_srec_line line_bad_hex blank_record).1 = 0 ↔
        (line_bad_hex 0 = 83 ∧
          (is_kind_digit (line_bad_hex 1) ∨ line_bad_hex 1 = 48 ∨ line_bad_hex 1 = 53))) :=
  ⟨by decide, bad_hex_pair_decodes_zero line_bad_hex blank_record 3 (by decide)⟩

/-! ### C7 -/

/-- C7. A line whose first character is not `S` makes `parse_srec_line` return -1
with the record untouched, and the loop body of `Bootloader_Mode` leaves the whole
state as it was: nothing is programmed and the pending half is unchanged. -/
theorem non_marker_line_ignored (fuel : Nat) (s : BootState) (h : s.srec_line 0 ≠ 83) :
    parse_srec_line s.srec_line s.record = (-1, s.record) ∧
      process_line fuel s = some s := by
  have hp : parse_srec_line s.srec_line s.record = (-1, s.record) := by
    unfold parse_srec_line; simp [h]
  refine ⟨hp, ?_⟩
  unfold process_line
  rw [hp]
  simp

theorem non_marker_line_ignored_witness :
    line_no_marker 0 ≠ 83 ∧
      process_line 5 { boot_state0 with srec_line := line_no_marker }
        = some { boot_state0 with srec_line := line_no_marker } :=
  ⟨by decide,
    (non_marker_line_ignored 5 { boot_state0 with srec_line := line_no_marker }
      (by decide)).2⟩

/-! ### C8 -/

/-- C8. A checksum-valid data record with an 8-byte-aligned in-region address and
exactly 8 payload bytes, processed with no pending half, issues exactly one
`Program_LongWord_8B` call, at the record address with the 8 payload bytes in order,
and leaves no pending half. -/
theorem aligned_eight_bytes_one_program (fuel : Nat) (s : BootState)
    (hret : (parse_srec_line s.srec_line s.record).1 = 0)
    (hvalid : (parsed_record s).valid ≠ 0)
    (htype : (parsed_record s).type = 1 ∨ (parsed_record s).type = 2
      ∨ (parsed_record s).type = 3)
    (halign : (parsed_record s).address % 8 = 0)
    (hlo : APP_FLASH_START ≤ (parsed_record s).address)
    (hhi : (parsed_record s).address ≤ APP_FLASH_END)
    (hlen : (parsed_record s).data_len = 8)
    (hpend : s.pending_valid = 0) :
    ∃ s', process_line (fuel + 2) s = some s' ∧
      s'.programs = s.programs ++ [((parsed_record s).address,
        [(parsed_record s).data 0, (parsed_record s).data 1, (parsed_record s).data 2,
         (parsed_record s).data 3, (parsed_record s).data 4, (parsed_record s).data 5,
         (parsed_record s).data 6, (parsed_record s).data 7])] ∧
      s'.pending_valid = 0 := by
  unfold parsed_record at hvalid htype halign hlo hhi hlen ⊢
  have hne : ¬ ((parse_srec_line s.srec_line s.record).2.type = 7
      ∨ (parse_srec_line s.srec_line s.record).2.type = 8
      ∨ (parse_srec_line s.srec_line s.record).2.type = 9) := by omega
  unfold process_line process_data
  simp only [hret, hvalid, ne_eq, not_false_eq_true, and_self, if_true, htype, hlo, hhi,
    ge_iff_le, hlen]
  rw [write_loop_case_c _ _ _ _ _ halign (le_refl 8), write_loop_done]
  refine ⟨_, rfl, ?_, ?_⟩
  · simp [process_end, hne, Program_LongWord_8B]
  · simp [process_end, hne, Program_LongWord_8B, hpend]

theorem aligned_eight_bytes_one_program_witness :
    ∃ s', process_line (0 + 2) { boot_state0 with srec_line := line_s1_8 } = some s' ∧
      s'.programs = [] ++ [(0xA000, [1, 2, 3, 4, 5, 6, 7, 8])] ∧ s'.pending_valid = 0 :=
  aligned_eight_bytes_one_program 0 { boot_state0 with srec_line := line_s1_8 }
    (by decide) (by decide) (by decide) (by decide) (by decide) (by decide) (by decide)
    (by decide)

/-! ### C9 -/

/-- C9. From any state, in particular one with no pending half, a
checksum-valid data record carrying exactly
4 bytes L at an 8-byte-aligned in-region address X issues no program call; a second
checksum-valid data record carrying exactly 4 bytes H at X + 4, processed next, issues
exactly one `Program_LongWord_8B` call, at X with buffer L followed by H, and no pending
half remains. The state `t` is any state in which the second line has been popped into
`srec_line` while the pending half and the trace are as the first record left them. -/
theorem two_halves_one_program (fuel : Nat) (s t : BootState)
    (hret : (parse_srec_line s.srec_line s.record).1 = 0)
    (hvalid : (parsed_record s).valid ≠ 0)
    (htype : (parsed_record s).type = 1 ∨ (parsed_record s).type = 2
      ∨ (parsed_record s).type = 3)
    (halign : (parsed_record s).address % 8 = 0)
    (hlo : APP_FLASH_START ≤ (parsed_record s).address)
    (hhi : (parsed_record s).address ≤ APP_FLASH_END)
    (hlen : (parsed_record s).data_len = 4)
    (hret2 : (parse_srec_line t.srec_line t.record).1 = 0)
    (hvalid2 : (parsed_record t).valid ≠ 0)
    (htype2 : (parsed_record t).type = 1 ∨ (parsed_record t).type = 2
      ∨ (parsed_record t).type = 3)
    (haddr2 : (parsed_record t).address = (parsed_record s).address + 4)
    (hlen2 : (parsed_record t).data_len = 4) :
    ∃ s1, process_line (fuel + 2) s = some s1 ∧ s1.programs = s.programs ∧
      (t.pending_valid = s1.pending_valid → t.pending_base = s1.pending_base →
        t.pending_low4 = s1.pending_low4 → t.programs = s1.programs →
        ∃ t1, process_line (fuel + 2) t = some t1 ∧
          t1.programs = s.programs ++ [((parsed_record s).address,
            [(parsed_record s).data 0, (parsed_record s).data 1, (parsed_record s).data 2,
             (parsed_record s).data 3, (parsed_record t).data 0, (parsed_record t).data 1,
             (parsed_record t).data 2, (parsed_record t).data 3])] ∧
          t1.pending_valid = 0) := by
  unfold parsed_record at hvalid htype halign hlo hhi hlen hvalid2 htype2 haddr2 hlen2 ⊢
  have hne : ¬ ((parse_srec_line s.srec_line s.record).2.type = 7
      ∨ (parse_srec_line s.srec_line s.record).2.type = 8
      ∨ (parse_srec_line s.srec_line s.record).2.type = 9) := by omega
  have hne2 : ¬ ((parse_srec_line t.srec_line t.record).2.type = 7
      ∨ (parse_srec_line t.srec_line t.record).2.type = 8
      ∨ (parse_srec_line t.srec_line t.record).2.type = 9) := by omega
  have hhi' : (parse_srec_line s.srec_line s.record).2.address ≤ 524287 := hhi
  have hlo' : 40960 ≤ (parse_srec_line s.srec_line s.record).2.address := hlo
  have hlo2 : APP_FLASH_START ≤ (parse_srec_line t.srec_line t.record).2.address := by
    rw [haddr2]; exact le_trans hlo (Nat.le_add_right _ _)
  have hhi2 : (parse_srec_line t.srec_line t.record).2.address ≤ APP_FLASH_END := by
    rw [haddr2]; show _ ≤ 524287; omega
  have hal2 : (parse_srec_line t.srec_line t.record).2.address % 8 = 4 := by
    rw [haddr2]; omega
  have h1 : process_line (fuel + 2) s = some (process_end
      { s with record := (parse_srec_line s.srec_line s.record).2,
               pending_low4 := memcpy4 s.pending_low4
                 (parse_srec_line s.srec_line s.record).2.data,
               pending_base := (parse_srec_line s.srec_line s.record).2.address,
               pending_valid := 1 }) := by
    unfold process_line process_data
    simp only [hret, hvalid, ne_eq, not_false_eq_true, and_self, if_true, htype, hlo, hhi,
      ge_iff_le, hlen]
    rw [write_loop_case_a _ _ _ _ halign, write_loop_done]
    rfl
  refine ⟨_, h1, ?_, ?_⟩
  · simp [process_end, hne]
  · intro hv hb hl hp
    simp only [process_end, hne, if_false] at hv hb hl hp
    have h2 : process_line (fuel + 2) t = some (process_end
        { Program_LongWord_8B ((parse_srec_line t.srec_line t.record).2.address - 4)
            (memcpy4_high (if t.pending_valid ≠ 0 ∧ t.pending_base
                  = (parse_srec_line t.srec_line t.record).2.address - 4
                then memcpy4 buf8_erased t.pending_low4 else buf8_erased)
              (parse_srec_line t.srec_line t.record).2.data)
            { t with record := (parse_srec_line t.srec_line t.record).2 }
          with pending_valid := 0 }) := by
      unfold process_line process_data
      simp only [hret2, hvalid2, ne_eq, not_false_eq_true, and_self, if_true, htype2, hlo2,
        hhi2, ge_iff_le, hlen2]
      rw [write_loop_case_b _ _ _ _ _ hal2 (le_refl 4), write_loop_done]
      rfl
    refine ⟨_, h2, ?_, ?_⟩
    · simp [process_end, hne2, Program_LongWord_8B, hv, hb, hl, hp, haddr2, memcpy4,
        memcpy4_high, buf8_erased]
    · simp [process_end, hne2, Program_LongWord_8B]

theorem two_halves_one_program_witness :
    ∃ s1, process_line (0 + 2) { boot_state0 with srec_line := line_s1_low4 } = some s1 ∧
      s1.programs = [] ∧
      (1 = s1.pending_valid → 0xA000 = s1.pending_base →
        memcpy4 (fun _ => 0) (line_of [1, 2, 3, 4]) = s1.pending_low4 → [] = s1.programs →
        ∃ t1, process_line (0 + 2)
            { boot_state0 with srec_line := line_s1_high4, pending_valid := 1,
                               pending_base := 0xA000,
                               pending_low4 := memcpy4 (fun _ => 0) (line_of [1, 2, 3, 4]) }
              = some t1 ∧
          t1.programs = [] ++ [(0xA000, [1, 2, 3, 4, 5, 6, 7, 8])] ∧
          t1.pending_valid = 0) :=
  two_halves_one_program 0 { boot_state0 with srec_line := line_s1_low4 }
    { boot_state0 with srec_line := line_s1_high4, pending_valid := 1,
                       pending_base := 0xA000,
                       pending_low4 := memcpy4 (fun _ => 0) (line_of [1, 2, 3, 4]) }
    (by decide) (by decide) (by decide) (by decide) (by decide) (by decide) (by decide)
    (by decide) (by decide) (by decide) (by decide) (by decide)

/-! ### C10 -/

/-- C10. A checksum-valid end-of-file record (kind 7, 8 or 9) processed while a pending
half is outstanding issues exactly one `Program_LongWord_8B` call, at `pending_base` with
the four pending bytes followed by four 0xFF, and clears the pending flag; with no
pending half it issues no program call. -/
theorem end_record_flushes_pending (fuel : Nat) (s : BootState)
    (hret : (parse_srec_line s.srec_line s.record).1 = 0)
    (hvalid : (parsed_record s).valid ≠ 0)
    (htype : (parsed_record s).type = 7 ∨ (parsed_record s).type = 8
      ∨ (parsed_record s).type = 9) :
    ∃ s', process_line fuel s = some s' ∧ s'.pending_valid = 0 ∧
      (s.pending_valid ≠ 0 →
        s'.programs = s.programs ++ [(s.pending_base,
          [s.pending_low4 0, s.pending_low4 1, s.pending_low4 2, s.pending_low4 3,
           255, 255, 255, 255])]) ∧
      (s.pending_valid = 0 → s'.programs = s.programs) := by
  unfold parsed_record at hvalid htype
  have hne : ¬ ((parse_srec_line s.srec_line s.record).2.type = 1
      ∨ (parse_srec_line s.srec_line s.record).2.type = 2
      ∨ (parse_srec_line s.srec_line s.record).2.type = 3) := by omega
  have h1 : process_line fuel s = some (process_end
      { s with record := (parse_srec_line s.srec_line s.record).2 }) := by
    unfold process_line process_data
    simp only [hret, hvalid, ne_eq, not_false_eq_true, and_self, if_true, hne, if_false]
    rfl
  refine ⟨_, h1, ?_, ?_, ?_⟩
  · by_cases hp : s.pending_valid = 0 <;> simp [process_end, htype, hp]
  · intro hp
    simp [process_end, htype, hp, Program_LongWord_8B, memcpy4, buf8_erased]
  · intro hp
    simp [process_end, htype, hp]

theorem end_record_flushes_pending_witness :
    ∃ s', process_line 0
        { boot_state0 with srec_line := line_s9, pending_valid := 1,
                           pending_base := 0xA000,
                           pending_low4 := line_of [1, 2, 3, 4] } = some s' ∧
      s'.pending_valid = 0 ∧
      ((1 : Nat) ≠ 0 →
        s'.programs = [] ++ [(0xA000, [1, 2, 3, 4, 255, 255, 255, 255])]) ∧
      ((1 : Nat) = 0 → s'.programs = []) :=
  end_record_flushes_pending 0
    { boot_state0 with srec_line := line_s9, pending_valid := 1, pending_base := 0xA000,
                       pending_low4 := line_of [1, 2, 3, 4] }
    (by decide) (by decide) (by decide)

/-! ### C11 -/

/-- C11. When the record parsed from the line in `srec_line` has `valid == 0`, whatever
its kind, the loop body of `Bootloader_Mode` only stores the parsed record: no program
operation is issued, the pending half (flag, base, four bytes) is unchanged, and the
line accumulator and the record queue are left as they were. -/
theorem invalid_record_dropped (fuel : Nat) (s : BootState)
    (hinvalid : (parsed_record s).valid = 0) :
    ∃ s', process_line fuel s = some s' ∧ s'.programs = s.programs ∧
      s'.pending_valid = s.pending_valid ∧ s'.pending_base = s.pending_base ∧
      s'.pending_low4 = s.pending_low4 ∧ s'.line_buf = s.line_buf ∧
      s'.line_pos = s.line_pos ∧ s'.queue = s.queue ∧ s'.sent = s.sent := by
  refine ⟨{ s with record := (parse_srec_line s.srec_line s.record).2 }, ?_,
    rfl, rfl, rfl, rfl, rfl, rfl, rfl, rfl⟩
  unfold parsed_record at hinvalid
  unfold process_line
  simp [hinvalid]

theorem invalid_record_dropped_witness :
    (parsed_record { boot_state0 with srec_line := line_bad_sum_data }).valid = 0 ∧
      (parsed_record { boot_state0 with srec_line := line_bad_sum_end }).valid = 0 ∧
      (parsed_record { boot_state0 with srec_line := line_bad_sum_end }).type = 9 ∧
      ∃ s', process_line 9 { boot_state0 with srec_line := line_bad_sum_end } = some s' ∧
        s'.programs = [] ∧ s'.pending_valid = 0 ∧ s'.pending_base = 0 ∧
        s'.pending_low4 = (fun _ => 0) ∧ s'.line_buf = (fun _ => 0) ∧
        s'.line_pos = 0 ∧ s'.queue = boot_state0.queue ∧ s'.sent = [] :=
  ⟨by decide, by decide, by decide,
    invalid_record_dropped 9 { boot_state0 with srec_line := line_bad_sum_end } (by decide)⟩

/-! ### C12 -/

/-- C12. A checksum-valid data record (kind 1, 2 or 3) whose address is below
0x0000A000 or above 0x0007FFFF is ignored by the loop body of `Bootloader_Mode`: no
program operation is issued and the pending half is unchanged. -/
theorem out_of_window_record_ignored (fuel : Nat) (s : BootState)
    (hret : (parse_srec_line s.srec_line s.record).1 = 0)
    (hvalid : (parsed_record s).valid ≠ 0)
    (htype : (parsed_record s).type = 1 ∨ (parsed_record s).type = 2
      ∨ (parsed_record s).type = 3)
    (hout : (parsed_record s).address < 0x0000A000 ∨ (parsed_record s).address > 0x0007FFFF) :
    ∃ s', process_line fuel s = some s' ∧ s'.programs = s.programs ∧
      s'.pending_valid = s.pending_valid ∧ s'.pending_base = s.pending_base ∧
      s'.pending_low4 = s.pending_low4 := by
  refine ⟨{ s with record := (parse_srec_line s.srec_line s.record).2 }, ?_,
    rfl, rfl, rfl, rfl⟩
  unfold parsed_record at hvalid htype hout
  have hne : ¬ ((parse_srec_line s.srec_line s.record).2.type = 7
      ∨ (parse_srec_line s.srec_line s.record).2.type = 8
      ∨ (parse_srec_line s.srec_line s.record).2.type = 9) := by omega
  have hreg : ¬ ((parse_srec_line s.srec_line s.record).2.address ≥ APP_FLASH_START
      ∧ (parse_srec_line s.srec_line s.record).2.address ≤ APP_FLASH_END) := by
    have e1 : APP_FLASH_START = 40960 := rfl
    have e2 : APP_FLASH_END = 524287 := rfl
    rw [e1, e2]; omega
  unfold process_line process_data
  simp only [hret, hvalid, ne_eq, not_false_eq_true, and_self, if_true, htype, hreg,
    if_false, Option.map_some']
  congr 1
  unfold process_end
  simp only [hne, if_false]

theorem out_of_window_record_ignored_witness :
    (parsed_record { boot_state0 with srec_line := line_below_window }).valid ≠ 0 ∧
      (parsed_record { boot_state0 with srec_line := line_below_window }).address = 0 ∧
      ∃ s', process_line 9 { boot_state0 with srec_line := line_below_window } = some s' ∧
        s'.programs = [] ∧ s'.pending_valid = 0 ∧ s'.pending_base = 0 ∧
        s'.pending_low4 = (fun _ => 0) :=
  ⟨by decide, by decide,
    out_of_window_record_ignored 9 { boot_state0 with srec_line := line_below_window }
      (by decide) (by decide) (by decide) (by decide)⟩

/-! ### C13 -/

/-- C13, the code at the failing input. The checksum-valid S2 record
`S21407FFF8000102030405060708090A0B0C0D0E0F75` starts inside the application window, at
0x7FFF8, and carries 16 bytes. The loop body of `Bootloader_Mode` issues two program
calls for it, the second at 0x80000, which lies past `APP_FLASH_END` = 0x7FFFF. -/
theorem straddling_record_programs_past_window (fuel : Nat) (s : BootState) :
    (parse_srec_line (line_of text_straddle) s.record).1 = 0 ∧
      (parse_srec_line (line_of text_straddle) s.record).2.valid = 1 ∧
      (parse_srec_line (line_of text_straddle) s.record).2.address = 0x7FFF8 ∧
      APP_FLASH_START ≤ 0x7FFF8 ∧ 0x7FFF8 ≤ APP_FLASH_END ∧
      APP_FLASH_END < 0x80000 ∧
      ∃ s', process_line (fuel + 3) { s with srec_line := line_of text_straddle } = some s' ∧
        s'.programs = s.programs ++
          [(0x7FFF8, [0, 1, 2, 3, 4, 5, 6, 7]), (0x80000, [8, 9, 10, 11, 12, 13, 14, 15])] := by
  have hline : is_record_line text_straddle 2 0x7FFF8
      [0, 1, 2, 3, 4, 5, 6, 7, 8, 9, 10, 11, 12, 13, 14, 15] := by decide
  obtain ⟨r1, r2, r3, r4, r5, r6⟩ := parse_record_line (line_of text_straddle) s.record
    text_straddle 2 0x7FFF8 [0, 1, 2, 3, 4, 5, 6, 7, 8, 9, 10, 11, 12, 13, 14, 15]
    (by decide) hline (fun i _ => rfl)
  refine ⟨r1, r6, r3, by decide, by decide, by decide, ?_⟩
  have hne : ¬ ((parse_srec_line (line_of text_straddle) s.record).2.type = 7
      ∨ (parse_srec_line (line_of text_straddle) s.record).2.type = 8
      ∨ (parse_srec_line (line_of text_straddle) s.record).2.type = 9) := by
    rw [r2]; decide
  have hin : (524280 : Nat) ≥ APP_FLASH_START ∧ (524280 : Nat) ≤ APP_FLASH_END := by decide
  have h1 : process_line (fuel + 3) { s with srec_line := line_of text_straddle }
      = some (process_end (Program_LongWord_8B 0x80000
          (advance (parse_srec_line (line_of text_straddle) s.record).2.data 8)
          (Program_LongWord_8B 0x7FFF8 (parse_srec_line (line_of text_straddle) s.record).2.data
            { s with srec_line := line_of text_straddle,
                     record := (parse_srec_line (line_of text_straddle) s.record).2 }))) := by
    unfold process_line process_data
    simp only [r1, r6, r2, r3, r4, ne_eq, one_ne_zero, not_false_eq_true, and_self, if_true,
      Nat.cast_ofNat, true_or, or_true, hin, List.length_cons, List.length_nil]
    rw [write_loop_case_c _ _ _ _ _ (by decide) (by decide),
      write_loop_case_c _ _ _ _ _ (by decide) (by decide), write_loop_done]
    rfl
  refine ⟨_, h1, ?_⟩
  have d : ∀ i, i < 16 → (parse_srec_line (line_of text_straddle) s.record).2.data i
      = [0, 1, 2, 3, 4, 5, 6, 7, 8, 9, 10, 11, 12, 13, 14, 15].getD i 0 :=
    fun i hi => r5 i hi
  simp only [process_end, hne, if_false, Program_LongWord_8B, advance, List.append_assoc,
    List.singleton_append]
  rw [d 0 (by decide), d 1 (by decide), d 2 (by decide), d 3 (by decide), d 4 (by decide),
    d 5 (by decide), d 6 (by decide), d 7 (by decide), d (8 + 0) (by decide),
    d (8 + 1) (by decide), d (8 + 2) (by decide), d (8 + 3) (by decide),
    d (8 + 4) (by decide), d (8 + 5) (by decide), d (8 + 6) (by decide),
    d (8 + 7) (by decide)]
  rfl

/-! ### C14 -/

/-- C14. In every state reached from `UART_BufferInit` by any sequence of
`UART_BufferPush` and `UART_BufferPop` calls the count is at most 200
(`UART_QUEUE_SIZE`) and `head` and `tail` are indices below 200. -/
theorem uart_capacity_invariant (ops : List UartOp) (q : UartBuffer) :
    (uart_run ops q).q.count ≤ UART_QUEUE_SIZE ∧ (uart_run ops q).q.head < 200 ∧
      (uart_run ops q).q.tail < 200 := by
  obtain ⟨⟨h1, h2, h3⟩, -⟩ := uart_run_inv ops q
  refine ⟨h1, ?_, h2⟩
  rw [h3]
  exact Nat.mod_lt _ (by decide)

/-! ### C15 -/

/-- C15. On a byte queue holding 200 bytes `UART_BufferPush(b)` returns false and
leaves the stored bytes, `head`, `tail` and `count` as they were; on a queue holding
fewer than 200 bytes it returns true and `count` grows by exactly one. -/
theorem uart_push_full_or_grows (q : UartBuffer) (b : Nat) :
    (q.count = 200 → UART_BufferPush q b = (false, q)) ∧
      (q.count < 200 → (UART_BufferPush q b).1 = true ∧
        (UART_BufferPush q b).2.count = q.count + 1) := by
  constructor
  · intro h
    exact uart_push_full q b (by omega)
  · intro h
    have hn : ¬ q.count ≥ 200 := by omega
    have hm : (q.count + 1) % 65536 = q.count + 1 := by omega
    simp only [UART_BufferPush, UART_QUEUE_SIZE, hn, if_false, hm, and_self]

theorem uart_push_full_or_grows_witness :
    uart_full.count = 200 ∧ UART_BufferPush uart_full 90 = (false, uart_full) ∧
      uart_empty.count < 200 ∧ (UART_BufferPush uart_empty 90).1 = true ∧
      (UART_BufferPush uart_empty 90).2.count = uart_empty.count + 1 :=
  ⟨rfl, (uart_push_full_or_grows uart_full 90).1 rfl, by decide,
    (uart_push_full_or_grows uart_empty 90).2 (by decide)⟩

/-! ### C16 -/

/-- C16. For every sequence of `UART_BufferPush` and `UART_BufferPop` calls starting
from `UART_BufferInit`, the bytes returned by the successful pops, in order, are a
prefix of the bytes accepted by the successful pushes, in order; pushing n ≤ 200 bytes
and then popping n times returns those bytes in the same order; and a pop on an empty
queue returns false. -/
theorem uart_fifo_order (q : UartBuffer) :
    (∀ ops : List UartOp, (uart_run ops q).popped <+: (uart_run ops q).accepted) ∧
      (∀ bs : List Nat, bs.length ≤ 200 →
        (uart_run (bs.map UartOp.push ++ List.replicate bs.length UartOp.pop) q).popped = bs) ∧
      (q.count = 0 → (UART_BufferPop q).1 = false) := by
  refine ⟨?_, ?_, ?_⟩
  · intro ops
    exact ⟨uart_contents (uart_run ops q).q, (uart_run_inv ops q).2⟩
  · intro bs hlen
    have h0 : UartRunInv { q := UART_BufferInit q, accepted := [], popped := [] } :=
      ⟨(uart_init_wf q).1, by simp [(uart_init_wf q).2]⟩
    obtain ⟨a1, a2, a3⟩ := uart_push_all bs _ h0 (by simpa [UART_BufferInit] using hlen)
    have h1 := uart_foldl_inv (bs.map UartOp.push) _ h0
    obtain ⟨b1, b2⟩ := uart_pop_all bs.length _ h1 (by rw [a3]; omega)
    have h2 := uart_foldl_inv (List.replicate bs.length UartOp.pop) _ h1
    unfold uart_run
    rw [List.foldl_append]
    obtain ⟨-, hc⟩ := h2
    rw [b1, a1] at hc
    have hz : uart_contents ((List.replicate bs.length UartOp.pop).foldl uart_step
        ((bs.map UartOp.push).foldl uart_step
          { q := UART_BufferInit q, accepted := [], popped := [] })).q = [] := by
      unfold uart_contents
      rw [b2, a3]
      simp [UART_BufferInit]
    rw [hz] at hc
    simpa using hc
  · intro h
    rw [uart_pop_empty q h]

theorem uart_fifo_order_witness :
    ([65, 66, 67] : List Nat).length ≤ 200 ∧
      (uart_run ([65, 66, 67].map UartOp.push
        ++ List.replicate ([65, 66, 67] : List Nat).length UartOp.pop) uart_empty).popped
        = [65, 66, 67] ∧
      uart_empty.count = 0 ∧ (UART_BufferPop uart_empty).1 = false :=
  ⟨by decide, (uart_fifo_order uart_empty).2.1 [65, 66, 67] (by decide), rfl,
    (uart_fifo_order uart_empty).2.2 rfl⟩

/-! ### C17 -/

/-- C17. In every state reached from `SREC_QueueInit` by any sequence of
`SREC_QueuePush` and `SREC_QueuePop` calls the number of stored lines is at most 4
(`SREC_MAX_LINES`); and `SREC_QueuePop` on an empty queue returns false and leaves the
queue (and the caller's buffer) unchanged. -/
theorem srec_depth_invariant (ops : List SrecOp) (q : SrecQueue) (out : Nat → Nat) :
    (srec_run ops q out).q.count ≤ SREC_MAX_LINES ∧
      ∀ (q' : SrecQueue) (out' : Nat → Nat), q'.count = 0 →
        SREC_QueuePop q' out' = (false, q', out') :=
  ⟨(srec_run_inv ops q out).1.1, fun q' out' h => srec_pop_empty q' out' h⟩

theorem srec_depth_invariant_witness :
    srec_empty.count = 0 ∧
      SREC_QueuePop srec_empty line_s9 = (false, srec_empty, line_s9) :=
  ⟨rfl, (srec_depth_invariant [] srec_empty line_s9).2 srec_empty line_s9 rfl⟩

/-! ### C18 -/

/-- C18. On a record queue holding 4 lines, `SREC_QueuePush` of any line returns false
and leaves the rows, `head`, `tail` and `count` as they were, and the next four pops
return the four lines that were stored before the failed push, oldest first. -/
theorem srec_full_push_rejected (q : SrecQueue) (line out : Nat → Nat)
    (hfull : q.count = 4) (htail : q.tail < 4) :
    SREC_QueuePush q line = (false, q) ∧
      ((List.replicate 4 SrecOp.pop).foldl srec_step
          { q := (SREC_QueuePush q line).2, out_line := out, accepted := [], popped := [] }).popped
        = [c_string (q.srec_buf q.tail), c_string (q.srec_buf ((q.tail + 1) % 4)),
           c_string (q.srec_buf ((q.tail + 2) % 4)), c_string (q.srec_buf ((q.tail + 3) % 4))] := by
  have e := srec_push_full q line (by omega)
  refine ⟨e, ?_⟩
  rw [e]
  rw [srec_pop_all 4 { q := q, out_line := out, accepted := [], popped := [] } htail
    (by show 4 ≤ q.count; omega)]
  simp only [List.nil_append, srec_contents, hfull]
  simp [List.range_succ, Nat.mod_eq_of_lt htail]

theorem srec_full_push_rejected_witness :
    srec_full.count = 4 ∧ srec_full.tail < 4 ∧
      SREC_QueuePush srec_full line_s9 = (false, srec_full) ∧
      ((List.replicate 4 SrecOp.pop).foldl srec_step
          { q := (SREC_QueuePush srec_full line_s9).2, out_line := line_s9,
            accepted := [], popped := [] }).popped
        = [c_string (srec_full.srec_buf srec_full.tail),
           c_string (srec_full.srec_buf ((srec_full.tail + 1) % 4)),
           c_string (srec_full.srec_buf ((srec_full.tail + 2) % 4)),
           c_string (srec_full.srec_buf ((srec_full.tail + 3) % 4))] :=
  ⟨rfl, by decide, srec_full_push_rejected srec_full line_s9 line_s9 rfl (by decide)⟩

/-! ### C19 -/

/-- C19. For every sequence of `SREC_QueuePush` and `SREC_QueuePop` calls starting from
`SREC_QueueInit` in which every pushed line is a NUL-terminated string of at most 255
characters, every line accepted by a successful push is recorded with all its
characters, and the lines returned by the successful pops, in order, are a prefix of the
lines accepted by the successful pushes, in order. -/
theorem srec_fifo_round_trip (ops : List SrecOp) (q : SrecQueue) (out : Nat → Nat)
    (hlines : ∀ line, SrecOp.push line ∈ ops → ∃ l, IsCString line l) :
    (srec_run ops q out).popped <+: (srec_run ops q out).accepted ∧
      ∀ a ∈ (srec_run ops q out).accepted,
        ∃ line, SrecOp.push line ∈ ops ∧ IsCString line a := by
  refine ⟨⟨srec_contents (srec_run ops q out).q, (srec_run_inv ops q out).2⟩, ?_⟩
  intro a ha
  rcases srec_accepted_from_ops ops _ a ha with h | ⟨line, hl, e⟩
  · cases h
  · obtain ⟨l, hcs⟩ := hlines line hl
    refine ⟨line, hl, ?_⟩
    rw [e, c_string_of_text line l hcs]
    exact hcs

theorem srec_fifo_round_trip_witness :
    (∀ line, SrecOp.push line ∈ [SrecOp.push line_s9, SrecOp.push line_s1_low4, SrecOp.pop] →
        ∃ l, IsCString line l) ∧
      (srec_run [SrecOp.push line_s9, SrecOp.push line_s1_low4, SrecOp.pop]
          srec_empty line_no_marker).popped
        <+: (srec_run [SrecOp.push line_s9, SrecOp.push line_s1_low4, SrecOp.pop]
          srec_empty line_no_marker).accepted ∧
      ∀ a ∈ (srec_run [SrecOp.push line_s9, SrecOp.push line_s1_low4, SrecOp.pop]
          srec_empty line_no_marker).accepted,
        ∃ line, SrecOp.push line ∈ [SrecOp.push line_s9, SrecOp.push line_s1_low4, SrecOp.pop]
          ∧ IsCString line a := by
  have h : ∀ line, SrecOp.push line
      ∈ [SrecOp.push line_s9, SrecOp.push line_s1_low4, SrecOp.pop] →
      ∃ l, IsCString line l := by
    intro line hmem
    simp only [List.mem_cons, SrecOp.push.injEq, List.mem_singleton, reduceCtorEq,
      or_false, List.mem_nil_iff] at hmem
    rcases hmem with e | e
    · exact ⟨[83, 57, 48, 51, 48, 48, 48, 48, 70, 67], by rw [e]; decide⟩
    · exact ⟨[83, 49, 48, 55, 65, 48, 48, 48, 48, 49, 48, 50, 48, 51, 48, 52, 52, 69],
        by rw [e]; decide⟩
  exact ⟨h, srec_fifo_round_trip _ srec_empty line_no_marker h⟩

/-! ### C20 -/

/-- C20, counterexample. The byte stream `S`, NUL, `A`, newline is one line of three
bytes starting with `S`, yet the line the assembler passes to `SREC_QueuePush` is the
C string `S`: the content after the NUL byte is lost. -/
theorem nul_byte_truncates_line :
    (∀ l ∈ [[83, 0, 65]], l.length ≤ 255 ∧ ∀ c ∈ l, c ≠ 10) ∧
      UartIdle boot_state0 ∧ boot_state0.line_pos = 0 ∧
      emitted_lines [[83, 0, 65]] = [[83, 0, 65]] ∧
      (assembler_run (join_lines [[83, 0, 65]]) boot_state0).2 = [[83]] := by
  have h : ∀ l ∈ [[83, 0, 65]], l.length ≤ 255 ∧ ∀ c ∈ l, c ≠ 10 := by decide
  refine ⟨h, by decide, rfl, by decide, ?_⟩
  rw [(assembler_lines [[83, 0, 65]] boot_state0 (by decide) rfl h).1]
  decide

/-- C20, amended. Take a byte stream made of newline-terminated lines of at most 255
bytes each, none containing a NUL byte, followed by any bytes not yet terminated by a
newline. The lines the assembler in `Bootloader_Mode` passes to `SREC_QueuePush` are
exactly the non-empty lines whose first character is `S`, in arrival order and with
their content unchanged; empty lines and lines starting with another character are
discarded, and the accumulator is empty again after every line. -/
theorem assembler_emits_marked_lines (ls : List (List Nat)) (rest : List Nat) (s : BootState)
    (hlines : ∀ l ∈ ls, l.length ≤ 255 ∧ ∀ c ∈ l, c ≠ 10 ∧ c ≠ 0)
    (hrest : ∀ c ∈ rest, c ≠ 10)
    (hq : UartIdle s) (hpos : s.line_pos = 0) :
    (assembler_run (join_lines ls ++ rest) s).2 = emitted_lines ls ∧
      (assembler_run (join_lines ls) s).1.line_pos = 0 := by
  obtain ⟨a1, a2, a3⟩ := assembler_lines ls s hq hpos
    (fun l hl => ⟨(hlines l hl).1, fun c hc => ((hlines l hl).2 c hc).1⟩)
  refine ⟨?_, a3⟩
  rw [assembler_run_append, assembler_unterminated rest _ a2 hrest, List.append_nil]
  rw [a1]
  have hid : ∀ l ∈ emitted_lines ls, c_string (line_of l) = l := by
    intro l hl
    have hmem : l ∈ ls := (List.mem_filter.mp hl).1
    obtain ⟨h1, h2⟩ := hlines l hmem
    apply c_string_of_text
    refine ⟨h1, fun i hi => ⟨rfl, ?_⟩, ?_⟩
    · rw [List.getD_eq_getElem _ _ hi]
      exact (h2 _ (List.getElem_mem hi)).2
    · simp [line_of]
  rw [List.map_congr_left hid]
  simp

theorem assembler_emits_marked_lines_witness :
    (∀ l ∈ [[83, 49], [], [88, 49], [83, 57]],
        l.length ≤ 255 ∧ ∀ c ∈ l, c ≠ 10 ∧ c ≠ 0) ∧
      UartIdle boot_state0 ∧ boot_state0.line_pos = 0 ∧
      emitted_lines [[83, 49], [], [88, 49], [83, 57]] = [[83, 49], [83, 57]] ∧
      (assembler_run (join_lines [[83, 49], [], [88, 49], [83, 57]] ++ [83, 55])
          boot_state0).2
        = emitted_lines [[83, 49], [], [88, 49], [83, 57]] ∧
      (assembler_run (join_lines [[83, 49], [], [88, 49], [83, 57]])
        boot_state0).1.line_pos = 0 :=
  ⟨by decide, by decide, rfl, by decide,
    assembler_emits_marked_lines [[83, 49], [], [88, 49], [83, 57]] [83, 55] boot_state0
      (by decide) (by decide) (by decide) rfl⟩

/-! ### C21 -/

set_option maxRecDepth 100000 in
/-- C21, counterexample. The line `overlong_line` has 266 bytes before its newline:
256 letters `A` followed by the text `S9030000FC`. The assembler resets its accumulator
at the 256th byte and collects the rest as if a new line had begun, so the text
`S9030000FC`, bytes of the over-long line, is passed to `SREC_QueuePush`. -/
theorem overlong_line_tail_delivered :
    overlong_line.length = 266 ∧ (∀ c ∈ overlong_line, c ≠ 10) ∧
      UartIdle boot_state0 ∧ boot_state0.line_pos = 0 ∧
      (assembler_run (overlong_line ++ [10]) boot_state0).2 = [text_s9] := by
  have h : ∀ c ∈ overlong_line, c ≠ 10 := by decide
  refine ⟨by decide, h, by decide, rfl, ?_⟩
  rw [(assembler_long_line 266 overlong_line boot_state0 (by decide) (by decide) rfl h).1]
  have hrest : overflow_rest overlong_line = text_s9 := by decide
  rw [hrest, if_pos (by decide)]
  rw [c_string_of_text (line_of text_s9) text_s9 (by decide)]

/-- C21, amended. Take a byte stream made of newline-terminated lines of any length,
none containing a NUL byte, followed by any bytes not yet terminated by a newline. Of
a line of `n` bytes the assembler in `Bootloader_Mode` keeps only the bytes after the
last complete block of 256 bytes (`overflow_rest`, the whole line when `n ≤ 255`): the
first `256 * (n / 256)` bytes of an over-long line are never passed to
`SREC_QueuePush`, and the remaining bytes are passed on, unchanged, exactly when they
are non-empty and start with `S`. -/
theorem overlong_line_keeps_only_rest (ls : List (List Nat)) (rest : List Nat) (s : BootState)
    (hlines : ∀ l ∈ ls, ∀ c ∈ l, c ≠ 10 ∧ c ≠ 0)
    (hrest : ∀ c ∈ rest, c ≠ 10)
    (hq : UartIdle s) (hpos : s.line_pos = 0) :
    (assembler_run (join_lines ls ++ rest) s).2 = emitted_lines (ls.map overflow_rest) ∧
      (assembler_run (join_lines ls) s).1.line_pos = 0 := by
  have key : ∀ (ls : List (List Nat)) (s : BootState),
      (∀ l ∈ ls, ∀ c ∈ l, c ≠ 10 ∧ c ≠ 0) → UartIdle s → s.line_pos = 0 →
      (assembler_run (join_lines ls) s).2 = emitted_lines (ls.map overflow_rest) ∧
        UartIdle (assembler_run (join_lines ls) s).1 ∧
        (assembler_run (join_lines ls) s).1.line_pos = 0 := by
    intro ls
    induction ls with
    | nil => intro s _ hq hpos; exact ⟨rfl, hq, hpos⟩
    | cons l ls ih =>
      intro s hl hq hpos
      have hl0 := hl l (List.mem_cons_self l ls)
      obtain ⟨a1, a2, a3⟩ := assembler_long_line l.length l s (Nat.le_refl _) hq hpos
        (fun c hc => (hl0 c hc).1)
      obtain ⟨b1, b2, b3⟩ := ih (assembler_run (l ++ [10]) s).1
        (fun x hx => hl x (List.mem_cons_of_mem l hx)) a2 a3
      simp only [join_lines]
      rw [assembler_run_append, a1, b1]
      refine ⟨?_, b2, b3⟩
      have hid : c_string (line_of (overflow_rest l)) = overflow_rest l := by
        apply c_string_of_text
        refine ⟨overflow_rest_length l, fun i hi => ⟨rfl, ?_⟩, ?_⟩
        · rw [List.getD_eq_getElem _ _ hi]
          exact (hl0 _ (overflow_rest_mem l _ (List.getElem_mem hi))).2
        · simp [line_of]
      rw [hid, List.map_cons]
      unfold emitted_lines
      by_cases hc : overflow_rest l ≠ [] ∧ (overflow_rest l).getD 0 0 = 83
      · rw [if_pos hc, List.filter_cons_of_pos
          (p := fun l : List Nat => decide (l ≠ [] ∧ l.getD 0 0 = 83)) (decide_eq_true hc)]
        rfl
      · rw [if_neg hc, List.filter_cons_of_neg
          (p := fun l : List Nat => decide (l ≠ [] ∧ l.getD 0 0 = 83)) (by simpa using hc)]
        rfl
  obtain ⟨a1, a2, a3⟩ := key ls s hlines hq hpos
  refine ⟨?_, a3⟩
  rw [assembler_run_append, assembler_unterminated rest _ a2 hrest, List.append_nil, a1]

set_option maxRecDepth 100000 in
theorem overlong_line_keeps_only_rest_witness :
    (∀ l ∈ [[83, 49], List.replicate 256 83 ++ [88, 49], overlong_line],
        ∀ c ∈ l, c ≠ 10 ∧ c ≠ 0) ∧
      UartIdle boot_state0 ∧ boot_state0.line_pos = 0 ∧
      emitted_lines ([[83, 49], List.replicate 256 83 ++ [88, 49], overlong_line].map
        overflow_rest) = [[83, 49], text_s9] ∧
      (assembler_run (join_lines [[83, 49], List.replicate 256 83 ++ [88, 49], overlong_line]
          ++ [83, 55]) boot_state0).2
        = emitted_lines ([[83, 49], List.replicate 256 83 ++ [88, 49], overlong_line].map
            overflow_rest) ∧
      (assembler_run (join_lines [[83, 49], List.replicate 256 83 ++ [88, 49], overlong_line])
        boot_state0).1.line_pos = 0 :=
  ⟨by decide, by decide, rfl, by decide,
    overlong_line_keeps_only_rest [[83, 49], List.replicate 256 83 ++ [88, 49], overlong_line]
      [83, 55] boot_state0 (by decide) (by decide) (by decide) rfl⟩

/-! ### C22 -/

/-- C22. Let w0 and w1 be the words read at `APP_FLASH_START` and `APP_FLASH_START + 4`.
If either is 0xFFFFFFFF, `jump_to_app` sends the failure message and returns, and no
event of the call writes VTOR, MSP or PSP or calls the application. Otherwise the call
writes `APP_FLASH_START` to VTOR, then w0 to MSP and to PSP, then calls the function at
w1 and does not return; it sends no failure message. -/
theorem jump_validates_vector_table (word_at : Nat → Nat) :
    ((word_at APP_FLASH_START = 0xFFFFFFFF ∨ word_at (APP_FLASH_START + 4) = 0xFFFFFFFF) →
        BootEvent.send BootText.app_not_valid ∈ (jump_to_app word_at).1 ∧
        (jump_to_app word_at).2 = true ∧
        ∀ e ∈ (jump_to_app word_at).1, is_jump_event e = false) ∧
      (¬ (word_at APP_FLASH_START = 0xFFFFFFFF ∨ word_at (APP_FLASH_START + 4) = 0xFFFFFFFF) →
        (jump_to_app word_at).1 =
          [BootEvent.send BootText.jumping_to_app, BootEvent.write_vtor APP_FLASH_START,
           BootEvent.set_msp (word_at APP_FLASH_START),
           BootEvent.set_psp (word_at APP_FLASH_START),
           BootEvent.call_app (word_at (APP_FLASH_START + 4))] ∧
        (jump_to_app word_at).2 = false) := by
  constructor
  · intro h
    have hj : jump_to_app word_at
        = ([BootEvent.send BootText.jumping_to_app, BootEvent.send BootText.app_not_valid],
           true) := if_pos h
    rw [hj]
    refine ⟨by simp, rfl, ?_⟩
    intro e he
    simp only [List.mem_cons, List.mem_singleton, List.not_mem_nil, or_false] at he
    rcases he with rfl | rfl <;> rfl
  · intro h
    have hj : jump_to_app word_at
        = ([BootEvent.send BootText.jumping_to_app, BootEvent.write_vtor APP_FLASH_START,
            BootEvent.set_msp (word_at APP_FLASH_START),
            BootEvent.set_psp (word_at APP_FLASH_START),
            BootEvent.call_app (word_at (APP_FLASH_START + 4))], false) := if_neg h
    rw [hj]
    exact ⟨rfl, rfl⟩

/-! ### C23 -/

/-- C23. When the button pin reads not-asserted (a non-zero level, the button being
active low), `main` goes from the mode decision to `jump_to_app` with nothing in
between but the message `Button not pressed`: the events of the run up to the loop are
`BOOT READY`, that message and the events of `jump_to_app`, none of them an erase or a
program command, and the byte queue, record queue, line accumulator and pending half
are those `UART_Init` left. -/
theorem not_pressed_goes_straight_to_jump (input : Nat) (word_at : Nat → Nat) (s : BootState)
    (hinput : input ≠ 0) :
    (main_start input word_at s).events
        = [BootEvent.send BootText.boot_ready]
          ++ [BootEvent.send BootText.button_not_pressed] ++ (jump_to_app word_at).1 ∧
      (∀ e ∈ (main_start input word_at s).events, is_flash_event e = false) ∧
      (main_start input word_at s).state = UART_Init s ∧
      (main_start input word_at s).in_loop = (jump_to_app word_at).2 := by
  have hb : Button_Pressed input = 0 := by simp [Button_Pressed, hinput]
  have hm : main_start input word_at s
      = { events := [BootEvent.send BootText.boot_ready,
                     BootEvent.send BootText.button_not_pressed] ++ (jump_to_app word_at).1,
          state := UART_Init s,
          in_loop := (jump_to_app word_at).2 } := if_pos hb
  rw [hm]
  refine ⟨rfl, ?_, rfl, rfl⟩
  intro e he
  by_cases hv : word_at APP_FLASH_START = 0xFFFFFFFF ∨ word_at (APP_FLASH_START + 4) = 0xFFFFFFFF
  · have hj : jump_to_app word_at
        = ([BootEvent.send BootText.jumping_to_app, BootEvent.send BootText.app_not_valid],
           true) := if_pos hv
    rw [hj] at he
    simp only [List.cons_append, List.nil_append, List.mem_cons, List.mem_singleton,
      List.not_mem_nil, or_false] at he
    rcases he with rfl | rfl | rfl | rfl <;> rfl
  · have hj : jump_to_app word_at
        = ([BootEvent.send BootText.jumping_to_app, BootEvent.write_vtor APP_FLASH_START,
            BootEvent.set_msp (word_at APP_FLASH_START),
            BootEvent.set_psp (word_at APP_FLASH_START),
            BootEvent.call_app (word_at (APP_FLASH_START + 4))], false) := if_neg hv
    rw [hj] at he
    simp only [List.cons_append, List.nil_append, List.mem_cons, List.mem_singleton,
      List.not_mem_nil, or_false] at he
    rcases he with rfl | rfl | rfl | rfl | rfl | rfl | rfl <;> rfl

theorem not_pressed_goes_straight_to_jump_witness :
    (1 : Nat) ≠ 0 ∧
      (main_start 1 flash_with_app boot_state0).events
        = [BootEvent.send BootText.boot_ready]
          ++ [BootEvent.send BootText.button_not_pressed] ++ (jump_to_app flash_with_app).1 ∧
      (∀ e ∈ (main_start 1 flash_with_app boot_state0).events, is_flash_event e = false) ∧
      (main_start 1 flash_with_app boot_state0).state = UART_Init boot_state0 ∧
      (main_start 1 flash_with_app boot_state0).in_loop = (jump_to_app flash_with_app).2 :=
  ⟨by decide, not_pressed_goes_straight_to_jump 1 flash_with_app boot_state0 (by decide)⟩

/-! ### C24 -/

/-- C24. `Erase_Multi_Sector(Addr, Size)` calls `Erase_Sector` exactly `Size` times (the
`uint8_t` value of the count), for `i = 0 .. Size - 1` in ascending order, with the
`uint32_t` value of `Addr + i * 4096`, which is `Addr + i * 4096` itself when the range
ends within the 32-bit address space. The count `APP_SECTOR_COUNT` that `main` passes
is 118 and is unchanged by the conversion to `uint8_t`; the 118 erases of that call are
at 0xA000 + i * 4096, and the sectors they erase are exactly the addresses of the
window `APP_FLASH_START .. APP_FLASH_END`, that is [0x0000A000, 0x00080000). -/
theorem erase_covers_whole_window :
    (∀ Addr Size : Nat, Erase_Multi_Sector Addr Size
        = (List.range (Size % 256)).map (fun i => (Addr + i * 4096) % 4294967296)) ∧
      (∀ Addr Size : Nat, Size < 256 → Addr + Size * 4096 ≤ 4294967296 →
        Erase_Multi_Sector Addr Size = (List.range Size).map (fun i => Addr + i * 4096)) ∧
      APP_SECTOR_COUNT = 118 ∧ APP_SECTOR_COUNT % 256 = APP_SECTOR_COUNT ∧
      Erase_Multi_Sector APP_FLASH_START APP_SECTOR_COUNT
        = (List.range 118).map (fun i => 0xA000 + i * 4096) ∧
      APP_FLASH_START = 0xA000 ∧ APP_FLASH_END + 1 = 0x80000 ∧
      ∀ a, sector_erased (Erase_Multi_Sector APP_FLASH_START APP_SECTOR_COUNT) a
        ↔ APP_FLASH_START ≤ a ∧ a ≤ APP_FLASH_END := by
  have hgen : ∀ Addr Size : Nat, Size < 256 → Addr + Size * 4096 ≤ 4294967296 →
      Erase_Multi_Sector Addr Size = (List.range Size).map (fun i => Addr + i * 4096) := by
    intro Addr Size hS hA
    rw [erase_multi_spec, Nat.mod_eq_of_lt hS]
    apply List.map_congr_left
    intro i hi
    have := List.mem_range.mp hi
    exact Nat.mod_eq_of_lt (by nlinarith)
  have hmain : Erase_Multi_Sector APP_FLASH_START APP_SECTOR_COUNT
      = (List.range 118).map (fun i => 0xA000 + i * 4096) :=
    hgen 0xA000 118 (by norm_num) (by norm_num)
  refine ⟨erase_multi_spec, hgen, by decide, by decide, hmain, rfl, by decide, ?_⟩
  intro a
  rw [hmain]
  unfold sector_erased
  simp only [List.mem_map, List.mem_range, FTFC_P_FLASH_SECTOR_SIZE, APP_FLASH_START,
    APP_FLASH_END, APP_FLASH_LENGTH]
  constructor
  · rintro ⟨c, ⟨i, hi, rfl⟩, hc⟩
    omega
  · intro ha
    exact ⟨0xA000 + (a / 4096 - 10) * 4096, ⟨a / 4096 - 10, by omega, rfl⟩, by omega⟩

/-! ### C25 -/

/-- C25, the code at the failing input. The button pin reads not pressed and the flash
is blank, so `jump_to_app` reports `APP not valid` and returns; `main` then falls into
its loop. When the receive interrupt delivers the record `S10BA000010203040506070830`
and a newline, one byte per pass, `Bootloader_Mode` programs the 8 bytes at 0xA000:
the run has a `Program_LongWord_8B` call and no `Erase_Sector` call at all (nor the
load of the flash access code). -/
theorem failed_jump_programs_without_erase :
    Button_Pressed 1 = 0 ∧ flash_blank APP_FLASH_START = 0xFFFFFFFF ∧
      main 3 1 flash_blank (one_per_pass (text_s1_8 ++ [10])) boot_state0
        = some [BootEvent.send BootText.boot_ready,
                BootEvent.send BootText.button_not_pressed,
                BootEvent.send BootText.jumping_to_app,
                BootEvent.send BootText.app_not_valid,
                BootEvent.program 0xA000 [1, 2, 3, 4, 5, 6, 7, 8]] := by
  refine ⟨rfl, rfl, ?_⟩
  have hstart : main_start 1 flash_blank boot_state0
      = { events := [BootEvent.send BootText.boot_ready,
                     BootEvent.send BootText.button_not_pressed,
                     BootEvent.send BootText.jumping_to_app,
                     BootEvent.send BootText.app_not_valid],
          state := UART_Init boot_state0, in_loop := true } := rfl
  obtain ⟨s', h1, h2⟩ := feed_aligned8_record 0 (UART_Init boot_state0) text_s1_8 1 0xA000
    [1, 2, 3, 4, 5, 6, 7, 8] (by decide) rfl (by decide) (by decide) (by decide)
    (by decide) (by decide) (by decide) rfl
  unfold main
  rw [hstart]
  simp only [if_true]
  rw [main_loop_one_per_pass, h1, Option.map_some', h2]
  rfl

/-! ### C26 -/

/-- C26. One iteration of the loop `while (len > 0U)` with `addr % 8 = 4` and at least 4
bytes left (`addr + 4` within the 32-bit address space, as it is for every address the
loop reaches from a record inside the window): exactly one `Program_LongWord_8B` call
is added, at `addr - 4`, whose low half is `pending_low4` when a half is pending with
that base and four times 0xFF otherwise, and whose high half is the next 4 payload
bytes; afterwards nothing is pending and `addr`, `p` and `len` have moved by exactly 4.
The loop continues from exactly that configuration. -/
theorem case_b_merges_or_pads (addr len : Nat) (p : Nat → Nat) (s : BootState)
    (hoff : addr % 8 = 4) (hlen : 4 ≤ len) (haddr : addr + 4 < 4294967296) :
    (write_step addr len p s).s.programs = s.programs ++
        [(addr - 4, (if s.pending_valid ≠ 0 ∧ s.pending_base = addr - 4
            then [s.pending_low4 0, s.pending_low4 1, s.pending_low4 2, s.pending_low4 3]
            else [255, 255, 255, 255]) ++ [p 0, p 1, p 2, p 3])] ∧
      (write_step addr len p s).s.pending_valid = 0 ∧
      (write_step addr len p s).addr = addr + 4 ∧
      (write_step addr len p s).len = len - 4 ∧
      (write_step addr len p s).p = advance p 4 ∧
      ∀ fuel, write_loop (fuel + 1) addr len p s
        = write_loop fuel (addr + 4) (len - 4) (advance p 4) (write_step addr len p s).s := by
  have hstep := write_step_case_b addr len p s hoff hlen
  have hmod : (addr + 4) % 4294967296 = addr + 4 := Nat.mod_eq_of_lt haddr
  refine ⟨?_, ?_, ?_, ?_, ?_, ?_⟩
  · rw [hstep]
    by_cases hm : s.pending_valid ≠ 0 ∧ s.pending_base = addr - 4
    · simp only [if_pos hm]
      rfl
    · simp only [if_neg hm]
      rfl
  · rw [hstep]
  · rw [hstep]; exact hmod
  · rw [hstep]
  · rw [hstep]
  · intro fuel
    rw [write_loop_step, if_neg (by omega)]
    rw [hstep]
    simp only [hmod]

theorem case_b_merges_or_pads_witness :
    0xA004 % 8 = 4 ∧ 4 ≤ 4 ∧ 0xA004 + 4 < 4294967296 ∧
      (write_step 0xA004 4 (line_of [5, 6, 7, 8]) state_pending).s.programs
        = state_pending.programs ++
          [(0xA004 - 4, (if state_pending.pending_valid ≠ 0
                ∧ state_pending.pending_base = 0xA004 - 4
              then [state_pending.pending_low4 0, state_pending.pending_low4 1,
                    state_pending.pending_low4 2, state_pending.pending_low4 3]
              else [255, 255, 255, 255])
            ++ [line_of [5, 6, 7, 8] 0, line_of [5, 6, 7, 8] 1, line_of [5, 6, 7, 8] 2,
                line_of [5, 6, 7, 8] 3])] ∧
      (write_step 0xA004 4 (line_of [5, 6, 7, 8]) state_pending).s.pending_valid = 0 :=
  ⟨by decide, by decide, by decide,
    (case_b_merges_or_pads 0xA004 4 (line_of [5, 6, 7, 8]) state_pending
      (by decide) (by decide) (by decide)).1,
    (case_b_merges_or_pads 0xA004 4 (line_of [5, 6, 7, 8]) state_pending
      (by decide) (by decide) (by decide)).2.1⟩

/-! ### C27 -/

/-- C27. Start the main loop in a state with no pending half and nothing programmed,
and let it make any number of passes of `Bootloader_Mode` over any received bytes. In
the state after the last pass a pending half has a base that is a multiple of 8, and
every `Program_LongWord_8B` call made (Case B, Case C and the end-of-file flush) has an
address that is a multiple of 8. The same invariant is kept by every single iteration
of the loop `while (len > 0U)`, so it also holds inside a pass that does not return. -/
theorem pending_base_and_programs_aligned (fuel : Nat) (sched : List (List Nat))
    (s s' : BootState) (hpend : s.pending_valid = 0) (hprog : s.programs = [])
    (hrun : main_loop fuel sched s = some s') :
    ((s'.pending_valid ≠ 0 → s'.pending_base % 8 = 0) ∧ ∀ op ∈ s'.programs, op.1 % 8 = 0) ∧
      ∀ (addr len : Nat) (p : Nat → Nat) (t : BootState),
        ((t.pending_valid ≠ 0 → t.pending_base % 8 = 0) ∧ ∀ op ∈ t.programs, op.1 % 8 = 0) →
        (((write_step addr len p t).s.pending_valid ≠ 0 →
            (write_step addr len p t).s.pending_base % 8 = 0) ∧
          ∀ op ∈ (write_step addr len p t).s.programs, op.1 % 8 = 0) := by
  have h0 : AlignInv s := by
    refine ⟨fun h => absurd hpend h, ?_⟩
    rw [hprog]
    intro op hop
    cases hop
  exact ⟨main_loop_align fuel sched s s' h0 hrun,
    fun addr len p t ht => write_step_align addr len p t ht⟩

theorem pending_base_and_programs_aligned_witness :
    ∃ s', main_loop 6 (one_per_pass (sent_low4.text ++ [10])) boot_state0 = some s' ∧
      s'.pending_valid = 1 ∧
      (s'.pending_valid ≠ 0 → s'.pending_base % 8 = 0) ∧ ∀ op ∈ s'.programs, op.1 % 8 = 0 := by
  obtain ⟨s', h1, -, -, h4⟩ := feed_record 0xA000 [1, 2, 3, 4] (by decide) (by decide)
    (by decide) 5 boot_state0 0 sent_low4 (by decide) rfl
    (EngineInv_init 0xA000 [1, 2, 3, 4] boot_state0 rfl rfl) (by decide) (by decide)
    (by decide) (by decide) (by decide) (by decide) (by decide)
  have hrun : main_loop 6 (one_per_pass (sent_low4.text ++ [10])) boot_state0 = some s' := by
    rw [main_loop_one_per_pass]; exact h1
  have hv : s'.pending_valid = 1 := by
    rcases h4.2 with h | h
    · exact absurd (h.2.1 (by decide)) (by decide)
    · exact h.1
  exact ⟨s', hrun, hv,
    (pending_base_and_programs_aligned 6 (one_per_pass (sent_low4.text ++ [10]))
      boot_state0 s' rfl rfl hrun).1⟩

/-! ### C28 -/

/-- C28, counterexample. Three checksum-valid records, each processed to completion:
4 bytes `01 02 03 04` for 0xA000, 4 bytes `05 06 07 08` for 0xA008 and the end-of-file
record. Case A stashes the first fragment (base 0xA000); Case A on the second record
overwrites it; the only program call of the whole transfer is the flush of the second
fragment at 0xA008. The fragment stashed for 0xA000 is never programmed. -/
theorem second_stash_overwrites_first :
    is_data_record placed_low4 ∧ is_data_record placed_next4 ∧ is_end_record placed_s9 ∧
      ∃ s1 s3, process_lines 2 [line_of placed_low4.text] boot_state0 = some s1 ∧
        s1.pending_valid = 1 ∧ s1.pending_base = 0xA000 ∧
        (List.range 4).map s1.pending_low4 = [1, 2, 3, 4] ∧
        process_lines 2
          ([placed_low4, placed_next4, placed_s9].map (fun r => line_of r.text)) boot_state0
            = some s3 ∧
        s3.programs = [(0xA008, [5, 6, 7, 8, 255, 255, 255, 255])] := by
  obtain ⟨c1, -, c3, -, c5⟩ := placed_check
  refine ⟨c1, c3, c5, ?_⟩
  obtain ⟨s1, a1, a2, a3, a4, a5⟩ := process_line_stash 0 boot_state0 placed_low4 c1
    (by decide) rfl
  obtain ⟨s2, b1, b2, b3, b4, b5⟩ := process_line_stash 0 s1 placed_next4 c3 (by decide) rfl
  obtain ⟨s3, d1, -, d3⟩ := process_line_end_exists 2 s2 placed_s9 c5
  refine ⟨s1, s3, ?_, a3, a4, ?_, ?_, ?_⟩
  · show (process_line 2 { boot_state0 with srec_line := line_of placed_low4.text }).bind
        (process_lines 2 []) = some s1
    rw [a1]; rfl
  · simp only [List.range_succ, List.range_zero, List.nil_append, List.cons_append,
      List.map_cons, List.map_nil]
    rw [a5 0 (by decide), a5 1 (by decide), a5 2 (by decide), a5 3 (by decide)]
    rfl
  · show (process_line 2 { boot_state0 with srec_line := line_of placed_low4.text }).bind
        (process_lines 2 [line_of placed_next4.text, line_of placed_s9.text]) = some s3
    rw [a1, Option.some_bind]
    show (process_line 2 { s1 with srec_line := line_of placed_next4.text }).bind
        (process_lines 2 [line_of placed_s9.text]) = some s3
    rw [b1, Option.some_bind]
    show (process_line 2 { s2 with srec_line := line_of placed_s9.text }).bind
        (process_lines 2 []) = some s3
    rw [d1]; rfl
  · rw [d3, b2, a2, b3, b4, b5 0 (by decide), b5 1 (by decide), b5 2 (by decide),
      b5 3 (by decide)]
    rfl

/-- C28, amended. Take a state in which a 4-byte fragment is pending (as Case A leaves
it: the base a multiple of 8), then checksum-valid in-region data records followed by a
checksum-valid end-of-transfer record, each processed to completion, such that the
data records leave the pending half alone until it is merged (`keeps_pending`): each is
programmed by Case C only (8-byte-aligned address, length a multiple of 8) until one
continues at base + 4 with at least 4 bytes. Then among the program calls made after
that state there is one at the pending base whose low half is the pending fragment:
the matching Case B merge, or else the end-of-transfer flush. -/
theorem kept_fragment_is_programmed (fuel : Nat) (recs : List PlacedRecord) (e : PlacedRecord)
    (s s' : BootState)
    (hpend : s.pending_valid ≠ 0) (halign : s.pending_base % 8 = 0)
    (hrecs : ∀ r ∈ recs, is_data_record r) (hend : is_end_record e)
    (hkeep : keeps_pending s.pending_base recs)
    (hrun : process_lines fuel ((recs ++ [e]).map (fun r => line_of r.text)) s = some s') :
    ∃ high, high.length = 4 ∧
      (s.pending_base,
        [s.pending_low4 0, s.pending_low4 1, s.pending_low4 2, s.pending_low4 3] ++ high)
        ∈ s'.programs.drop s.programs.length := by
  induction recs generalizing s with
  | nil =>
    have hrun' : (process_line fuel { s with srec_line := line_of e.text }).bind
        (process_lines fuel []) = some s' := hrun
    obtain ⟨s1, d1, -, d3⟩ := process_line_end_exists fuel s e hend
    rw [d1] at hrun'
    have hs : s1 = s' := by simpa [process_lines] using hrun'
    subst hs
    refine ⟨[255, 255, 255, 255], rfl, ?_⟩
    rw [if_pos hpend] at d3
    exact mem_drop_of_append s.programs _ [] _ _ (by rw [d3, List.append_nil]; rfl)
      (List.mem_singleton.mpr rfl)
  | cons r rest ih =>
    have hrun' : (process_line fuel { s with srec_line := line_of r.text }).bind
        (process_lines fuel ((rest ++ [e]).map (fun r => line_of r.text))) = some s' := hrun
    simp only [Option.bind_eq_some] at hrun'
    obtain ⟨t, ht, hr⟩ := hrun'
    obtain ⟨hw, hd⟩ := process_line_data fuel s t r (hrecs r (List.mem_cons_self r rest)) ht
    obtain ⟨ext2, he2⟩ := process_lines_programs fuel _ t s' hr
    rcases hkeep with ⟨hm1, hm2⟩ | ⟨hk1, hk2, hk3⟩
    · obtain ⟨ext, he⟩ := write_loop_merge fuel r.addr r.payload.length
        (parse_srec_line (line_of r.text) s.record).2.data
        { s with srec_line := line_of r.text,
                 record := (parse_srec_line (line_of r.text) s.record).2 } t (by omega) hm2
        hpend (by show s.pending_base = r.addr - 4; omega) hw
      refine ⟨[(parse_srec_line (line_of r.text) s.record).2.data 0,
        (parse_srec_line (line_of r.text) s.record).2.data 1,
        (parse_srec_line (line_of r.text) s.record).2.data 2,
        (parse_srec_line (line_of r.text) s.record).2.data 3], rfl, ?_⟩
      have hbase : r.addr - 4 = s.pending_base := by omega
      rw [hbase] at he
      refine mem_drop_of_append s.programs [_] (ext ++ ext2) _ _ ?_ (List.mem_singleton.mpr rfl)
      rw [← he2, he]
      simp
    · obtain ⟨p1, p2, p3⟩ := write_loop_case_c_only fuel r.addr r.payload.length
        (parse_srec_line (line_of r.text) s.record).2.data
        { s with srec_line := line_of r.text,
                 record := (parse_srec_line (line_of r.text) s.record).2 } t hk1 hk2 hw
      obtain ⟨⟨ext, he⟩, -⟩ := write_loop_programs fuel r.addr r.payload.length
        (parse_srec_line (line_of r.text) s.record).2.data
        { s with srec_line := line_of r.text,
                 record := (parse_srec_line (line_of r.text) s.record).2 } t hw
      obtain ⟨high, hh1, hh2⟩ := ih t (by rw [p1]; exact hpend) (by rw [p2]; exact halign)
        (fun x hx => hrecs x (List.mem_cons_of_mem r hx)) (by rw [p2]; exact hk3) hr
      refine ⟨high, hh1, ?_⟩
      rw [p2, p3] at hh2
      have hlen : t.programs.length = s.programs.length + ext.length := by
        rw [← he, List.length_append]
      rw [hlen, ← List.drop_drop] at hh2
      exact List.mem_of_mem_drop hh2

theorem kept_fragment_is_programmed_witness :
    ∃ s', process_lines 2 (([placed_far8] ++ [placed_s9]).map (fun r => line_of r.text))
        state_pending = some s' ∧
      ∃ high, high.length = 4 ∧
        (state_pending.pending_base,
          [state_pending.pending_low4 0, state_pending.pending_low4 1,
           state_pending.pending_low4 2, state_pending.pending_low4 3] ++ high)
          ∈ s'.programs.drop state_pending.programs.length := by
  obtain ⟨-, -, -, c4, c5⟩ := placed_check
  obtain ⟨s1, a1, -, -⟩ := process_line_aligned8 0
    { state_pending with srec_line := line_of placed_far8.text }
    (by decide) (by decide) (by decide) (by decide) (by decide) (by decide) (by decide)
  obtain ⟨s2, d1, -, -⟩ := process_line_end_exists 2 s1 placed_s9 c5
  have hrun : process_lines 2 (([placed_far8] ++ [placed_s9]).map (fun r => line_of r.text))
      state_pending = some s2 := by
    show (process_line 2 { state_pending with srec_line := line_of placed_far8.text }).bind
        (process_lines 2 [line_of placed_s9.text]) = some s2
    rw [a1, Option.some_bind]
    show (process_line 2 { s1 with srec_line := line_of placed_s9.text }).bind
        (process_lines 2 []) = some s2
    rw [d1]; rfl
  exact ⟨s2, hrun, kept_fragment_is_programmed 2 [placed_far8] placed_s9 state_pending s2
    (by decide) (by decide) (by decide) c5 (by decide) hrun⟩

/-! ### C29 -/

/-- C29, the code at the failing input. The line `S100FF00` has the byte count 0, less
than the address width 2 plus 1. `parse_srec_line` computes the signed length -3, reads
the checksum pair from the count field and accepts the line as valid; the `uint8_t`
field `data_len` receives 253 and `data` is left as the caller's record held it. The
address 0xFF00 lies in the application window, so the loop body of `Bootloader_Mode`
enters the write loop with 253 bytes that were never decoded from this line: its first
iteration programs 8 of them at 0xFF00, and the loop never returns. -/
theorem zero_count_line_accepted_valid (fuel : Nat) (s : BootState) :
    hex_to_byte (advance (line_of text_zero_count) 2) = 0 ∧
      (parse_srec_line (line_of text_zero_count) s.record).1 = 0 ∧
      (parse_srec_line (line_of text_zero_count) s.record).2.valid = 1 ∧
      (parse_srec_line (line_of text_zero_count) s.record).2.type = 1 ∧
      (parse_srec_line (line_of text_zero_count) s.record).2.address = 0xFF00 ∧
      (parse_srec_line (line_of text_zero_count) s.record).2.data_len = 253 ∧
      (parse_srec_line (line_of text_zero_count) s.record).2.data = s.record.data ∧
      APP_FLASH_START ≤ 0xFF00 ∧ 0xFF00 ≤ APP_FLASH_END ∧
      write_loop (fuel + 1) 0xFF00 253 s.record.data s
        = write_loop fuel 0xFF08 245 (advance s.record.data 8)
            (Program_LongWord_8B 0xFF00 s.record.data s) ∧
      process_line fuel { s with srec_line := line_of text_zero_count } = none := by
  have hp := parse_zero_count s.record
  refine ⟨by decide, by rw [hp], by rw [hp], by rw [hp], by rw [hp], by rw [hp], by rw [hp],
    by decide, by decide, ?_, ?_⟩
  · rw [write_loop_case_c _ _ _ _ _ (by decide) (by decide)]
  · have hin : (0xFF00 : Nat) ≥ APP_FLASH_START ∧ (0xFF00 : Nat) ≤ APP_FLASH_END := by decide
    unfold process_line process_data
    simp only [hp, ne_eq, one_ne_zero, not_false_eq_true, and_self, if_true, true_or, hin]
    rw [write_loop_len5_hangs _ _ _ _ _ (by decide) (by decide)]
    rfl

/-! ### C30 -/

/-- C30. Every call of `Bootloader_Mode` that returns leaves the record queue empty,
whatever the state it started in. Hence in the main loop started from the state
`UART_Init` establishes, over any schedule of received bytes, the record queue is empty
after every pass, and every `SREC_QueuePush` call of the line assembler finds the queue
holding zero lines and returns true. Such calls do occur: the record line
`S10BA000010203040506070830` received one byte per pass makes exactly one. -/
theorem record_queue_empty_after_every_pass (fuel : Nat) (sched : List (List Nat))
    (s : BootState) :
    (∀ t t' : BootState, Bootloader_Mode fuel t = some t' → t'.queue.count = 0) ∧
      (UART_Init s).queue.count = 0 ∧
      (∀ s', main_loop fuel sched (UART_Init s) = some s' → s'.queue.count = 0) ∧
      (∀ x ∈ main_loop_pushes fuel sched (UART_Init s), x = (0, true)) ∧
      main_loop_pushes 3 (one_per_pass (text_s1_8 ++ [10])) (UART_Init boot_state0)
        = [(0, true)] :=
  ⟨fun t t' h => Bootloader_Mode_leaves_empty fuel t t' h, rfl,
    fun s' h => main_loop_leaves_empty fuel sched (UART_Init s) s' rfl h,
    main_loop_pushes_succeed fuel sched (UART_Init s) rfl,
    main_loop_pushes_line 2 text_s1_8 (UART_Init boot_state0) (by decide) rfl (by decide)
      (by decide) (by decide) (by decide)⟩

end Bootloader
